import Mathlib

/-!
Verification development for the tuido task-board program.

The development shallowly embeds the parts of the source that the
verified properties are about:

  * the document codec (`src/tuido/parser.py`): `parse_task_content`,
    `parse_front_matter`, `parse_todo_file`, `save_todo_file`;
  * the board operations (`src/tuido/models.py`): `reorder_task`,
    `move_task_to_column`, `_update_subtask_columns`;
  * the push-side reconciliation (`src/tuido/cmd_push.py`):
    `normalize_tags`, `task_matches_record`, `compare_tasks_with_records`;
  * the pull-side apply step (`src/tuido/cmd_pull.py`):
    `apply_remote_changes`.

Text is modelled as `Str := List Char`.  Python regular expressions used
by the parser are fixed patterns, embedded as single-pass scanners; the
character classes of `re` (`\w`, `\d`, whitespace) are modelled over
their ASCII range.  Python dictionaries are modelled as association
lists whose update keeps the position of an existing key and appends a
fresh key, matching insertion-order semantics of `dict`.

Two views of the task graph are used, matching how the source accesses
it.  The codec never compares task objects, so it is embedded over an
ordinary tree type (`Task`).  The board operations of `models.py` and
the pull apply step locate tasks through Python object references and
`list` membership (which compares by `==` with an identity short
circuit), so they are embedded over a heap of task records addressed by
index (`PyBoard`), where Python's `==` becomes an explicit fuelled
relation `pyEq` and possible `RecursionError` is an `Option` failure.

A faithfulness note that matters for several properties: the `Task`
dataclass of `models.py` declares no `updated_at` field and the
`FeishuTask` dataclass declares no `timestamp` field, although
`parser.py` line 186 passes `updated_at=` to the `Task` constructor,
`save_todo_file` reads `task.updated_at`, and `cmd_push.py` lines 29 and
205 read and set `task.timestamp`.  Running the program therefore
raises `TypeError` on any parsed task line and `AttributeError` inside
`task_matches_record`.  The codec embedding below gives `Task` the
`updated_at` field that `parser.py` requires, and the push embedding
gives its record type (`PushTask`) the `timestamp` field that
`cmd_push.py` requires; the mismatch itself is recorded in the theorems
about the affected claims.
-/

namespace Tuido

/-- Characters of a line of text.  Python `str` values are embedded as
their character lists. -/
abbrev Str := List Char

/-- Shorthand turning a Lean string literal into a `Str`. -/
def S (s : String) : Str := s.data

/-- The whitespace class of Python `str.strip` / `str.lstrip`
(ASCII range). -/
def isSpaceChar (c : Char) : Bool :=
  c = ' ' || c = '\t' || c = '\n' || c = '\r' || c = '\x0b' || c = '\x0c'

/-- Python `str.lstrip()`. -/
def trimLeft (s : Str) : Str := s.dropWhile isSpaceChar

/-- Python `str.rstrip()`. -/
def trimRight (s : Str) : Str := (s.reverse.dropWhile isSpaceChar).reverse

/-- Python `str.strip()`. -/
def trim (s : Str) : Str := trimRight (trimLeft s)

/-- `len(line) - len(line.lstrip())`: the number of leading whitespace
characters. -/
def leadingWs (s : Str) : Nat := (s.takeWhile isSpaceChar).length

/-- The word-character class of `re` `\w` (ASCII range). -/
def isWordChar (c : Char) : Bool := c.isAlphanum || c = '_'

/-- Uppercase a string, Python `str.upper()` (ASCII range). -/
def upperStr (s : Str) : Str := s.map Char.toUpper

/-- All matches of `#(\w+)` in order of appearance (`re.findall` in
`parse_task_content`).  The scanner state holds the reversed characters
of the word currently being collected after a `#`. -/
def findTagsAux : Option Str → Str → List Str
  | none, [] => []
  | some w, [] => if w.isEmpty then [] else [w.reverse]
  | none, c :: rest =>
      if c = '#' then findTagsAux (some []) rest else findTagsAux none rest
  | some w, c :: rest =>
      if isWordChar c then findTagsAux (some (c :: w)) rest
      else
        (if w.isEmpty then [] else [w.reverse]) ++
          (if c = '#' then findTagsAux (some []) rest else findTagsAux none rest)

/-- `re.findall(r"#(\w+)", content)`. -/
def findTags (s : Str) : List Str := findTagsAux none s

/-- `re.sub(r"#(\w+)", "", s)`: remove every `#word` match, keeping a
`#` that is not followed by a word character. -/
def stripTagsAux : Option Str → Str → Str
  | none, [] => []
  | some w, [] => if w.isEmpty then ['#'] else []
  | none, c :: rest =>
      if c = '#' then stripTagsAux (some []) rest else c :: stripTagsAux none rest
  | some w, c :: rest =>
      if isWordChar c then stripTagsAux (some (c :: w)) rest
      else
        (if w.isEmpty then ['#'] else []) ++
          (if c = '#' then stripTagsAux (some []) rest else c :: stripTagsAux none rest)

/-- `re.sub(r"#(\w+)", "", s)`. -/
def stripTags (s : Str) : Str := stripTagsAux none s

/-- Does `!([Pp][0-4])` match at the head of the string?  Returns the
captured group. -/
def priMatchAt : Str → Option Str
  | '!' :: p :: d :: _ =>
      if (p = 'P' || p = 'p') && ('0' ≤ d && d ≤ '4') then some [p, d] else none
  | _ => none

/-- `re.search(r"!([Pp][0-4])", s)`: the first captured group, if any. -/
def priFind : Str → Option Str
  | [] => none
  | c :: rest =>
      match priMatchAt (c :: rest) with
      | some g => some g
      | none => priFind rest

/-- `re.sub(r"!([Pp][0-4])", "", s)`: remove every non-overlapping
match, scanning left to right. -/
def priStrip : Str → Str
  | '!' :: p :: d :: rest =>
      if (p = 'P' || p = 'p') && ('0' ≤ d && d ≤ '4') then priStrip rest
      else '!' :: priStrip (p :: d :: rest)
  | c :: rest => c :: priStrip rest
  | [] => []

/-- Does `~(\d{4}-\d{2}-\d{2}T\d{2}:\d{2})` match at the head of the
string?  Returns the captured group (16 characters). -/
def tsMatchAt : Str → Option Str
  | '~' :: a :: b :: c :: d :: '-' :: e :: f :: '-' :: g :: h :: 'T' :: i :: j :: ':' :: k :: l :: _ =>
      if (a.isDigit && b.isDigit && c.isDigit && d.isDigit && e.isDigit &&
          f.isDigit && g.isDigit && h.isDigit && i.isDigit && j.isDigit &&
          k.isDigit && l.isDigit) then
        some [a, b, c, d, '-', e, f, '-', g, h, 'T', i, j, ':', k, l]
      else none
  | _ => none

/-- `re.search(r"~(\d{4}-\d{2}-\d{2}T\d{2}:\d{2})", s)`: the first
captured group, if any. -/
def tsFind : Str → Option Str
  | [] => none
  | c :: rest =>
      match tsMatchAt (c :: rest) with
      | some g => some g
      | none => tsFind rest

/-- `re.sub(r"~(\d{4}-\d{2}-\d{2}T\d{2}:\d{2})", "", s)`. -/
def tsStrip : Str → Str
  | '~' :: a :: b :: c :: d :: '-' :: e :: f :: '-' :: g :: h :: 'T' :: i :: j :: ':' :: k :: l :: rest =>
      if (a.isDigit && b.isDigit && c.isDigit && d.isDigit && e.isDigit &&
          f.isDigit && g.isDigit && h.isDigit && i.isDigit && j.isDigit &&
          k.isDigit && l.isDigit) then
        tsStrip rest
      else '~' :: tsStrip (a :: b :: c :: d :: '-' :: e :: f :: '-' :: g :: h :: 'T' :: i :: j :: ':' :: k :: l :: rest)
  | c :: rest => c :: tsStrip rest
  | [] => []

/-- The result dictionary of `parse_task_content`. -/
structure TaskMeta where
  title : Str
  tags : List Str
  priority : Option Str
  updated_at : Option Str
  deriving Repr, DecidableEq

/-- `parser.parse_task_content`: extract tags, priority and timestamp
from a task line's free text and strip them from the title. -/
def parse_task_content (content : Str) : TaskMeta :=
  let tags := findTags content
  let title1 := trim (stripTags content)
  let pt :=
    match priFind content with
    | some g => (some (upperStr g), trim (priStrip title1))
    | none => ((none : Option Str), title1)
  let tt :=
    match tsFind content with
    | some g => (some g, trim (tsStrip pt.2))
    | none => ((none : Option Str), pt.2)
  { title := tt.2, tags := tags, priority := pt.1, updated_at := tt.1 }

/-- A front-matter value: a string or a one-level nested mapping, the
two shapes `parse_front_matter` can produce. -/
inductive SettingVal where
  | str (s : Str)
  | map (m : List (Str × Str))
  deriving Repr, DecidableEq

/-- The settings dictionary, as an insertion-ordered association list. -/
abbrev Settings := List (Str × SettingVal)

/-- Python `dict` assignment `d[k] = v`: replace the value at an
existing key keeping its position, or append a fresh key. -/
def setAssoc {α : Type} : List (Str × α) → Str → α → List (Str × α)
  | [], k, v => [(k, v)]
  | (k', v') :: rest, k, v =>
      if k' = k then (k', v) :: rest else (k', v') :: setAssoc rest k v

/-- Python `d.get(k)` on an association list. -/
def getAssoc {α : Type} : List (Str × α) → Str → Option α
  | [], _ => none
  | (k', v') :: rest, k => if k' = k then some v' else getAssoc rest k

/-- `settings[current_nested_key][key] = value` in `parse_front_matter`
(the nested key always holds a mapping when this runs). -/
def setNested (s : Settings) (nk k v : Str) : Settings :=
  s.map (fun p =>
    if p.1 = nk then
      (p.1, match p.2 with
            | SettingVal.map m => SettingVal.map (setAssoc m k v)
            | other => other)
    else p)

/-- The indentation of the next non-blank, non-comment line of the
front-matter body (`next_line_indent` in `parse_front_matter`),
defaulting to 0. -/
def nextIndent : List Str → Nat
  | [] => 0
  | line :: rest =>
      let st := trim line
      if st.isEmpty || st.head? = some '#' then nextIndent rest
      else leadingWs line

/-- Python `s.split(":", 1)`: the text before and after the first
colon.  Only used after membership of `:` has been checked. -/
def splitColon : Str → Str × Str
  | [] => ([], [])
  | ':' :: rest => ([], rest)
  | c :: rest => let p := splitColon rest; (c :: p.1, p.2)

/-- The per-line loop of `parse_front_matter` over the lines strictly
between the two `---` markers, carrying `current_nested_key`. -/
def fmLoop : List Str → Option Str → Settings → Settings
  | [], _, acc => acc
  | line :: rest, curNested, acc =>
      let stripped := trim line
      if stripped.isEmpty || stripped.head? = some '#' then
        fmLoop rest curNested acc
      else if stripped.contains ':' then
        let kv := splitColon stripped
        let key := trim kv.1
        let value := trim kv.2
        let ni := nextIndent rest
        let ci := leadingWs line
        if value.isEmpty && ci < ni then
          fmLoop rest (some key) (setAssoc acc key (SettingVal.map []))
        else
          match curNested with
          | some nk =>
              if 0 < ci then fmLoop rest curNested (setNested acc nk key value)
              else fmLoop rest none (setAssoc acc key (SettingVal.str value))
          | none => fmLoop rest none (setAssoc acc key (SettingVal.str value))
      else
        match curNested with
        | some _ =>
            if leadingWs line = 0 then fmLoop rest none acc
            else fmLoop rest curNested acc
        | none => fmLoop rest curNested acc

/-- `parser.parse_front_matter`: the parsed settings and the index of
the first line after the front-matter block. -/
def parse_front_matter (lines : List Str) : Settings × Nat :=
  if lines.length < 2 then ([], 0)
  else
    match lines with
    | [] => ([], 0)
    | first :: rest =>
        if trim first ≠ S "---" then ([], 0)
        else
          match rest.findIdx? (fun l => trim l == S "---") with
          | none => ([], 0)
          | some i => (fmLoop (rest.take i) none [], i + 2)

mutual
/-- The task node as `parser.py` builds it: the fields of the
`models.py` `Task` dataclass plus the `updated_at` field that the
parser passes to the constructor and the serializer reads (the
dataclass itself omits it; see the theorems about that mismatch).  The
`parent` back-reference is represented by the tree structure itself. -/
inductive Task where
  | mk (title : Str) (column : Str) (tags : List Str) (priority : Option Str)
       (level : Nat) (updated_at : Option Str) (project : Option Str)
       (subtasks : Tasks)

/-- An ordered list of child tasks (a separate inductive so that all
recursions over the tree are structural). -/
inductive Tasks where
  | nil
  | cons (t : Task) (ts : Tasks)
end

def Task.title : Task → Str
  | .mk t _ _ _ _ _ _ _ => t

def Task.column : Task → Str
  | .mk _ c _ _ _ _ _ _ => c

def Task.tags : Task → List Str
  | .mk _ _ tg _ _ _ _ _ => tg

def Task.priority : Task → Option Str
  | .mk _ _ _ p _ _ _ _ => p

def Task.level : Task → Nat
  | .mk _ _ _ _ l _ _ _ => l

def Task.updated_at : Task → Option Str
  | .mk _ _ _ _ _ u _ _ => u

def Task.project : Task → Option Str
  | .mk _ _ _ _ _ _ pr _ => pr

def Task.subtasks : Task → Tasks
  | .mk _ _ _ _ _ _ _ s => s

def Tasks.ofList : List Task → Tasks
  | [] => .nil
  | t :: ts => .cons t (Tasks.ofList ts)

/-- `models.Board`, as the parser builds it: ordered columns of
top-level task trees plus front-matter settings. -/
structure Board where
  title : Str
  columns : List (Str × List Task)
  settings : Settings

/-- `column_name in board.columns`. -/
def hasKey {α : Type} (l : List (Str × α)) (k : Str) : Bool :=
  l.any (fun p => p.1 == k)

/-- `board.columns[column_name] = []` when absent (keeps first-seen
column order). -/
def ensureCol (cols : List (Str × List Task)) (k : Str) : List (Str × List Task) :=
  if hasKey cols k then cols else cols ++ [(k, [])]

/-- `board.columns[name].append(t)`. -/
def appendToCol (cols : List (Str × List Task)) (k : Str) (t : Task) :
    List (Str × List Task) :=
  cols.map (fun p => if p.1 = k then (p.1, p.2 ++ [t]) else p)

/-- A task line still open on the parser's `parent_stack`: the fields
already parsed plus the children attached so far (in reverse).  The
Python parser mutates `parent.subtasks` while the parent is on the
stack; in this pure translation the accumulated children are attached
when the frame is popped, which produces the same final board because
a partially built task is never observed. -/
structure Frame where
  title : Str
  column : Str
  tags : List Str
  priority : Option Str
  updated_at : Option Str
  level : Nat
  revKids : List Task

/-- The finished task of a popped frame. -/
def finalizeFrame (fr : Frame) : Task :=
  Task.mk fr.title fr.column fr.tags fr.priority fr.level fr.updated_at none
    (Tasks.ofList fr.revKids.reverse)

/-- The state of the main loop of `parse_todo_file`: the columns built
so far, `current_column`, and `parent_stack` (head = innermost). -/
structure PState where
  cols : List (Str × List Task)
  current : Option Str
  stack : List Frame

/-- Pop one frame: the finished task is attached to the frame below it
(Python attached it to `parent_stack[-1]` when it was pushed), or —
for a level-0 frame at the bottom — appended to its column (Python
appended it to `board.columns[current_column]` when it was pushed).  A
deeper frame at the bottom of the stack was attached nowhere by the
Python code and is dropped. -/
def popFrame (st : PState) : PState :=
  match st.stack with
  | [] => st
  | fr :: below =>
      let t := finalizeFrame fr
      match below with
      | [] =>
          if fr.level = 0 then
            { st with stack := [], cols := appendToCol st.cols fr.column t }
          else { st with stack := [] }
      | p :: rest =>
          { st with stack := { p with revKids := t :: p.revKids } :: rest }

/-- `while len(parent_stack) > level: parent_stack.pop()` (with the
deferred attachment of `popFrame`). -/
def popToAux : Nat → Nat → PState → PState
  | 0, _, st => st
  | fuel + 1, lvl, st =>
      if lvl < st.stack.length then popToAux fuel lvl (popFrame st) else st

/-- Pop the stack down to the given length. -/
def popToLevel (lvl : Nat) (st : PState) : PState :=
  popToAux st.stack.length lvl st

/-- One line of the main loop of `parse_todo_file`. -/
def parseLine (st : PState) (line : Str) : PState :=
  let stripped := trim line
  if stripped.isEmpty then st
  else if (S "## ").isPrefixOf stripped then
    let name := trim (stripped.drop 3)
    let st1 := popToLevel 0 st
    { st1 with cols := ensureCol st1.cols name, current := some name }
  else if (S "- ").isPrefixOf stripped then
    let st0 :=
      match st.current with
      | some _ => st
      | none => { st with cols := ensureCol st.cols (S "Todo"),
                          current := some (S "Todo") }
    let colName := match st.current with | some c => c | none => S "Todo"
    let level := leadingWs line / 2
    let content := trim (stripped.drop 2)
    let meta := parse_task_content content
    let st1 := popToLevel level st0
    { st1 with stack :=
        { title := meta.title, column := colName, tags := meta.tags,
          priority := meta.priority, updated_at := meta.updated_at,
          level := level, revKids := [] } :: st1.stack }
  else st

/-- The main loop of `parse_todo_file` over the lines after the front
matter, with a final flush of the stack. -/
def parseLoop : List Str → PState → PState
  | [], st => popToLevel 0 st
  | line :: rest, st => parseLoop rest (parseLine st line)

/-- `parser.parse_todo_file`, over the list of lines of an existing
file (`Path` handling and `readlines` are elided). -/
def parse_todo_file (lines : List Str) : Board :=
  let fm := parse_front_matter lines
  let st := parseLoop (lines.drop fm.2)
    { cols := [], current := none, stack := [] }
  let cols :=
    if st.cols.isEmpty then
      [(S "Todo", []), (S "In Progress", []), (S "Done", [])]
    else st.cols
  { title := S "TODO Board", columns := cols, settings := fm.1 }

/-- The `content` local of `format_task` inside `save_todo_file`: the
title followed by the rendered tags, priority and timestamp. -/
def taskContent (t : Task) : Str :=
  t.title ++
  (if t.tags.isEmpty then [] else
    ' ' :: List.intercalate [' '] (t.tags.map (fun tag => '#' :: tag))) ++
  (match t.priority with
   | some p => ' ' :: '!' :: upperStr p
   | none => []) ++
  (match t.updated_at with
   | some u => ' ' :: '~' :: u
   | none => [])

/-- `format_task` inside `save_todo_file`: one task line with two
spaces of indentation per tree depth. -/
def format_task (t : Task) (indentLevel : Nat) : Str :=
  List.replicate (2 * indentLevel) ' ' ++ S "- " ++ taskContent t

mutual
/-- `write_task_with_subtasks` inside `save_todo_file`. -/
def write_task_with_subtasks : Task → Nat → List Str
  | Task.mk ti co tg pr lv ua pj subs, d =>
      format_task (Task.mk ti co tg pr lv ua pj subs) d ::
        writeTasksList subs (d + 1)

/-- `write_task_with_subtasks` mapped over a child list. -/
def writeTasksList : Tasks → Nat → List Str
  | Tasks.nil, _ => []
  | Tasks.cons t ts, d => write_task_with_subtasks t d ++ writeTasksList ts d
end

mutual
/-- The structural content of a task that the round-trip property
compares: title, tags, priority, timestamp and the hierarchy, i.e. the
data listed by the specification (the `level` counter and the `column`
back-pointer are determined by the position in the board). -/
inductive AbsTask where
  | mk (title : Str) (tags : List Str) (priority : Option Str)
       (updated_at : Option Str) (subtasks : AbsTasks)

/-- Ordered children of an `AbsTask`. -/
inductive AbsTasks where
  | nil
  | cons (t : AbsTask) (ts : AbsTasks)
end

mutual
/-- Forget position-derived fields of a task. -/
def absTask : Task → AbsTask
  | Task.mk ti _ tg pr _ ua _ subs => AbsTask.mk ti tg pr ua (absTasks subs)

/-- `absTask` on a child list. -/
def absTasks : Tasks → AbsTasks
  | Tasks.nil => AbsTasks.nil
  | Tasks.cons t ts => AbsTasks.cons (absTask t) (absTasks ts)
end

/-- The task record of the `models.py` `Task` dataclass, exactly its
declared fields (`title`, `column`, `tags`, `priority`, `level`,
`parent`, `subtasks`, `project` — the dataclass declares no
`updated_at`).  `parent` and `subtasks` hold heap indices, embedding
the Python object references. -/
structure PyTask where
  title : Str
  column : Str
  tags : List Str
  priority : Option Str
  level : Nat
  parent : Option Nat
  subtasks : List Nat
  project : Option Str
  deriving Repr, DecidableEq, Inhabited

/-- The Python heap of task objects, addressed by index. -/
abbrev Heap := List PyTask

/-- `heap[i]` (theorems only use indices below the length). -/
def hGet (h : Heap) (i : Nat) : PyTask := h.getD i default

/-- Overwrite `heap[i]` (a Python attribute assignment). -/
def hSet (h : Heap) (i : Nat) (t : PyTask) : Heap := h.set i t

/-- `models.Board` together with the heap its task references point
into. -/
structure PyBoard where
  title : Str
  columns : List (Str × List Nat)
  settings : Settings
  heap : Heap
  deriving Repr, DecidableEq

/-- `==` on two subtask lists, given the element comparator: length
check, then elementwise with early exit. -/
def pyEqListWith (f : Nat → Nat → Option Bool) : List Nat → List Nat → Option Bool
  | [], [] => some true
  | x :: xs, y :: ys =>
      match f x y with
      | none => none
      | some false => some false
      | some true => pyEqListWith f xs ys
  | _, _ => some false

/-- `==` on the optional parent references, given the comparator. -/
def pyEqParentWith (f : Nat → Nat → Option Bool) :
    Option Nat → Option Nat → Option Bool
  | none, none => some true
  | some x, some y => f x y
  | _, _ => some false

/-- Python `==` between two task objects (`a == b`), as the generated
dataclass `__eq__` executes it: comparisons go through
`PyObject_RichCompareBool`, which short-circuits on object identity,
then the field tuples are compared in declaration order with early
exit; the `parent` references and the `subtasks` elements recurse.
`none` models the `RecursionError` Python raises when the recursion
does not bottom out. -/
def pyEqT : Nat → Heap → Nat → Nat → Option Bool
  | 0, _, _, _ => none
  | fuel + 1, h, a, b =>
      if a = b then some true
      else
        let ta := hGet h a
        let tb := hGet h b
        if ta.title ≠ tb.title then some false
        else if ta.column ≠ tb.column then some false
        else if ta.tags ≠ tb.tags then some false
        else if ta.priority ≠ tb.priority then some false
        else if ta.level ≠ tb.level then some false
        else
          match pyEqParentWith (pyEqT fuel h) ta.parent tb.parent with
          | none => none
          | some false => some false
          | some true =>
              match pyEqListWith (pyEqT fuel h) ta.subtasks tb.subtasks with
              | none => none
              | some false => some false
              | some true => some (ta.project = tb.project)

/-- Python `list.index(x)`: the index of the first element comparing
equal to `x` (identity short circuit included); inner `none` is
`ValueError`, outer `none` is `RecursionError`. -/
def pyIndexAux : Nat → Heap → List Nat → Nat → Nat → Option (Option Nat)
  | _, _, [], _, _ => some none
  | fuel, h, y :: ys, x, i =>
      match pyEqT fuel h y x with
      | none => none
      | some true => some (some i)
      | some false => pyIndexAux fuel h ys x (i + 1)

/-- Python `list.index(x)` starting at index 0. -/
def pyIndex (fuel : Nat) (h : Heap) (l : List Nat) (x : Nat) : Option (Option Nat) :=
  pyIndexAux fuel h l x 0

/-- Python `x in l`. -/
def pyIn (fuel : Nat) (h : Heap) (l : List Nat) (x : Nat) : Option Bool :=
  match pyIndex fuel h l x with
  | none => none
  | some r => some r.isSome

/-- Exchange two positions of a list (`l[i], l[j] = l[j], l[i]`). -/
def swapList (l : List Nat) (i j : Nat) : List Nat :=
  (l.set i (l.getD j 0)).set j (l.getD i 0)

/-- Replace the id list stored at a column key. -/
def setCol (cols : List (Str × List Nat)) (k : Str) (l : List Nat) :
    List (Str × List Nat) :=
  cols.map (fun p => if p.1 = k then (p.1, l) else p)

/-- `board.columns[k].append(i)` on the id representation. -/
def appendIdCol (cols : List (Str × List Nat)) (k : Str) (i : Nat) :
    List (Str × List Nat) :=
  cols.map (fun p => if p.1 = k then (p.1, p.2 ++ [i]) else p)

/-- `models.Board.reorder_task`: swap the task with its neighbour in
its column list (level 0) or its parent's subtask list, locating it
with `list.index`.  `none` models a `RecursionError` escaping the
comparisons. -/
def reorder_task (fuel : Nat) (b : PyBoard) (task : Nat) (direction : Str) :
    Option (Bool × PyBoard) :=
  let td := hGet b.heap task
  if td.level = 0 then
    let tasks := (getAssoc b.columns td.column).getD []
    match pyIndex fuel b.heap tasks task with
    | none => none
    | some none => some (false, b)
    | some (some i) =>
        if direction = S "up" ∧ 0 < i then
          some (true, { b with columns := setCol b.columns td.column (swapList tasks i (i - 1)) })
        else if direction = S "down" ∧ i + 1 < tasks.length then
          some (true, { b with columns := setCol b.columns td.column (swapList tasks i (i + 1)) })
        else some (false, b)
  else
    match td.parent with
    | none => some (false, b)
    | some p =>
        let tasks := (hGet b.heap p).subtasks
        match pyIndex fuel b.heap tasks task with
        | none => none
        | some none => some (false, b)
        | some (some i) =>
            if direction = S "up" ∧ 0 < i then
              some (true, { b with heap := hSet b.heap p { hGet b.heap p with subtasks := swapList tasks i (i - 1) } })
            else if direction = S "down" ∧ i + 1 < tasks.length then
              some (true, { b with heap := hSet b.heap p { hGet b.heap p with subtasks := swapList tasks i (i + 1) } })
            else some (false, b)

/-- The `for subtask in task.subtasks` loop of
`_update_subtask_columns`, given the recursive call: set each child's
`column`, recurse into it, continue with the siblings. -/
def updSubsListWith (f : Heap → Nat → Str → Option Heap) :
    Heap → List Nat → Str → Option Heap
  | h, [], _ => some h
  | h, s :: rest, nc =>
      let h1 := hSet h s { hGet h s with column := nc }
      match f h1 s nc with
      | none => none
      | some h2 => updSubsListWith f h2 rest nc

/-- `models.Board._update_subtask_columns`: recursively set the
`column` attribute of every descendant.  `none` models the
`RecursionError` of an unbounded reference chain. -/
def _update_subtask_columns : Nat → Heap → Nat → Str → Option Heap
  | 0, _, _, _ => none
  | fuel + 1, h, task, new_column =>
      updSubsListWith (_update_subtask_columns fuel) h
        (hGet h task).subtasks new_column

/-- `models.Board.move_task_to_column`: fail if the target column is
unknown or the task is not found (by `in`, i.e. `==` with identity
short circuit) in the list of its recorded column; otherwise remove the
first match, retarget the task's `column`, insert it at the start or
end of the new column and cascade the column to all descendants. -/
def move_task_to_column (fuel : Nat) (b : PyBoard) (task : Nat)
    (new_column : Str) (insert_at : Str) : Option (Bool × PyBoard) :=
  if ¬ hasKey b.columns new_column then some (false, b)
  else
    let td := hGet b.heap task
    let old_tasks := (getAssoc b.columns td.column).getD []
    match pyIndex fuel b.heap old_tasks task with
    | none => none
    | some none => some (false, b)
    | some (some i) =>
        let cols1 := setCol b.columns td.column (old_tasks.eraseIdx i)
        let heap1 := hSet b.heap task { td with column := new_column }
        let newList := (getAssoc cols1 new_column).getD []
        let newList2 := if insert_at = S "start" then task :: newList else newList ++ [task]
        let cols2 := setCol cols1 new_column newList2
        match _update_subtask_columns fuel heap1 task new_column with
        | none => none
        | some heap2 => some (true, { b with columns := cols2, heap := heap2 })

/-- Lexicographic comparison of strings by code point, Python `<=` on
`str`. -/
def strLe : Str → Str → Bool
  | [], _ => true
  | _ :: _, [] => false
  | c :: cs, d :: ds => if c = d then strLe cs ds else decide (c < d)

/-- Insert into a sorted list (ascending in `strLe`). -/
def insertSorted (x : Str) : List Str → List Str
  | [] => [x]
  | y :: ys => if strLe x y then x :: y :: ys else y :: insertSorted x ys

/-- Python `sorted` on a list of strings (insertion sort; the result is
the unique ascending reordering, which is what `sorted` returns). -/
def pySorted : List Str → List Str
  | [] => []
  | x :: xs => insertSorted x (pySorted xs)

/-- `cmd_push.normalize_tags` and `cmd_pull.normalize_tags`:
`", ".join(sorted(tags)) if tags else ""`. -/
def normalize_tags (tags : List Str) : Str :=
  if tags.isEmpty then [] else List.intercalate (S ", ") (pySorted tags)

/-- The value a remote record holds under `"Tags"`: the Feishu client
returns either a list of strings or a comma-joined string. -/
inductive TagsVal where
  | list (l : List Str)
  | str (s : Str)
  deriving Repr, DecidableEq

/-- A remote Feishu record, carrying the values that the `.get` calls
of `cmd_push.py`/`cmd_pull.py` read (with their defaults for missing
keys). -/
structure RemoteRecord where
  task : Str
  project : Str
  status : Str
  tags : TagsVal
  priority : Str
  timestamp : Str
  deriving Repr, DecidableEq

/-- `FeishuTask` exactly as the `models.py` dataclass declares it
(no `timestamp` field).  Used by the pull embedding, which never
touches a timestamp. -/
structure FeishuTask where
  task : Str
  project : Str
  status : Str
  tags : List Str
  priority : Str
  deriving Repr, DecidableEq

/-- A board with two distinct (value-unequal) top-level tasks in
`Todo`, used to witness identity-respecting behaviour. -/
def twoBoard : PyBoard :=
  { title := S "TODO Board",
    columns := [(S "Todo", [0, 1]), (S "Done", [])],
    settings := [],
    heap :=
      [{ title := S "alpha", column := S "Todo", tags := [], priority := none,
         level := 0, parent := none, subtasks := [], project := none },
       { title := S "beta", column := S "Todo", tags := [], priority := none,
         level := 0, parent := none, subtasks := [], project := none }] }

/-- The board `move_task_to_column` produces from `twoBoard` when its
second task is moved to `Done`. -/
def twoMoved : PyBoard :=
  { title := S "TODO Board",
    columns := [(S "Todo", [0]), (S "Done", [1])],
    settings := [],
    heap :=
      [{ title := S "alpha", column := S "Todo", tags := [], priority := none,
         level := 0, parent := none, subtasks := [], project := none },
       { title := S "beta", column := S "Done", tags := [], priority := none,
         level := 0, parent := none, subtasks := [], project := none }] }

/-- The local record as `cmd_push.py` de facto uses it: the
`FeishuTask` fields plus the `timestamp` attribute read at line 29 and
passed to the constructor at line 205.  The `models.py` dataclass
declares neither a `timestamp` field nor a default for it, so the real
calls raise; the theorems about the affected claims record that
divergence. -/
structure PushTask where
  task : Str
  project : Str
  status : Str
  tags : List Str
  priority : Str
  timestamp : Str
  deriving Repr, DecidableEq

/-- Python `s.split(", ")` (two-character separator, non-overlapping,
left to right). -/
def splitCSAux : Str → Str → List Str
  | [], acc => [acc.reverse]
  | ',' :: ' ' :: rest, acc => acc.reverse :: splitCSAux rest []
  | c :: rest, acc => splitCSAux rest (c :: acc)

/-- Python `s.split(", ")`. -/
def splitCommaSpace (s : Str) : List Str := splitCSAux s []

/-- Python `s.split(",")`. -/
def splitCommaAux : Str → Str → List Str
  | [], acc => [acc.reverse]
  | ',' :: rest, acc => acc.reverse :: splitCommaAux rest []
  | c :: rest, acc => splitCommaAux rest (c :: acc)

/-- Python `s.split(",")`. -/
def splitComma (s : Str) : List Str := splitCommaAux s []

/-- The `Tags` extraction of `cmd_push.task_matches_record`:
`record.get("Tags", []) if isinstance(record.get("Tags"), list) else
record.get("Tags", "").split(", ") if record.get("Tags") else []`. -/
def pushRecordTags (r : RemoteRecord) : List Str :=
  match r.tags with
  | TagsVal.list l => l
  | TagsVal.str s => if s.isEmpty then [] else splitCommaSpace s

/-- `cmd_push.task_matches_record`: all compared fields equal
(project, status, normalized tags, priority and timestamp). -/
def task_matches_record (t : PushTask) (r : RemoteRecord) : Bool :=
  t.task == r.task && t.project == r.project && t.status == r.status &&
    normalize_tags t.tags == normalize_tags (pushRecordTags r) &&
    t.priority == r.priority && t.timestamp == r.timestamp

/-- `cmd_push.compare_tasks_with_records`: classify the local tasks and
remote records into (new, unchanged, modified, orphaned). -/
def compare_tasks_with_records (local_tasks : List PushTask)
    (remote_records : List RemoteRecord) :
    List PushTask × List PushTask × List (PushTask × RemoteRecord) ×
      List RemoteRecord :=
  let remote_map := remote_records.foldl
    (fun acc r => if r.task.isEmpty then acc else setAssoc acc r.task r) []
  let local_titles := local_tasks.map (fun t => t.task)
  let acc := local_tasks.foldl
    (fun (a : List PushTask × List PushTask × List (PushTask × RemoteRecord)) t =>
      match getAssoc remote_map t.task with
      | none => (a.1 ++ [t], a.2.1, a.2.2)
      | some r =>
          if task_matches_record t r then (a.1, a.2.1 ++ [t], a.2.2)
          else (a.1, a.2.1, a.2.2 ++ [(t, r)]))
    ([], [], [])
  let orphaned :=
    (remote_map.filter (fun p => !(local_titles.contains p.1))).map Prod.snd
  (acc.1, acc.2.1, acc.2.2, orphaned)

/-- `cmd_pull.record_to_feishu_task` (splits a string `Tags` value on
commas and strips the pieces). -/
def record_to_feishu_task (r : RemoteRecord) : FeishuTask :=
  let tags :=
    match r.tags with
    | TagsVal.list l => l
    | TagsVal.str s => (splitComma s).map trim |>.filter (fun t => !t.isEmpty)
  { task := r.task, project := r.project, status := r.status, tags := tags,
    priority := r.priority }

/-- `cmd_pull.feishu_task_to_task`: a fresh local `Task` object built
from a remote-derived record (defaults: level 0, no parent, no
subtasks, no project). -/
def feishu_task_to_task (ft : FeishuTask) : PyTask :=
  { title := ft.task, column := ft.status, tags := ft.tags,
    priority := if ft.priority.isEmpty then none else some ft.priority,
    level := 0, parent := none, subtasks := [], project := none }

/-- `cmd_pull.task_matches_record`: a local task matches a
remote-derived record when title, column/status, normalized tags and
priority agree. -/
def task_matches_record_pull (h : Heap) (t : Nat) (ft : FeishuTask) : Bool :=
  let td := hGet h t
  td.title == ft.task && td.column == ft.status &&
    normalize_tags td.tags == normalize_tags ft.tags &&
    (td.priority.getD []) == ft.priority

/-- `cmd_pull.compare_remote_with_local`: classify into
(new-from-remote, modified pairs, deleted-locally). -/
def compare_remote_with_local (h : Heap) (remote_records : List RemoteRecord)
    (local_tasks : List Nat) :
    List FeishuTask × List (Nat × FeishuTask) × List Nat :=
  let local_map := local_tasks.foldl
    (fun acc t => setAssoc acc (hGet h t).title t) []
  let step := fun (a : List FeishuTask × List (Nat × FeishuTask) × List Str)
      (r : RemoteRecord) =>
    let ft := record_to_feishu_task r
    if ft.task.isEmpty then a
    else
      let keys := a.2.2 ++ [ft.task]
      match getAssoc local_map ft.task with
      | none => (a.1 ++ [ft], a.2.1, keys)
      | some lt =>
          if task_matches_record_pull h lt ft then (a.1, a.2.1, keys)
          else (a.1, a.2.1 ++ [(lt, ft)], keys)
  let acc := remote_records.foldl step ([], [], [])
  let deleted :=
    (local_map.filter (fun p => !(acc.2.2.contains p.1))).map Prod.snd
  (acc.1, acc.2.1, deleted)

/-- `cmd_pull.flatten_tasks`: all task ids of the board in preorder
(fuelled recursion over the heap references). -/
def flattenAux : Nat → Heap → List Nat → List Nat
  | 0, _, _ => []
  | fuel + 1, h, l =>
      match l with
      | [] => []
      | t :: rest =>
          t :: flattenAux fuel h (hGet h t).subtasks ++ flattenAux fuel h rest

/-- The remote-derived replacement `Task(...)` built inside
`apply_remote_changes` for a modified task: remote scalars, default
level/parent/project, and the original task's subtask references. -/
def replacementTask (t : PyTask) (remote : FeishuTask) : PyTask :=
  { title := remote.task, column := remote.status, tags := remote.tags,
    priority := if remote.priority.isEmpty then none else some remote.priority,
    level := 0, parent := none, subtasks := t.subtasks, project := none }

/-- One iteration of the per-task loop of `apply_remote_changes` (the
state is the new board's columns so far and the heap): skip deleted
titles, append a fresh replacement object for modified titles (into the
remote status column, created on demand), keep everything else. -/
def applyStep (deletedTitles : List Str) (modifiedMap : List (Str × FeishuTask))
    (cn : Str) (st : List (Str × List Nat) × Heap) (id : Nat) :
    List (Str × List Nat) × Heap :=
  let t := hGet st.2 id
  if deletedTitles.contains t.title then st
  else
    match getAssoc modifiedMap t.title with
    | some remote =>
        let nid := st.2.length
        let heap2 := st.2 ++ [replacementTask t remote]
        let cols2 :=
          if remote.status ≠ cn then
            let colsE := if hasKey st.1 remote.status then st.1
                         else st.1 ++ [(remote.status, [])]
            appendIdCol colsE remote.status nid
          else appendIdCol st.1 cn nid
        (cols2, heap2)
    | none => (appendIdCol st.1 cn id, st.2)

/-- One iteration of the new-remote-tasks loop of
`apply_remote_changes`. -/
def applyNew (st : List (Str × List Nat) × Heap) (ft : FeishuTask) :
    List (Str × List Nat) × Heap :=
  let nid := st.2.length
  let heap2 := st.2 ++ [feishu_task_to_task ft]
  let colsE := if hasKey st.1 ft.status then st.1 else st.1 ++ [(ft.status, [])]
  (appendIdCol colsE ft.status nid, heap2)

/-- `cmd_pull.apply_remote_changes`: rebuild the board, dropping
deleted titles, replacing modified titles by remote-derived tasks that
keep the original subtask references, and appending the new remote
tasks. -/
def apply_remote_changes (b : PyBoard) (new_tasks : List FeishuTask)
    (modified_tasks : List (Nat × FeishuTask)) (deleted_tasks : List Nat) :
    PyBoard :=
  let deletedTitles : List Str := deleted_tasks.map (fun i => (hGet b.heap i).title)
  let modifiedMap : List (Str × FeishuTask) := modified_tasks.foldl
    (fun acc p => setAssoc acc (hGet b.heap p.1).title p.2) []
  let initCols : List (Str × List Nat) := b.columns.map (fun p => (p.1, []))
  let st1 := b.columns.foldl
    (fun st p => p.2.foldl (applyStep deletedTitles modifiedMap p.1) st)
    (initCols, b.heap)
  let st2 := new_tasks.foldl applyNew st1
  { title := b.title, columns := st2.1, settings := b.settings, heap := st2.2 }

/-- No element occurs twice (`Bool` version, by `BEq`). -/
def nodupByB {α : Type} [BEq α] : List α → Bool
  | [] => true
  | x :: xs => !(xs.contains x) && nodupByB xs

/-- Concatenate per-root tree extractions, failing if any root
fails. -/
def reachListWith (f : Nat → Option (List Nat)) : List Nat → Option (List Nat)
  | [] => some []
  | t :: rest =>
      match f t, reachListWith f rest with
      | some a, some b => some (a ++ b)
      | _, _ => none

/-- The ids of the tree rooted at the given heap reference, in
preorder.  The fuel bounds the reference depth only, so success does
not depend on sibling order; `none` means the reference graph does not
unwind (in particular a reference cycle). -/
def treeIds : Nat → Heap → Nat → Option (List Nat)
  | 0, _, _ => none
  | fuel + 1, h, t =>
      match reachListWith (treeIds fuel h) (hGet h t).subtasks with
      | none => none
      | some sub => some (t :: sub)

/-- The ids of the trees rooted at the given references, in order. -/
def reachRoots (fuel : Nat) (h : Heap) (roots : List Nat) :
    Option (List Nat) :=
  reachListWith (treeIds fuel h) roots

/-- The ids reachable from all columns of a board, in board order. -/
def allReach (fuel : Nat) (h : Heap) (cols : List (Str × List Nat)) :
    Option (List Nat) :=
  reachRoots fuel h (cols.flatMap Prod.snd)

/-- A generous depth bound for `treeIds` on a given board (an acyclic
reference tree in a heap is at most as deep as the heap is long). -/
def invFuel (b : PyBoard) : Nat := b.heap.length + 1

/-- Every task reachable from a column records that column's name. -/
def colFieldsOk (fuel : Nat) (h : Heap) (cols : List (Str × List Nat)) : Bool :=
  cols.all (fun p =>
    match reachRoots fuel h p.2 with
    | none => false
    | some l => l.all (fun i => decide (i < h.length) && (hGet h i).column == p.1))

/-- The board invariant of the specification, over the heap embedding:
the column structure is a well-founded forest (every reachable id is a
valid heap index and the reference graph unwinds within the fuel), the
recorded `column` of every reachable task equals the name of the column
that transitively contains it, no task object appears in two
containers, and the column keys are distinct (a Python `dict`). -/
def pyInv (b : PyBoard) : Bool :=
  match allReach (invFuel b) b.heap b.columns with
  | none => false
  | some l =>
      nodupByB l && colFieldsOk (invFuel b) b.heap b.columns &&
        nodupByB (b.columns.map Prod.fst)

/-- A board operation of the kind the invariant claim quantifies
over. -/
inductive BoardOp where
  | reorder (task : Nat) (direction : Str)
  | move (task : Nat) (new_column : Str) (insert_at : Str)

/-- Run one board operation. -/
def execOp (fuel : Nat) (b : PyBoard) : BoardOp → Option (Bool × PyBoard)
  | BoardOp.reorder t d => reorder_task fuel b t d
  | BoardOp.move t c i => move_task_to_column fuel b t c i

/-- Run a sequence of board operations, ignoring the returned
booleans. -/
def execOps (fuel : Nat) (b : PyBoard) : List BoardOp → Option PyBoard
  | [] => some b
  | op :: rest =>
      match execOp fuel b op with
      | none => none
      | some pr => execOps fuel pr.2 rest

/-- The task handed to `move_task_to_column` is found at its own
position: the first element of its recorded column list comparing
Python-equal to it is the task object itself (vacuously true when the
lookup fails or raises).  This is exactly what object-identity lookup
would guarantee; it can fail only in the presence of a value-equal
duplicate. -/
def moveSafe (fuel : Nat) (b : PyBoard) (task : Nat) : Prop :=
  match pyIndex fuel b.heap
      ((getAssoc b.columns (hGet b.heap task).column).getD []) task with
  | some (some k) =>
      ((getAssoc b.columns (hGet b.heap task).column).getD []).get? k = some task
  | _ => True

/-- Safety of one operation (reorders need nothing). -/
def opSafe (fuel : Nat) (b : PyBoard) : BoardOp → Prop
  | BoardOp.reorder _ _ => True
  | BoardOp.move t _ _ => moveSafe fuel b t

/-- Safety of a sequence of operations, each judged on the board it
actually runs on. -/
def safeSeq (fuel : Nat) : PyBoard → List BoardOp → Prop
  | _, [] => True
  | b, op :: rest =>
      opSafe fuel b op ∧
        ∀ r b2, execOp fuel b op = some (r, b2) → safeSeq fuel b2 rest

/-- Safety of a pull apply-plan against a board: every surviving
modified top-level task either has no subtasks or keeps its column, so
that the missing cascade of `apply_remote_changes` cannot break the
column-field invariant. -/
def applySafe (b : PyBoard) (modified_tasks : List (Nat × FeishuTask))
    (deleted_tasks : List Nat) : Bool :=
  let deletedTitles : List Str := deleted_tasks.map (fun i => (hGet b.heap i).title)
  let modifiedMap : List (Str × FeishuTask) := modified_tasks.foldl
    (fun acc p => setAssoc acc (hGet b.heap p.1).title p.2) []
  b.columns.all (fun p => p.2.all (fun id =>
    let t := hGet b.heap id
    deletedTitles.contains t.title ||
      (match getAssoc modifiedMap t.title with
       | some r => t.subtasks.isEmpty || r.status == p.1
       | none => true)))

/-- The timestamp strings produced by the parser: exactly the shape
`\d{4}-\d{2}-\d{2}T\d{2}:\d{2}`. -/
def tsShapeB (u : Str) : Bool :=
  u.length = 16 && tsMatchAt ('~' :: u) == some u

/-- The priority strings produced by the parser. -/
def priShapeB (p : Str) : Bool :=
  p == S "P0" || p == S "P1" || p == S "P2" || p == S "P3" || p == S "P4"

mutual
/-- A task as the parser leaves it, stated over the fields themselves:
the title is stripped, free of newlines and of residual tag, priority
and timestamp tokens; at least one of title and metadata is non-empty
(otherwise the line would not render as a task line); tags are
non-empty words; priority and timestamp have the parsed shapes.
All of this holds for parser output except that titles are only
token-free when the input had no overlapping metadata tokens. -/
def wfTask : Task → Bool
  | Task.mk ti _ tg pr _ ua _ subs =>
      trim ti == ti && !(ti.contains '\n') && (findTags ti).isEmpty &&
        (priFind ti).isNone && (tsFind ti).isNone &&
        (!ti.isEmpty || !tg.isEmpty || pr.isSome || ua.isSome) &&
        tg.all (fun t => !t.isEmpty && t.all isWordChar) &&
        (match pr with | none => true | some p => priShapeB p) &&
        (match ua with | none => true | some u => tsShapeB u) &&
        wfTasks subs

/-- `wfTask` over a child list. -/
def wfTasks : Tasks → Bool
  | Tasks.nil => true
  | Tasks.cons t ts => wfTask t && wfTasks ts
end

mutual
/-- Normalize the position-derived fields of a task to its actual
position: the column it sits under and its tree depth.  Re-parsing a
serialized board yields exactly the renormalized tasks. -/
def renormTask (col : Str) (d : Nat) : Task → Task
  | Task.mk ti _ tg pr _ ua _ subs =>
      Task.mk ti col tg pr d ua none (renormTasks col (d + 1) subs)

/-- `renormTask` over a child list (all children of a depth-`d` task
sit at depth `d + 1`; the depth argument here is the children's). -/
def renormTasks (col : Str) (d : Nat) : Tasks → Tasks
  | Tasks.nil => Tasks.nil
  | Tasks.cons t ts => Tasks.cons (renormTask col d t) (renormTasks col d ts)
end

/-- Attach one finished task to the machine state: onto the top frame's
children, or — with an empty stack — onto its column.  This is what
`popFrame` does with a finished frame. -/
def absorb (st : PState) (t : Task) : PState :=
  match st.stack with
  | [] => { st with cols := appendToCol st.cols t.column t }
  | p :: rest => { st with stack := { p with revKids := t :: p.revKids } :: rest }

/-- After these lines, the next significant line (if any) is a column
header or a task line at depth at most `d`: the shape of the
continuation while the serialized forest of depth `d` is parsed. -/
def restShallow (d : Nat) : List Str → Prop
  | [] => True
  | line :: rest =>
      let stripped := trim line
      if stripped.isEmpty then restShallow d rest
      else if (S "## ").isPrefixOf stripped then True
      else if (S "- ").isPrefixOf stripped then leadingWs line / 2 ≤ d
      else restShallow d rest

/-- The found-replacement property that the apply fold preserves:
some fresh id holds the given cell and sits in the given column. -/
def FoundRepl (st : List (Str × List Nat) × Heap) (k : Str) (cell : PyTask) :
    Prop :=
  ∃ nid, nid < st.2.length ∧ hGet st.2 nid = cell ∧
    nid ∈ (getAssoc st.1 k).getD []

/-- The (column name, root id) pairs the apply fold of
`apply_remote_changes` processes, in order. -/
def colPairs (cols : List (Str × List Nat)) : List (Str × Nat) :=
  cols.flatMap (fun p => p.2.map (fun i => (p.1, i)))

/-- The invariant maintained by the apply fold: the heap only grows,
column keys stay distinct, every column entry holds well-formed
correctly-labelled trees, and the ids reached so far together with the
trees still to be processed have no duplicates. -/
def applyInv (b : PyBoard) (st : List (Str × List Nat) × Heap)
    (todo : List (Str × Nat)) : Prop :=
  (∃ ext, st.2 = b.heap ++ ext) ∧
  nodupByB (st.1.map Prod.fst) = true ∧
  (∀ p ∈ st.1, ∃ Lp, reachRoots (st.2.length + 1) st.2 p.2 = some Lp ∧
    ∀ i ∈ Lp, i < st.2.length ∧ (hGet st.2 i).column = p.1) ∧
  (∃ LC LF, allReach (st.2.length + 1) st.2 st.1 = some LC ∧
    (∀ i ∈ LC, i < st.2.length) ∧
    reachListWith (treeIds (invFuel b) b.heap) (todo.map Prod.snd) =
      some LF ∧
    (LC ++ LF).Nodup)

mutual
/-- The parser frames still open after the lines of one serialized
task: the rightmost path of the tree, innermost first. -/
def spineT (col : Str) (d : Nat) : Task → List Frame
  | Task.mk ti _ tg pr _ ua _ subs =>
      spineF col (d + 1) subs
        { title := ti, column := col, tags := tg, priority := pr,
          updated_at := ua, level := d, revKids := [] }

/-- The open frames after the lines of a forest scanned with the given
parent frame on top of the stack: finished siblings accumulate on the
parent, the last sibling stays open. -/
def spineF (col : Str) (d : Nat) : Tasks → Frame → List Frame
  | Tasks.nil, fr => [fr]
  | Tasks.cons s rest, fr =>
      match rest with
      | Tasks.nil => spineT col d s ++ [fr]
      | Tasks.cons s2 rest2 =>
          spineF col d (Tasks.cons s2 rest2)
            { fr with revKids := renormTask col d s :: fr.revKids }
end

mutual
/-- Number of nodes of a task tree. -/
def taskSize : Task → Nat
  | Task.mk _ _ _ _ _ _ _ subs => 1 + tasksSize subs

/-- Number of nodes of a forest. -/
def tasksSize : Tasks → Nat
  | Tasks.nil => 0
  | Tasks.cons t ts => taskSize t + tasksSize ts
end

/-- A well-formed document for the round-trip witness. -/
def C1goodLines : List Str :=
  [S "---", S "theme: dark", S "remote:", S "  feishu_table_id: tblx",
   S "---", S "## Todo", S "- fix parser #bug !P1 ~2026-02-28T14:30",
   S "  - add tests #ui", S "      - deep", S "- second", S "## Done",
   S "- shipped it"]

/-- A top-level task titled `a` with no metadata: two copies of this
record are value-equal but distinct objects. -/
def dupTask : PyTask :=
  { title := S "a", column := S "Todo", tags := [], priority := none,
    level := 0, parent := none, subtasks := [], project := none }

/-- A board with two value-equal duplicate tasks (ids 0 and 1) in
`Todo` and an empty `Done` column. -/
def dupBoard : PyBoard :=
  { title := S "TODO Board",
    columns := [(S "Todo", [0, 1]), (S "Done", [])],
    settings := [], heap := [dupTask, dupTask] }

/-- A three-level chain (`top` with child `mid` with child `leaf`) in
`Todo`, next to an empty `Done` column. -/
def cascBoard : PyBoard :=
  { title := S "TODO Board",
    columns := [(S "Todo", [0]), (S "Done", [])],
    settings := [],
    heap :=
      [{ title := S "top", column := S "Todo", tags := [], priority := none,
         level := 0, parent := none, subtasks := [1], project := none },
       { title := S "mid", column := S "Todo", tags := [], priority := none,
         level := 1, parent := some 0, subtasks := [2], project := none },
       { title := S "leaf", column := S "Todo", tags := [], priority := none,
         level := 2, parent := some 1, subtasks := [], project := none }] }

/-- The board `move_task_to_column` produces from `cascBoard` when the
chain is moved to `Done`. -/
def cascMoved : PyBoard :=
  { title := S "TODO Board",
    columns := [(S "Todo", []), (S "Done", [0])],
    settings := [],
    heap :=
      [{ title := S "top", column := S "Done", tags := [], priority := none,
         level := 0, parent := none, subtasks := [1], project := none },
       { title := S "mid", column := S "Done", tags := [], priority := none,
         level := 1, parent := some 0, subtasks := [2], project := none },
       { title := S "leaf", column := S "Done", tags := [], priority := none,
         level := 2, parent := some 1, subtasks := [], project := none }] }

/-- A remote record whose status matches the column `top` sits in
after the move of the C6 witness, so the apply plan is safe. -/
def c6Remote : FeishuTask :=
  { task := S "top2", project := S "", status := S "Done", tags := [],
    priority := S "" }

/-- A board with top-level `p`, its subtask `s` (which has its own
subtask `u`); `s` carries tag `old`. -/
def pullBoard : PyBoard :=
  { title := S "TODO Board",
    columns := [(S "Todo", [0])],
    settings := [],
    heap :=
      [{ title := S "p", column := S "Todo", tags := [], priority := none,
         level := 0, parent := none, subtasks := [1], project := none },
       { title := S "s", column := S "Todo", tags := [S "old"], priority := none,
         level := 1, parent := some 0, subtasks := [2], project := none },
       { title := S "u", column := S "Todo", tags := [], priority := none,
         level := 2, parent := some 1, subtasks := [], project := none }] }

/-- Remote records matching `p` and `u` exactly and `s` with a changed
tag list: pulled against `pullBoard` they classify `s` as modified. -/
def pullRecP : RemoteRecord :=
  { task := S "p", project := [], status := S "Todo", tags := TagsVal.list [],
    priority := [], timestamp := [] }

/-- The remote record for `s`, carrying tag `new` instead of `old`. -/
def pullRecS : RemoteRecord :=
  { task := S "s", project := [], status := S "Todo",
    tags := TagsVal.list [S "new"], priority := [], timestamp := [] }

/-- The remote record matching `u`. -/
def pullRecU : RemoteRecord :=
  { task := S "u", project := [], status := S "Todo", tags := TagsVal.list [],
    priority := [], timestamp := [] }

/-- The remote-derived record for `s` produced by
`record_to_feishu_task pullRecS`. -/
def pullFtS : FeishuTask :=
  { task := S "s", project := [], status := S "Todo", tags := [S "new"],
    priority := [] }

/-- A remote-derived record that renames the top-level task `p`,
changes its tags and priority and moves it to a new status. -/
def pullFtP : FeishuTask :=
  { task := S "p2", project := [], status := S "Doing", tags := [S "n"],
    priority := S "P1" }

/-- The local record of the literal reconciliation scenario:
key `A`, status `Todo`, no tags, empty priority. -/
def pushTaskA : PushTask :=
  { task := S "A", project := [], status := S "Todo", tags := [],
    priority := [], timestamp := [] }

/-- The remote record matching `A` exactly. -/
def pushRecA : RemoteRecord :=
  { task := S "A", project := [], status := S "Todo", tags := TagsVal.list [],
    priority := [], timestamp := [] }

/-- The orphaned remote record `B` with status `Done`. -/
def pushRecB : RemoteRecord :=
  { task := S "B", project := [], status := S "Done", tags := TagsVal.list [],
    priority := [], timestamp := [] }

/-- A local record with tags `x`, `y` (in that order). -/
def pushTaskT : PushTask :=
  { task := S "T", project := [], status := S "Todo",
    tags := [S "x", S "y"], priority := [], timestamp := [] }

/-- The matching remote record with the same tags in the opposite
order. -/
def pushRecT : RemoteRecord :=
  { task := S "T", project := [], status := S "Todo",
    tags := TagsVal.list [S "y", S "x"], priority := [], timestamp := [] }

/-! Claim theorems: concrete evaluations and counterexamples. -/

/-- Claim C2, counterexample.  Board `dupBoard` holds two distinct but
value-equal task objects 0 and 1 in `Todo`, with the given task (id 1)
in last position.  Identity-based lookup would make
`reorder_task(task1, "down")` a boundary no-op returning `False`; the
code finds the first `==`-equal sibling (`list.index`), so the call
returns `True` and swaps the two positions: the operation acted on the
value-equal duplicate's position, not on the object passed in. -/
theorem claim_C2_counterexample :
    hGet dupBoard.heap 0 = hGet dupBoard.heap 1 ∧
    (getAssoc dupBoard.columns (S "Todo")).getD [] = [0, 1] ∧
    reorder_task 10 dupBoard 1 (S "down") ≠ some (false, dupBoard) ∧
    reorder_task 10 dupBoard 1 (S "down") =
      some (true, { dupBoard with
        columns := [(S "Todo", [1, 0]), (S "Done", [])] }) := by
  refine ⟨by decide, by decide, by decide, by decide⟩

/-- Claim C3: the classification the specification's literal scenario
describes, evaluated on the comparison logic of `cmd_push.py` (with the
`timestamp` field both sides default to the empty string): local `A`
against remote `A` and `B` yields NEW = `[]`, UNCHANGED = `[A]`,
MODIFIED = `[]`, ORPHANED = `[B]`.  Running the actual code instead
raises `AttributeError`, because `task_matches_record` reads
`task.timestamp` and the `models.py` `FeishuTask` dataclass has no such
field — the code bug this claim records. -/
theorem claim_C3_classification :
    compare_tasks_with_records [pushTaskA] [pushRecA, pushRecB] =
      ([], [pushTaskA], [], [pushRecB]) := by decide

/-- Claim C4, counterexample.  In `pullBoard`, the subtask `s` (id 1)
has a subtask of its own and is classified MODIFIED against its
remote record (shown via `compare_remote_with_local` on the flattened
task list); yet `apply_remote_changes` only rewrites top-level tasks,
so `s` keeps its old scalar fields — its tags are not replaced by the
remote tags. -/
theorem claim_C4_counterexample :
    flattenAux 10 pullBoard.heap [0] = [0, 1, 2] ∧
    compare_remote_with_local pullBoard.heap [pullRecP, pullRecS, pullRecU]
        [0, 1, 2] = ([], [(1, pullFtS)], []) ∧
    (hGet pullBoard.heap 1).subtasks ≠ [] ∧
    hGet (apply_remote_changes pullBoard [] [(1, pullFtS)] []).heap 1 =
      hGet pullBoard.heap 1 ∧
    (hGet (apply_remote_changes pullBoard [] [(1, pullFtS)] []).heap 1).tags ≠
      pullFtS.tags := by
  refine ⟨by decide, by decide, by decide, by decide, by decide⟩

/-- Claim C6, counterexample.  `dupBoard` satisfies the column
membership invariant, yet one `move_task_to_column` call on the second
of two value-equal duplicates removes the first duplicate while
inserting the given object into the new column, leaving the same task
object in two containers (and recorded under a column it does not sit
in): the invariant does not survive an arbitrary sequence of model
operations. -/
theorem claim_C6_counterexample :
    pyInv dupBoard = true ∧
    (execOps 10 dupBoard [BoardOp.move 1 (S "Done") (S "end")]).map pyInv =
      some false := by
  refine ⟨by decide, by decide⟩

/-- Claim C7: on a task line containing a single tilde-prefixed
date-and-minute token, `parse_task_content` returns the token as
`updated_at` and the title with the token removed and trimmed.  The
surrounding `parse_todo_file` then passes `updated_at=` to the `Task`
constructor (parser.py line 186), which raises `TypeError` because the
`models.py` `Task` dataclass declares no `updated_at` field — the code
bug this claim records: the model does not carry the field the claim
(and the rest of the code) requires. -/
theorem claim_C7_timestamp_parse :
    parse_task_content (S "Ship the release ~2026-02-28T14:30") =
      { title := S "Ship the release", tags := [], priority := none,
        updated_at := some (S "2026-02-28T14:30") } := by decide

/-- Claim C8: tag normalization sorts and joins with `", "`, so the
permuted tag lists `["x","y"]` and `["y","x"]` normalize identically
and the pair classifies as UNCHANGED, never MODIFIED (evaluated with
the `timestamp` fields both empty; the actual code raises
`AttributeError` at `task.timestamp` before returning — the code bug
this claim records). -/
theorem claim_C8_tag_order :
    normalize_tags [S "x", S "y"] = normalize_tags [S "y", S "x"] ∧
    compare_tasks_with_records [pushTaskT] [pushRecT] =
      ([], [pushTaskT], [], []) := by
  refine ⟨by decide, by decide⟩

/-- Claim C10: a task line appearing before any column header is
assigned to a column named `Todo`, created on demand as the board's
first column.  This is the parse logic of `parse_todo_file` lines
167-171; the subsequent `Task(...)` constructor call at line 180 then
raises `TypeError` (no `updated_at` field on the dataclass), so the
running program rejects the line after all — the code bug this claim
records. -/
theorem claim_C10_default_column :
    parse_todo_file [S "- hello"] =
      { title := S "TODO Board",
        columns := [(S "Todo",
          [Task.mk (S "hello") (S "Todo") [] none 0 none none Tasks.nil])],
        settings := [] } := by rfl

/-- Claim C9: `move_task_to_column` reports failure as a boolean, not
an exception, whenever the target column is not a key of the board's
columns or the given task is not a member (Python `in`, i.e. `==` with
identity short circuit) of the column list named by its recorded
`column` — for example a subtask — and in every such failing call the
board (columns and heap of tasks) is returned unchanged. -/
theorem claim_C9_move_failure (fuel : Nat) (b : PyBoard) (task : Nat)
    (new_column insert_at : Str)
    (h : hasKey b.columns new_column = false ∨
      pyIn fuel b.heap ((getAssoc b.columns (hGet b.heap task).column).getD [])
        task = some false) :
    move_task_to_column fuel b task new_column insert_at = some (false, b) := by
  by_cases hk : hasKey b.columns new_column
  · rcases h with hk' | hin
    · exact absurd hk (by simp [hk'])
    · unfold move_task_to_column
      rw [if_neg (by simp [hk])]
      unfold pyIn at hin
      rcases hidx : pyIndex fuel b.heap
          ((getAssoc b.columns (hGet b.heap task).column).getD []) task with
        _ | r
      · rw [hidx] at hin; exact absurd hin (by simp)
      · rw [hidx] at hin
        rcases r with _ | k
        · simp only [hidx]
        · simp at hin
  · unfold move_task_to_column
    rw [if_pos (by simp [hk])]

/-- Claim C9, witness: moving the subtask `mid` of `cascBoard` (which
is not a top-level member of its recorded column `Todo`) fails with
`False` and leaves the board unchanged. -/
theorem claim_C9_move_failure_witness :
    pyIn 10 cascBoard.heap
      ((getAssoc cascBoard.columns (hGet cascBoard.heap 1).column).getD []) 1 =
        some false ∧
    move_task_to_column 10 cascBoard 1 (S "Done") (S "end") =
      some (false, cascBoard) :=
  ⟨by decide,
    claim_C9_move_failure 10 cascBoard 1 (S "Done") (S "end")
      (Or.inr (by decide))⟩

/-! Heap update lemmas and cascade correctness. -/

theorem hGet_hSet_ne (h : Heap) (i j : Nat) (t : PyTask) (hij : i ≠ j) :
    hGet (hSet h i t) j = hGet h j := by
  simp [hGet, hSet, List.getD, List.getElem?_set_ne hij]

theorem hGet_hSet_self (h : Heap) (i : Nat) (t : PyTask) (hi : i < h.length) :
    hGet (hSet h i t) i = t := by
  simp [hGet, hSet, List.getD, List.getElem?_set_self, hi]

theorem hGet_hSet_out (h : Heap) (i : Nat) (t : PyTask) (hi : ¬ i < h.length) :
    hSet h i t = h := by
  simp [hSet, List.set_eq_of_length_le (Nat.le_of_not_lt hi)]

theorem hSet_length (h : Heap) (i : Nat) (t : PyTask) :
    (hSet h i t).length = h.length :=
  List.length_set h i t

/-- Composing two column-only rewrites is a column-only rewrite. -/
theorem colOr_trans (a b c : PyTask) (nc : Str)
    (h1 : b = a ∨ b = { a with column := nc })
    (h2 : c = b ∨ c = { b with column := nc }) :
    c = a ∨ c = { a with column := nc } := by
  rcases h1 with e1 | e1 <;> rcases h2 with e2 | e2
  · exact Or.inl (e2.trans e1)
  · exact Or.inr (by rw [e2, e1])
  · exact Or.inr (e2.trans e1)
  · subst e1; exact Or.inr e2

/-- The cascade only rewrites `column` fields: afterwards every heap
cell is either untouched or its column is the new name, lengths agree,
and every child in the traversed list that is a valid index got the new
column. -/
theorem updSubs_changes (fuel : Nat) :
    ∀ l h nc h', updSubsListWith (_update_subtask_columns fuel) h l nc = some h' →
      h'.length = h.length ∧
      (∀ j, hGet h' j = hGet h j ∨ hGet h' j = { hGet h j with column := nc }) ∧
      (∀ i ∈ l, i < h.length → (hGet h' i).column = nc) := by
  induction fuel with
  | zero =>
      intro l
      cases l with
      | nil =>
          intro h nc h' he
          simp only [updSubsListWith] at he
          cases he
          exact ⟨rfl, fun j => Or.inl rfl, by simp⟩
      | cons s rest =>
          intro h nc h' he
          simp only [updSubsListWith, _update_subtask_columns] at he
          exact Option.noConfusion he
  | succ σ ih =>
      intro l
      induction l with
      | nil =>
          intro h nc h' he
          simp only [updSubsListWith] at he
          cases he
          exact ⟨rfl, fun j => Or.inl rfl, by simp⟩
      | cons s rest ihl =>
          intro h nc h' he
          simp only [updSubsListWith] at he
          rcases he2 : _update_subtask_columns (σ + 1)
              (hSet h s { hGet h s with column := nc }) s nc with _ | h2
          · rw [he2] at he; exact absurd he (by simp)
          · rw [he2] at he
            have hinner := he2
            simp only [_update_subtask_columns] at hinner
            obtain ⟨hl2, hc2, _⟩ := ih _ _ _ _ hinner
            obtain ⟨hl3, hc3, hm3⟩ := ihl _ _ _ he
            set h1 := hSet h s { hGet h s with column := nc } with hh1
            have hlen1 : h1.length = h.length := hSet_length h s _
            have step1 : ∀ j, hGet h1 j = hGet h j ∨
                hGet h1 j = { hGet h j with column := nc } := by
              intro j
              by_cases hjs : j = s
              · subst hjs
                by_cases hjl : j < h.length
                · exact Or.inr (hGet_hSet_self h j _ hjl)
                · exact Or.inl (by rw [hh1, hGet_hSet_out h j _ hjl])
              · exact Or.inl (hGet_hSet_ne h s j _ (fun e => hjs e.symm))
            have comp : ∀ j, hGet h' j = hGet h j ∨
                hGet h' j = { hGet h j with column := nc } := by
              intro j
              exact colOr_trans _ _ _ nc
                (colOr_trans _ _ _ nc (step1 j) (hc2 j)) (hc3 j)
            refine ⟨by rw [hl3, hl2, hlen1], comp, ?_⟩
            intro i hi hil
            rcases List.mem_cons.mp hi with hieq | hirest
            · subst hieq
              have hcol1 : (hGet h1 i).column = nc := by
                rw [hh1, hGet_hSet_self h i _ hil]
              have hcol2 : (hGet h2 i).column = nc := by
                rcases hc2 i with e | e
                · rw [e]; exact hcol1
                · rw [e]
              rcases hc3 i with e | e
              · rw [e]; exact hcol2
              · rw [e]
            · exact hm3 i hirest (by rw [hl2, hlen1]; exact hil)

/-- `reachListWith` is determined by its function pointwise on the
list. -/
theorem reachListWith_congr (f g : Nat → Option (List Nat)) (l : List Nat)
    (hfg : ∀ x ∈ l, f x = g x) : reachListWith f l = reachListWith g l := by
  induction l with
  | nil => rfl
  | cons t rest ih =>
      simp only [reachListWith]
      rw [hfg t (List.mem_cons_self t rest),
        ih (fun x hx => hfg x (List.mem_cons_of_mem t hx))]

/-- `treeIds` reads only the `subtasks` fields of the heap. -/
theorem treeIds_ext (g : Nat) : ∀ (t : Nat) (h h' : Heap),
    (∀ j, (hGet h' j).subtasks = (hGet h j).subtasks) →
    treeIds g h' t = treeIds g h t := by
  induction g with
  | zero => intro t h h' _; rfl
  | succ γ ih =>
      intro t h h' hs
      simp only [treeIds]
      rw [hs t, reachListWith_congr (treeIds γ h') (treeIds γ h) _
        (fun x _ => ih x h h' hs)]

/-- `reachRoots` reads only the `subtasks` fields of the heap. -/
theorem reachRoots_ext (g : Nat) (l : List Nat) (h h' : Heap)
    (hs : ∀ j, (hGet h' j).subtasks = (hGet h j).subtasks) :
    reachRoots g h' l = reachRoots g h l :=
  reachListWith_congr _ _ l (fun x _ => treeIds_ext g x h h' hs)

/-- A successful cascade gives every reachable descendant the new
column name. -/
theorem cascade_reach (g : Nat) :
    ∀ (l : List Nat) (h : Heap) (nc : Str) (fuel : Nat) (h' : Heap)
      (ids : List Nat),
      reachRoots g h l = some ids →
      updSubsListWith (_update_subtask_columns fuel) h l nc = some h' →
      ∀ i ∈ ids, i < h.length → (hGet h' i).column = nc := by
  induction g with
  | zero =>
      intro l
      induction l with
      | nil =>
          intro h nc fuel h' ids hr _ i hi _
          simp only [reachRoots, reachListWith] at hr; cases hr; simp at hi
      | cons t rest _ =>
          intro h nc fuel h' ids hr _ i hi _
          rcases hrest : reachListWith (treeIds 0 h) rest with _ | xs <;>
            simp only [reachRoots, reachListWith, treeIds, hrest] at hr <;>
            exact Option.noConfusion hr
  | succ γ ih =>
      intro l
      induction l with
      | nil =>
          intro h nc fuel h' ids hr _ i hi _
          simp only [reachRoots, reachListWith] at hr; cases hr; simp at hi
      | cons t rest ihl =>
          intro h nc fuel h' ids hr hu i hi hil
          simp only [reachRoots, reachListWith] at hr
          rcases hone : treeIds (γ + 1) h t with _ | a
          · rw [hone] at hr; exact Option.noConfusion hr
          · rw [hone] at hr
            rcases hmore : reachListWith (treeIds (γ + 1) h) rest with _ | more
            · rw [hmore] at hr; exact Option.noConfusion hr
            · rw [hmore] at hr
              cases hr
              simp only [treeIds] at hone
              rcases hsub : reachListWith (treeIds γ h) (hGet h t).subtasks
                  with _ | sub
              · rw [hsub] at hone; exact Option.noConfusion hone
              · rw [hsub] at hone
                cases Option.some.inj hone
                simp only [updSubsListWith] at hu
                rcases hin : _update_subtask_columns fuel
                    (hSet h t { hGet h t with column := nc }) t nc with _ | h2
                · rw [hin] at hu; exact Option.noConfusion hu
                · rw [hin] at hu
                  cases fuel with
                  | zero =>
                      simp only [_update_subtask_columns] at hin
                      exact Option.noConfusion hin
                  | succ σ =>
                      simp only [_update_subtask_columns] at hin
                      obtain ⟨hl2, hc2, _⟩ := updSubs_changes σ _ _ _ _ hin
                      obtain ⟨hl3, hc3, _⟩ := updSubs_changes (σ + 1) _ _ _ _ hu
                      set h1 := hSet h t { hGet h t with column := nc } with hh1
                      have hlen1 : h1.length = h.length := hSet_length h t _
                      have hsubs1 : ∀ j, (hGet h1 j).subtasks = (hGet h j).subtasks := by
                        intro j
                        by_cases hjt : j = t
                        · subst hjt
                          by_cases hjl : j < h.length
                          · rw [hh1, hGet_hSet_self h j _ hjl]
                          · rw [hh1, hGet_hSet_out h j _ hjl]
                        · rw [hh1, hGet_hSet_ne h t j _ (fun e => hjt e.symm)]
                      have hsubs2 : ∀ j, (hGet h2 j).subtasks = (hGet h1 j).subtasks := by
                        intro j
                        rcases hc2 j with e | e <;> rw [e]
                      rcases List.mem_cons.mp hi with hieq | hrest2
                      · subst hieq
                        have hcol1 : (hGet h1 i).column = nc := by
                          rw [hh1, hGet_hSet_self h i _ hil]
                        have hcol2 : (hGet h2 i).column = nc := by
                          rcases hc2 i with e | e
                          · rw [e]; exact hcol1
                          · rw [e]
                        rcases hc3 i with e | e
                        · rw [e]; exact hcol2
                        · rw [e]
                      · rcases List.mem_append.mp hrest2 with hisub | himore
                        · have hr1 : reachRoots γ h1 (hGet h1 t).subtasks = some sub := by
                            rw [hsubs1 t, reachRoots_ext γ _ h h1 hsubs1]
                            exact hsub
                          have hmid := ih _ h1 nc σ h2 sub hr1 hin i hisub
                            (by rw [hlen1]; exact hil)
                          rcases hc3 i with e | e
                          · rw [e]; exact hmid
                          · rw [e]
                        · have hsubs12 : ∀ j, (hGet h2 j).subtasks = (hGet h j).subtasks :=
                            fun j => (hsubs2 j).trans (hsubs1 j)
                          have hr2 : reachListWith (treeIds (γ + 1) h2) rest = some more := by
                            have hext := reachRoots_ext (γ + 1) rest h h2 hsubs12
                            simp only [reachRoots] at hext
                            rw [hext]; exact hmore
                          exact ihl h2 nc (σ + 1) h' more hr2 hu i himore
                            (by rw [hl2, hlen1]; exact hil)

/-- Claim C5: a successful `move_task_to_column` to a known column sets
the `column` field of the moved task and of every reachable descendant,
at every depth, to the new column name.  The hypotheses only require
the task's reference tree to unwind (`treeIds` succeeds on valid
indices), which holds for every board the parser can produce. -/
theorem claim_C5_cascade (fuel : Nat) (b b' : PyBoard) (task : Nat)
    (new_column insert_at : Str) (ids : List Nat)
    (hreach : treeIds fuel b.heap task = some ids)
    (hvalid : ∀ i ∈ ids, i < b.heap.length)
    (hmv : move_task_to_column fuel b task new_column insert_at =
      some (true, b')) :
    ∀ i ∈ ids, (hGet b'.heap i).column = new_column := by
  unfold move_task_to_column at hmv
  by_cases hk : hasKey b.columns new_column
  · rw [if_neg (by simp [hk])] at hmv
    rcases hidx : pyIndex fuel b.heap
        ((getAssoc b.columns (hGet b.heap task).column).getD []) task with _ | r
    · simp only [hidx] at hmv
      exact Option.noConfusion hmv
    · rcases r with _ | i0
      · simp only [hidx] at hmv
        exact absurd (Prod.mk.injEq .. ▸ (Option.some.inj hmv)) (by simp)
      · simp only [hidx] at hmv
        rcases hcasc : _update_subtask_columns fuel
            (hSet b.heap task { hGet b.heap task with column := new_column })
            task new_column with _ | heap2
        · simp only [hcasc] at hmv
          exact Option.noConfusion hmv
        · simp only [hcasc] at hmv
          have hbh : b'.heap = heap2 := by
            cases Option.some.inj hmv; rfl
          cases fuel with
          | zero => exact Option.noConfusion hreach
          | succ γ =>
              simp only [treeIds] at hreach
              rcases hsub : reachListWith (treeIds γ b.heap) (hGet b.heap task).subtasks
                  with _ | sub
              · rw [hsub] at hreach; exact Option.noConfusion hreach
              · rw [hsub] at hreach
                cases hreach
                simp only [_update_subtask_columns] at hcasc
                obtain ⟨_, hc2, _⟩ := updSubs_changes γ _ _ _ _ hcasc
                set h1 := hSet b.heap task
                  { hGet b.heap task with column := new_column } with hh1
                have hlen1 : h1.length = b.heap.length := hSet_length _ _ _
                have hsubs1 : ∀ j, (hGet h1 j).subtasks =
                    (hGet b.heap j).subtasks := by
                  intro j
                  by_cases hjt : j = task
                  · subst hjt
                    by_cases hjl : j < b.heap.length
                    · rw [hh1, hGet_hSet_self _ j _ hjl]
                    · rw [hh1, hGet_hSet_out _ j _ hjl]
                  · rw [hh1, hGet_hSet_ne _ task j _ (fun e => hjt e.symm)]
                intro i hi
                rcases List.mem_cons.mp hi with hieq | hisub
                · subst hieq
                  have hcol1 : (hGet h1 i).column = new_column := by
                    rw [hh1, hGet_hSet_self _ i _ (hvalid i hi)]
                  rw [hbh]
                  rcases hc2 i with e | e
                  · rw [e]; exact hcol1
                  · rw [e]
                · have hr1 : reachRoots γ h1 (hGet h1 task).subtasks = some sub := by
                    rw [hsubs1 task, reachRoots_ext γ _ b.heap h1 hsubs1]
                    exact hsub
                  rw [hbh]
                  exact cascade_reach γ _ h1 new_column γ heap2 sub hr1 hcasc i
                    hisub
                    (by rw [hlen1]; exact hvalid i hi)
  · rw [if_pos (by simp [hk])] at hmv
    exact absurd (Prod.mk.injEq .. ▸ (Option.some.inj hmv)) (by simp)

/-- Claim C5, witness: moving `top` (a task with two levels of nested
subtasks) from `Todo` to `Done` succeeds and leaves the `column` field
of the task and of both nested descendants equal to `Done`. -/
theorem claim_C5_cascade_witness :
    move_task_to_column 10 cascBoard 0 (S "Done") (S "end") =
      some (true, cascMoved) ∧
    ∀ i ∈ [0, 1, 2], (hGet cascMoved.heap i).column = S "Done" :=
  ⟨by decide,
    claim_C5_cascade 10 cascBoard cascMoved 0 (S "Done") (S "end") [0, 1, 2]
      (by decide) (by decide) (by decide)⟩

/-! Association list and swap lemmas. -/

theorem hasKey_of_getAssoc {α : Type} (cols : List (Str × α)) (k : Str) (v : α)
    (h : getAssoc cols k = some v) : hasKey cols k = true := by
  induction cols with
  | nil => exact Option.noConfusion h
  | cons p rest ih =>
      simp only [getAssoc] at h
      simp only [hasKey, List.any_cons]
      by_cases hk : p.1 = k
      · simp [hk]
      · rw [if_neg hk] at h
        simp only [hasKey] at ih
        simp [ih h]

theorem getAssoc_setCol_self (cols : List (Str × List Nat)) (k : Str)
    (l : List Nat) (h : hasKey cols k = true) :
    getAssoc (setCol cols k l) k = some l := by
  induction cols with
  | nil => simp [hasKey] at h
  | cons p rest ih =>
      simp only [setCol, List.map_cons]
      by_cases hk : p.1 = k
      · rw [if_pos hk]
        simp only [getAssoc, if_pos hk]
      · rw [if_neg hk]
        simp only [getAssoc, if_neg hk]
        simp only [hasKey, List.any_cons, Bool.or_eq_true] at h
        rcases h with h | h
        · exact absurd (by simpa using h) hk
        · exact ih h

theorem getAssoc_setCol_ne (cols : List (Str × List Nat)) (k k' : Str)
    (l : List Nat) (h : k' ≠ k) :
    getAssoc (setCol cols k l) k' = getAssoc cols k' := by
  induction cols with
  | nil => rfl
  | cons p rest ih =>
      simp only [setCol, List.map_cons]
      by_cases hk : p.1 = k
      · rw [if_pos hk]
        simp only [getAssoc]
        rw [if_neg (by rw [hk]; exact fun e => h e.symm),
          if_neg (by rw [hk]; exact fun e => h e.symm)]
        exact ih
      · rw [if_neg hk]
        simp only [getAssoc]
        by_cases hp : p.1 = k'
        · rw [if_pos hp, if_pos hp]
        · rw [if_neg hp, if_neg hp]
          exact ih

theorem hasKey_setCol (cols : List (Str × List Nat)) (k k' : Str) (l : List Nat) :
    hasKey (setCol cols k l) k' = hasKey cols k' := by
  induction cols with
  | nil => rfl
  | cons p rest ih =>
      simp only [setCol, List.map_cons] at ih ⊢
      simp only [hasKey, List.any_cons] at ih ⊢
      by_cases hk : p.1 = k
      · rw [if_pos hk]
        rw [ih]
      · rw [if_neg hk]
        rw [ih]

theorem swapList_getElem_right (l : List Nat) (k : Nat) (t : Nat)
    (hk : l[k]? = some t) (hlt : k + 1 < l.length) :
    (swapList l k (k + 1))[k + 1]? = some t := by
  have hkd : l.getD k 0 = t := by
    rw [List.getD_eq_getElem?_getD, hk]; rfl
  unfold swapList
  rw [hkd]
  exact List.getElem?_set_self (by simpa using hlt)

theorem swapList_getElem_left (l : List Nat) (k : Nat) (t : Nat)
    (hk : l[k]? = some t) (hpos : 0 < k) (hlen : k < l.length) :
    (swapList l k (k - 1))[k - 1]? = some t := by
  have hkd : l.getD k 0 = t := by
    rw [List.getD_eq_getElem?_getD, hk]; rfl
  unfold swapList
  rw [hkd]
  exact List.getElem?_set_self
    (by simpa using Nat.lt_trans (Nat.sub_lt hpos Nat.one_pos) hlen)

/-- Claim C2, amended: lookup is by Python value equality with an
identity short circuit, first match wins.  Whenever the first
value-equal element of the container is the task object itself (in
particular whenever no value-equal duplicate precedes it), the
operations act on exactly the task passed in: a reorder is a boundary
no-op or swaps the given object with its neighbour (the object itself
ends up in the neighbouring slot), and a move removes the given
object's own position from the old column and inserts the object into
the target column. -/
theorem claim_C2_identity_amended (fuel : Nat) (b : PyBoard) (task k : Nat)
    (hlvl : (hGet b.heap task).level = 0)
    (hfm : pyIndex fuel b.heap
      ((getAssoc b.columns (hGet b.heap task).column).getD []) task =
        some (some k))
    (hself : ((getAssoc b.columns (hGet b.heap task).column).getD [])[k]? =
      some task) :
    (¬ k + 1 < ((getAssoc b.columns (hGet b.heap task).column).getD []).length →
      reorder_task fuel b task (S "down") = some (false, b)) ∧
    (k + 1 < ((getAssoc b.columns (hGet b.heap task).column).getD []).length →
      reorder_task fuel b task (S "down") =
        some (true, { b with columns := (setCol b.columns
          (hGet b.heap task).column
          (swapList ((getAssoc b.columns (hGet b.heap task).column).getD [])
            k (k + 1))) }) ∧
      (swapList ((getAssoc b.columns (hGet b.heap task).column).getD [])
        k (k + 1))[k + 1]? = some task) ∧
    (k = 0 → reorder_task fuel b task (S "up") = some (false, b)) ∧
    (0 < k →
      reorder_task fuel b task (S "up") =
        some (true, { b with columns := (setCol b.columns
          (hGet b.heap task).column
          (swapList ((getAssoc b.columns (hGet b.heap task).column).getD [])
            k (k - 1))) }) ∧
      (swapList ((getAssoc b.columns (hGet b.heap task).column).getD [])
        k (k - 1))[k - 1]? = some task) ∧
    (∀ nc ins b2, nc ≠ (hGet b.heap task).column →
      move_task_to_column fuel b task nc ins = some (true, b2) →
      getAssoc b2.columns (hGet b.heap task).column =
        some (((getAssoc b.columns (hGet b.heap task).column).getD []).eraseIdx k) ∧
      ∃ l2, getAssoc b2.columns nc = some l2 ∧ task ∈ l2) := by
  have hklen : k < ((getAssoc b.columns (hGet b.heap task).column).getD []).length := by
    have := List.getElem?_eq_some.mp hself
    exact this.1
  refine ⟨?_, ?_, ?_, ?_, ?_⟩
  · intro hnb
    unfold reorder_task
    rw [if_pos hlvl]
    simp only [hfm]
    rw [if_neg (by simp [S]), if_neg (by simp [hnb])]
  · intro hb
    constructor
    · unfold reorder_task
      rw [if_pos hlvl]
      simp only [hfm]
      rw [if_neg (by simp [S]), if_pos (by simp [hb])]
    · exact swapList_getElem_right _ k task hself hb
  · intro hk0
    unfold reorder_task
    rw [if_pos hlvl]
    simp only [hfm]
    rw [if_neg (by simp [hk0]), if_neg (by simp [S])]
  · intro hkpos
    constructor
    · unfold reorder_task
      rw [if_pos hlvl]
      simp only [hfm]
      rw [if_pos (by simp [hkpos])]
    · exact swapList_getElem_left _ k task hself hkpos hklen
  · intro nc ins b2 hne hmv
    unfold move_task_to_column at hmv
    by_cases hk : hasKey b.columns nc
    · rw [if_neg (by simp [hk])] at hmv
      simp only [hfm] at hmv
      rcases hcasc : _update_subtask_columns fuel
          (hSet b.heap task { hGet b.heap task with column := nc })
          task nc with _ | heap2
      · simp only [hcasc] at hmv
        exact Option.noConfusion hmv
      · simp only [hcasc] at hmv
        have hb2 := (Prod.mk.injEq .. ▸ Option.some.inj hmv).2
        have holdkey : hasKey b.columns (hGet b.heap task).column = true := by
          rcases hga : getAssoc b.columns (hGet b.heap task).column with _ | v
          · rw [hga] at hself; simp at hself
          · exact hasKey_of_getAssoc _ _ _ hga
        have hXe : getAssoc b2.columns nc =
            some (if ins = S "start"
              then task :: (getAssoc (setCol b.columns (hGet b.heap task).column
                (((getAssoc b.columns (hGet b.heap task).column).getD
                  []).eraseIdx k)) nc).getD []
              else (getAssoc (setCol b.columns (hGet b.heap task).column
                (((getAssoc b.columns (hGet b.heap task).column).getD
                  []).eraseIdx k)) nc).getD [] ++ [task]) := by
          rw [← hb2]
          exact getAssoc_setCol_self _ _ _ (by rw [hasKey_setCol]; exact hk)
        constructor
        · rw [← hb2]
          rw [getAssoc_setCol_ne _ nc _ _ (fun e => hne e.symm),
            getAssoc_setCol_self _ _ _ holdkey]
        · refine ⟨_, hXe, ?_⟩
          by_cases hins : ins = S "start"
          · rw [if_pos hins]; exact List.mem_cons_self _ _
          · rw [if_neg hins]
            exact List.mem_append.mpr (Or.inr (List.mem_singleton.mpr rfl))
    · rw [if_pos (by simp [hk])] at hmv
      exact absurd (Prod.mk.injEq .. ▸ Option.some.inj hmv).1 (by simp)

/-- Claim C2, amended, witness: in a board with two value-distinct
top-level tasks, the second task is its own first value-match, so
reordering it down is a boundary no-op returning `False`, reordering it
up swaps the object itself into the first slot, and moving it to `Done`
removes exactly it from `Todo` and inserts it into `Done`. -/
theorem claim_C2_identity_amended_witness :
    reorder_task 10 twoBoard 1 (S "down") = some (false, twoBoard) ∧
    reorder_task 10 twoBoard 1 (S "up") =
      some (true, { twoBoard with
        columns := [(S "Todo", [1, 0]), (S "Done", [])] }) ∧
    (∃ b2, move_task_to_column 10 twoBoard 1 (S "Done") (S "end") =
        some (true, b2) ∧
      getAssoc b2.columns (S "Todo") = some [0] ∧
      ∃ l2, getAssoc b2.columns (S "Done") = some l2 ∧ 1 ∈ l2) := by
  have h := claim_C2_identity_amended 10 twoBoard 1 1 (by decide) (by decide)
    (by decide)
  refine ⟨h.1 (by decide), ?_, ?_⟩
  · have h2 := (h.2.2.2.1 (by decide)).1
    exact h2.trans (by decide)
  · have hmv : move_task_to_column 10 twoBoard 1 (S "Done") (S "end") =
        some (true, twoMoved) := by decide
    obtain ⟨ha, l2, hb, hc⟩ := h.2.2.2.2 (S "Done") (S "end") _ (by decide) hmv
    exact ⟨_, hmv, by simpa using ha, l2, hb, hc⟩

/-! Lemmas about the pull apply-plan fold. -/

theorem hGet_append_left (h ext : Heap) (i : Nat) (hi : i < h.length) :
    hGet (h ++ ext) i = hGet h i := by
  simp [hGet, List.getD_eq_getElem?_getD, List.getElem?_append_left hi]

theorem hGet_append_last (h : Heap) (c : PyTask) :
    hGet (h ++ [c]) h.length = c := by
  simp [hGet, List.getD_eq_getElem?_getD]

theorem getAssoc_append_some {α : Type} (cols ext : List (Str × α)) (k : Str)
    (v : α) (h : getAssoc cols k = some v) :
    getAssoc (cols ++ ext) k = some v := by
  induction cols with
  | nil => exact Option.noConfusion h
  | cons p rest ih =>
      simp only [getAssoc, List.cons_append] at h ⊢
      by_cases hp : p.1 = k
      · rw [if_pos hp] at h ⊢; exact h
      · rw [if_neg hp] at h ⊢; exact ih h

theorem getAssoc_appendIdCol_self (cols : List (Str × List Nat)) (k : Str)
    (i : Nat) (v : List Nat) (h : getAssoc cols k = some v) :
    getAssoc (appendIdCol cols k i) k = some (v ++ [i]) := by
  induction cols with
  | nil => exact Option.noConfusion h
  | cons p rest ih =>
      simp only [appendIdCol, List.map_cons]
      simp only [getAssoc] at h
      by_cases hp : p.1 = k
      · rw [if_pos hp] at h ⊢
        simp only [getAssoc, if_pos hp]
        cases h; rfl
      · rw [if_neg hp] at h ⊢
        simp only [getAssoc, if_neg hp]
        exact ih h

theorem getAssoc_appendIdCol_ne (cols : List (Str × List Nat)) (k k' : Str)
    (i : Nat) (h : k' ≠ k) :
    getAssoc (appendIdCol cols k i) k' = getAssoc cols k' := by
  induction cols with
  | nil => rfl
  | cons p rest ih =>
      simp only [appendIdCol, List.map_cons]
      by_cases hp : p.1 = k
      · rw [if_pos hp]
        simp only [getAssoc]
        rw [if_neg (by rw [hp]; exact fun e => h e.symm),
          if_neg (by rw [hp]; exact fun e => h e.symm)]
        exact ih
      · rw [if_neg hp]
        simp only [getAssoc]
        by_cases hq : p.1 = k'
        · rw [if_pos hq, if_pos hq]
        · rw [if_neg hq, if_neg hq]
          exact ih

theorem hasKey_append_right {α : Type} (cols : List (Str × α)) (k : Str)
    (v : α) : hasKey (cols ++ [(k, v)]) k = true := by
  induction cols with
  | nil => simp [hasKey]
  | cons p rest ih =>
      simp only [hasKey, List.cons_append, List.any_cons, Bool.or_eq_true]
      exact Or.inr (by simpa [hasKey] using ih)

theorem getAssoc_of_hasKey {α : Type} (cols : List (Str × α)) (k : Str)
    (h : hasKey cols k = true) : ∃ v, getAssoc cols k = some v := by
  induction cols with
  | nil => simp [hasKey] at h
  | cons p rest ih =>
      simp only [getAssoc]
      by_cases hp : p.1 = k
      · exact ⟨p.2, by rw [if_pos hp]⟩
      · rw [if_neg hp]
        simp only [hasKey, List.any_cons, Bool.or_eq_true] at h
        rcases h with h | h
        · exact absurd (by simpa using h) hp
        · exact ih h

/-- Membership of an id in some column entry is preserved by
`appendIdCol` and by appending fresh keys. -/
theorem mem_getAssoc_appendIdCol (cols : List (Str × List Nat)) (k k' : Str)
    (x i : Nat) (h : x ∈ (getAssoc cols k').getD []) :
    x ∈ (getAssoc (appendIdCol cols k i) k').getD [] := by
  by_cases hk : k' = k
  · subst hk
    rcases hg : getAssoc cols k' with _ | v
    · rw [hg] at h; simp at h
    · rw [hg] at h
      rw [getAssoc_appendIdCol_self cols k' i v hg]
      exact List.mem_append.mpr (Or.inl h)
  · rw [getAssoc_appendIdCol_ne cols k k' i hk]
    exact h

theorem mem_getAssoc_append_ext (cols ext : List (Str × List Nat)) (k : Str)
    (x : Nat) (h : x ∈ (getAssoc cols k).getD []) :
    x ∈ (getAssoc (cols ++ ext) k).getD [] := by
  rcases hg : getAssoc cols k with _ | v
  · rw [hg] at h; simp at h
  · rw [hg] at h
    rw [getAssoc_append_some cols ext k v hg]
    exact h

theorem applyStep_skip (dT : List Str) (mM : List (Str × FeishuTask))
    (cn : Str) (st : List (Str × List Nat) × Heap) (id : Nat)
    (hdel : dT.contains (hGet st.2 id).title = true) :
    applyStep dT mM cn st id = st := by
  unfold applyStep
  rw [if_pos hdel]

theorem applyStep_keep (dT : List Str) (mM : List (Str × FeishuTask))
    (cn : Str) (st : List (Str × List Nat) × Heap) (id : Nat)
    (hdel : dT.contains (hGet st.2 id).title = false)
    (hm : getAssoc mM (hGet st.2 id).title = none) :
    applyStep dT mM cn st id = (appendIdCol st.1 cn id, st.2) := by
  unfold applyStep
  rw [if_neg (by rw [hdel]; exact Bool.false_ne_true), hm]

theorem applyStep_repl (dT : List Str) (mM : List (Str × FeishuTask))
    (cn : Str) (st : List (Str × List Nat) × Heap) (id : Nat)
    (r : FeishuTask)
    (hdel : dT.contains (hGet st.2 id).title = false)
    (hm : getAssoc mM (hGet st.2 id).title = some r) :
    applyStep dT mM cn st id =
      ((if r.status ≠ cn then
          appendIdCol
            (if hasKey st.1 r.status then st.1 else st.1 ++ [(r.status, [])])
            r.status st.2.length
        else appendIdCol st.1 cn st.2.length),
       st.2 ++ [replacementTask (hGet st.2 id) r]) := by
  unfold applyStep
  rw [if_neg (by rw [hdel]; exact Bool.false_ne_true), hm]

theorem applyStep_heap_ext (dT : List Str) (mM : List (Str × FeishuTask))
    (cn : Str) (st : List (Str × List Nat) × Heap) (id : Nat) :
    ∃ ext, (applyStep dT mM cn st id).2 = st.2 ++ ext := by
  by_cases hdel : dT.contains (hGet st.2 id).title
  · rw [applyStep_skip dT mM cn st id hdel]; exact ⟨[], by simp⟩
  · rcases hm : getAssoc mM (hGet st.2 id).title with _ | r
    · rw [applyStep_keep dT mM cn st id (by simpa using hdel) hm]
      exact ⟨[], by simp⟩
    · rw [applyStep_repl dT mM cn st id r (by simpa using hdel) hm]
      exact ⟨[replacementTask (hGet st.2 id) r], rfl⟩

theorem applyStep_mem (dT : List Str) (mM : List (Str × FeishuTask))
    (cn : Str) (st : List (Str × List Nat) × Heap) (id : Nat) (k : Str)
    (x : Nat) (h : x ∈ (getAssoc st.1 k).getD []) :
    x ∈ (getAssoc (applyStep dT mM cn st id).1 k).getD [] := by
  by_cases hdel : dT.contains (hGet st.2 id).title
  · rw [applyStep_skip dT mM cn st id hdel]; exact h
  · rcases hm : getAssoc mM (hGet st.2 id).title with _ | r
    · rw [applyStep_keep dT mM cn st id (by simpa using hdel) hm]
      exact mem_getAssoc_appendIdCol _ _ _ _ _ h
    · rw [applyStep_repl dT mM cn st id r (by simpa using hdel) hm]
      by_cases hst : r.status ≠ cn
      · rw [if_pos hst]
        by_cases hhk : hasKey st.1 r.status
        · rw [if_pos hhk]
          exact mem_getAssoc_appendIdCol _ _ _ _ _ h
        · rw [if_neg hhk]
          exact mem_getAssoc_appendIdCol _ _ _ _ _
            (mem_getAssoc_append_ext _ _ _ _ h)
      · rw [if_neg hst]
        exact mem_getAssoc_appendIdCol _ _ _ _ _ h

theorem foundRepl_applyStep (dT : List Str) (mM : List (Str × FeishuTask))
    (cn : Str) (st : List (Str × List Nat) × Heap) (id : Nat) (k : Str)
    (cell : PyTask) (h : FoundRepl st k cell) :
    FoundRepl (applyStep dT mM cn st id) k cell := by
  obtain ⟨nid, hlt, hcell, hmem⟩ := h
  obtain ⟨ext, hext⟩ := applyStep_heap_ext dT mM cn st id
  exact ⟨nid, by rw [hext]; simp; omega,
    by rw [hext, hGet_append_left _ _ _ hlt]; exact hcell,
    applyStep_mem dT mM cn st id k nid hmem⟩

theorem foundRepl_applyNew (st : List (Str × List Nat) × Heap)
    (ft : FeishuTask) (k : Str) (cell : PyTask) (h : FoundRepl st k cell) :
    FoundRepl (applyNew st ft) k cell := by
  obtain ⟨nid, hlt, hcell, hmem⟩ := h
  refine ⟨nid, by simp [applyNew]; omega,
    by simpa [applyNew] using (hGet_append_left _ _ _ hlt).trans hcell, ?_⟩
  unfold applyNew
  by_cases hhk : hasKey st.1 ft.status
  · simp only [if_pos hhk]
    exact mem_getAssoc_appendIdCol _ _ _ _ _ hmem
  · simp only [if_neg hhk]
    exact mem_getAssoc_appendIdCol _ _ _ _ _
      (mem_getAssoc_append_ext _ _ _ _ hmem)

theorem foundRepl_foldRow (dT : List Str) (mM : List (Str × FeishuTask))
    (cn : Str) (k : Str) (cell : PyTask) :
    ∀ (ids : List Nat) (st : List (Str × List Nat) × Heap),
      FoundRepl st k cell →
      FoundRepl (ids.foldl (applyStep dT mM cn) st) k cell := by
  intro ids
  induction ids with
  | nil => exact fun st h => h
  | cons i rest ih =>
      intro st h
      exact ih _ (foundRepl_applyStep dT mM cn st i k cell h)

theorem foundRepl_foldCols (dT : List Str) (mM : List (Str × FeishuTask))
    (k : Str) (cell : PyTask) :
    ∀ (cols : List (Str × List Nat)) (st : List (Str × List Nat) × Heap),
      FoundRepl st k cell →
      FoundRepl (cols.foldl
        (fun st p => p.2.foldl (applyStep dT mM p.1) st) st) k cell := by
  intro cols
  induction cols with
  | nil => exact fun st h => h
  | cons p rest ih =>
      intro st h
      exact ih _ (foundRepl_foldRow dT mM p.1 k cell p.2 st h)

theorem foundRepl_foldNew (k : Str) (cell : PyTask) :
    ∀ (fts : List FeishuTask) (st : List (Str × List Nat) × Heap),
      FoundRepl st k cell → FoundRepl (fts.foldl applyNew st) k cell := by
  intro fts
  induction fts with
  | nil => exact fun st h => h
  | cons ft rest ih =>
      intro st h
      exact ih _ (foundRepl_applyNew st ft k cell h)

/-- The creating step: a surviving modified task id produces the
replacement cell in the remote status column. -/
theorem foundRepl_create (dT : List Str) (mM : List (Str × FeishuTask))
    (cn : Str) (st : List (Str × List Nat) × Heap) (id : Nat)
    (r : FeishuTask)
    (hdel : dT.contains (hGet st.2 id).title = false)
    (hmod : getAssoc mM (hGet st.2 id).title = some r)
    (hcols : hasKey st.1 cn = true) :
    FoundRepl (applyStep dT mM cn st id) r.status
      (replacementTask (hGet st.2 id) r) := by
  rw [applyStep_repl dT mM cn st id r hdel hmod]
  refine ⟨st.2.length, by simp, by simp [hGet_append_last], ?_⟩
  by_cases hst : r.status ≠ cn
  · rw [if_pos hst]
    by_cases hhk : hasKey st.1 r.status
    · rw [if_pos hhk]
      obtain ⟨v, hv⟩ := getAssoc_of_hasKey st.1 r.status hhk
      rw [getAssoc_appendIdCol_self _ _ _ _ hv]
      simp
    · rw [if_neg hhk]
      obtain ⟨v, hv⟩ := getAssoc_of_hasKey (st.1 ++ [(r.status, [])]) r.status
        (hasKey_append_right st.1 r.status [])
      rw [getAssoc_appendIdCol_self _ _ _ _ hv]
      simp
  · rw [if_neg hst]
    push_neg at hst
    obtain ⟨v, hv⟩ := getAssoc_of_hasKey st.1 cn hcols
    rw [hst]
    rw [getAssoc_appendIdCol_self _ _ _ _ hv]
    simp

theorem hasKey_appendIdCol (cols : List (Str × List Nat)) (k k' : Str)
    (i : Nat) : hasKey (appendIdCol cols k i) k' = hasKey cols k' := by
  induction cols with
  | nil => rfl
  | cons p rest ih =>
      simp only [appendIdCol, List.map_cons] at ih ⊢
      simp only [hasKey, List.any_cons] at ih ⊢
      by_cases hp : p.1 = k
      · rw [if_pos hp, ih]
      · rw [if_neg hp, ih]

theorem hasKey_append_mono {α : Type} (cols ext : List (Str × α)) (k : Str)
    (h : hasKey cols k = true) : hasKey (cols ++ ext) k = true := by
  simp only [hasKey, List.any_append, Bool.or_eq_true]
  exact Or.inl h

theorem hasKey_applyStep (dT : List Str) (mM : List (Str × FeishuTask))
    (cn : Str) (st : List (Str × List Nat) × Heap) (id : Nat) (k : Str)
    (h : hasKey st.1 k = true) :
    hasKey (applyStep dT mM cn st id).1 k = true := by
  by_cases hdel : dT.contains (hGet st.2 id).title
  · rw [applyStep_skip dT mM cn st id hdel]; exact h
  · rcases hm : getAssoc mM (hGet st.2 id).title with _ | r
    · rw [applyStep_keep dT mM cn st id (by simpa using hdel) hm]
      rw [hasKey_appendIdCol]; exact h
    · rw [applyStep_repl dT mM cn st id r (by simpa using hdel) hm]
      by_cases hst : r.status ≠ cn
      · rw [if_pos hst]
        by_cases hhk : hasKey st.1 r.status
        · rw [if_pos hhk, hasKey_appendIdCol]; exact h
        · rw [if_neg hhk, hasKey_appendIdCol]
          exact hasKey_append_mono _ _ _ h
      · rw [if_neg hst, hasKey_appendIdCol]; exact h

theorem foldRow_heap_ext (dT : List Str) (mM : List (Str × FeishuTask))
    (cn : Str) : ∀ (ids : List Nat) (st : List (Str × List Nat) × Heap),
    ∃ ext, (ids.foldl (applyStep dT mM cn) st).2 = st.2 ++ ext := by
  intro ids
  induction ids with
  | nil => exact fun st => ⟨[], by simp⟩
  | cons i rest ih =>
      intro st
      obtain ⟨e1, he1⟩ := applyStep_heap_ext dT mM cn st i
      obtain ⟨e2, he2⟩ := ih (applyStep dT mM cn st i)
      exact ⟨e1 ++ e2, by simp only [List.foldl_cons, he2, he1,
        List.append_assoc]⟩

theorem foldRow_hasKey (dT : List Str) (mM : List (Str × FeishuTask))
    (cn : Str) (k : Str) : ∀ (ids : List Nat)
      (st : List (Str × List Nat) × Heap), hasKey st.1 k = true →
      hasKey (ids.foldl (applyStep dT mM cn) st).1 k = true := by
  intro ids
  induction ids with
  | nil => exact fun st h => h
  | cons i rest ih =>
      intro st h
      exact ih _ (hasKey_applyStep dT mM cn st i k h)

theorem foldCols_heap_ext (dT : List Str) (mM : List (Str × FeishuTask)) :
    ∀ (cols : List (Str × List Nat)) (st : List (Str × List Nat) × Heap),
    ∃ ext, (cols.foldl (fun st p => p.2.foldl (applyStep dT mM p.1) st) st).2 =
      st.2 ++ ext := by
  intro cols
  induction cols with
  | nil => exact fun st => ⟨[], by simp⟩
  | cons p rest ih =>
      intro st
      obtain ⟨e1, he1⟩ := foldRow_heap_ext dT mM p.1 p.2 st
      obtain ⟨e2, he2⟩ := ih (p.2.foldl (applyStep dT mM p.1) st)
      exact ⟨e1 ++ e2, by simp only [List.foldl_cons, he2, he1,
        List.append_assoc]⟩

theorem foldCols_hasKey (dT : List Str) (mM : List (Str × FeishuTask))
    (k : Str) : ∀ (cols : List (Str × List Nat))
      (st : List (Str × List Nat) × Heap), hasKey st.1 k = true →
      hasKey (cols.foldl
        (fun st p => p.2.foldl (applyStep dT mM p.1) st) st).1 k = true := by
  intro cols
  induction cols with
  | nil => exact fun st h => h
  | cons p rest ih =>
      intro st h
      exact ih _ (foldRow_hasKey dT mM p.1 k p.2 st h)

theorem hasKey_map_keys (cols : List (Str × List Nat)) (k : Str) :
    hasKey (cols.map (fun p => (p.1, ([] : List Nat)))) k = hasKey cols k := by
  induction cols with
  | nil => rfl
  | cons p rest ih =>
      simp only [List.map_cons, hasKey, List.any_cons] at ih ⊢
      rw [ih]

theorem hasKey_of_mem (cols : List (Str × List Nat)) (k : Str) (v : List Nat)
    (h : (k, v) ∈ cols) : hasKey cols k = true := by
  induction cols with
  | nil => simp at h
  | cons p rest ih =>
      rcases List.mem_cons.mp h with he | hm
      · simp [hasKey, ← he]
      · simp only [hasKey, List.any_cons, Bool.or_eq_true]
        exact Or.inr (ih hm)

/-- Claim C4, amended: for every top-level local task that has subtasks
and is classified MODIFIED against a matching remote record (its title
survives deletion and maps to a remote record in the modification map),
`apply_remote_changes` produces a task whose scalar fields (title,
column/status, tags, priority) are the remote-derived values and whose
subtask list is exactly the original local subtask list, placed in the
remote status column.  (Nested modified tasks are left untouched, see
the counterexample.) -/
theorem claim_C4_pull_preserves_amended (b : PyBoard)
    (new_tasks : List FeishuTask) (modified_tasks : List (Nat × FeishuTask))
    (deleted_tasks : List Nat) (cn : Str) (roots : List Nat) (id : Nat)
    (r : FeishuTask)
    (hcol : (cn, roots) ∈ b.columns) (hid : id ∈ roots)
    (hvalid : id < b.heap.length)
    (hdel : (deleted_tasks.map (fun i => (hGet b.heap i).title)).contains
      (hGet b.heap id).title = false)
    (hmod : getAssoc (modified_tasks.foldl
        (fun acc p => setAssoc acc (hGet b.heap p.1).title p.2) [])
      (hGet b.heap id).title = some r) :
    ∃ nid,
      nid < (apply_remote_changes b new_tasks modified_tasks
        deleted_tasks).heap.length ∧
      hGet (apply_remote_changes b new_tasks modified_tasks
        deleted_tasks).heap nid = replacementTask (hGet b.heap id) r ∧
      (replacementTask (hGet b.heap id) r).subtasks =
        (hGet b.heap id).subtasks ∧
      nid ∈ (getAssoc (apply_remote_changes b new_tasks modified_tasks
        deleted_tasks).columns r.status).getD [] := by
  set dT := deleted_tasks.map (fun i => (hGet b.heap i).title) with hdT
  set mM := modified_tasks.foldl
    (fun acc p => setAssoc acc (hGet b.heap p.1).title p.2) [] with hmM
  obtain ⟨pre, post, hsplit⟩ := List.mem_iff_append.mp hcol
  obtain ⟨l1, l2, hrsplit⟩ := List.mem_iff_append.mp hid
  subst hrsplit
  have key : FoundRepl
      (new_tasks.foldl applyNew
        (b.columns.foldl (fun st p => p.2.foldl (applyStep dT mM p.1) st)
          (b.columns.map (fun p => (p.1, ([] : List Nat))), b.heap)))
      r.status (replacementTask (hGet b.heap id) r) := by
    apply foundRepl_foldNew
    rw [hsplit, List.foldl_append, List.foldl_cons]
    apply foundRepl_foldCols
    show FoundRepl ((l1 ++ id :: l2).foldl (applyStep dT mM cn) _) _ _
    rw [List.foldl_append, List.foldl_cons]
    apply foundRepl_foldRow
    set st0 := l1.foldl (applyStep dT mM cn)
      (pre.foldl (fun st p => p.2.foldl (applyStep dT mM p.1) st)
        ((pre ++ (cn, l1 ++ id :: l2) :: post).map
          (fun p => (p.1, ([] : List Nat))), b.heap)) with hst0
    obtain ⟨e1, he1⟩ := foldCols_heap_ext dT mM pre
      ((pre ++ (cn, l1 ++ id :: l2) :: post).map
        (fun p => (p.1, ([] : List Nat))), b.heap)
    obtain ⟨e2, he2⟩ := foldRow_heap_ext dT mM cn l1 _
    have hheap : st0.2 = b.heap ++ (e1 ++ e2) := by
      rw [hst0, he2, he1]
      simp [List.append_assoc]
    have hsame : hGet st0.2 id = hGet b.heap id := by
      rw [hheap, hGet_append_left _ _ _ hvalid]
    have hkey0 : hasKey st0.1 cn = true := by
      rw [hst0]
      apply foldRow_hasKey
      apply foldCols_hasKey
      show hasKey ((pre ++ (cn, l1 ++ id :: l2) :: post).map
        (fun p => (p.1, ([] : List Nat)))) cn = true
      rw [hasKey_map_keys]
      exact hasKey_of_mem _ cn (l1 ++ id :: l2)
        (List.mem_append.mpr (Or.inr (List.mem_cons_self _ _)))
    have := foundRepl_create dT mM cn st0 id r
      (by rw [hsame]; exact hdel) (by rw [hsame]; exact hmod) hkey0
    rw [hsame] at this
    exact this
  obtain ⟨nid, h1, h2, h3⟩ := key
  exact ⟨nid, h1, h2, rfl, h3⟩

/-- Claim C4, amended, witness: the top-level task `p` of `pullBoard`
(which has a subtask) is classified modified against the remote record
`p2`; the apply step produces a task with the remote scalars whose
subtask list is exactly `p`'s original one, placed in the remote status
column `Doing`. -/
theorem claim_C4_pull_preserves_amended_witness :
    (hGet pullBoard.heap 0).subtasks = [1] ∧
    (∃ nid,
      nid < (apply_remote_changes pullBoard [] [(0, pullFtP)] []).heap.length ∧
      hGet (apply_remote_changes pullBoard [] [(0, pullFtP)] []).heap nid =
        replacementTask (hGet pullBoard.heap 0) pullFtP ∧
      (replacementTask (hGet pullBoard.heap 0) pullFtP).subtasks =
        (hGet pullBoard.heap 0).subtasks ∧
      nid ∈ (getAssoc (apply_remote_changes pullBoard [] [(0, pullFtP)]
        []).columns (S "Doing")).getD []) :=
  ⟨by decide,
    claim_C4_pull_preserves_amended pullBoard [] [(0, pullFtP)] []
      (S "Todo") [0] 0 pullFtP (by decide) (by decide) (by decide)
      (by decide) (by decide)⟩

/-! Reachability, permutation and association-list lemmas for the
invariant-preservation theorem (claim C6). -/

theorem reachListWith_append_of (f : Nat → Option (List Nat)) :
    ∀ (a b : List Nat) (va vb : List Nat),
      reachListWith f a = some va → reachListWith f b = some vb →
      reachListWith f (a ++ b) = some (va ++ vb) := by
  intro a
  induction a with
  | nil =>
      intro b va vb ha hb
      simp only [reachListWith] at ha
      cases ha
      simpa using hb
  | cons t rest ih =>
      intro b va vb ha hb
      simp only [reachListWith] at ha
      rcases ht : f t with _ | x
      · rw [ht] at ha; exact Option.noConfusion ha
      · rw [ht] at ha
        rcases hrest : reachListWith f rest with _ | y
        · rw [hrest] at ha; exact Option.noConfusion ha
        · rw [hrest] at ha
          cases ha
          rw [List.cons_append]
          simp only [reachListWith, ht, ih b y vb hrest hb]
          rw [List.append_assoc]

theorem reachListWith_append_split (f : Nat → Option (List Nat)) :
    ∀ (a b : List Nat) (v : List Nat),
      reachListWith f (a ++ b) = some v →
      ∃ va vb, reachListWith f a = some va ∧ reachListWith f b = some vb ∧
        v = va ++ vb := by
  intro a
  induction a with
  | nil =>
      intro b v hv
      exact ⟨[], v, rfl, by simpa using hv, rfl⟩
  | cons t rest ih =>
      intro b v hv
      rw [List.cons_append] at hv
      simp only [reachListWith] at hv
      rcases ht : f t with _ | x
      · rw [ht] at hv; exact Option.noConfusion hv
      · rw [ht] at hv
        rcases hrest : reachListWith f (rest ++ b) with _ | y
        · rw [hrest] at hv; exact Option.noConfusion hv
        · rw [hrest] at hv
          cases hv
          obtain ⟨va, vb, h1, h2, h3⟩ := ih b y hrest
          refine ⟨x ++ va, vb, ?_, h2, by rw [h3, List.append_assoc]⟩
          simp only [reachListWith, ht, h1]

theorem reachListWith_decomp (f : Nat → Option (List Nat)) :
    ∀ (l : List Nat) (v : List Nat), reachListWith f l = some v →
      ∀ x ∈ l, ∃ vx, f x = some vx ∧ ∀ i ∈ vx, i ∈ v := by
  intro l
  induction l with
  | nil => intro v _ x hx; simp at hx
  | cons t rest ih =>
      intro v hv x hx
      simp only [reachListWith] at hv
      rcases ht : f t with _ | a
      · rw [ht] at hv; exact Option.noConfusion hv
      · rw [ht] at hv
        rcases hrest : reachListWith f rest with _ | b
        · rw [hrest] at hv; exact Option.noConfusion hv
        · rw [hrest] at hv
          cases hv
          rcases List.mem_cons.mp hx with hxt | hxr
          · exact ⟨a, by rw [hxt]; exact ht,
              fun i hi => List.mem_append.mpr (Or.inl hi)⟩
          · obtain ⟨vx, h1, h2⟩ := ih b hrest x hxr
            exact ⟨vx, h1, fun i hi => List.mem_append.mpr (Or.inr (h2 i hi))⟩

theorem reachListWith_all (f : Nat → Option (List Nat)) (P : Nat → Prop) :
    ∀ (l : List Nat),
      (∀ x ∈ l, ∃ vx, f x = some vx ∧ ∀ i ∈ vx, P i) →
      ∃ v, reachListWith f l = some v ∧ ∀ i ∈ v, P i := by
  intro l
  induction l with
  | nil => intro _; exact ⟨[], rfl, by simp⟩
  | cons t rest ih =>
      intro hp
      obtain ⟨a, ha, hpa⟩ := hp t (List.mem_cons_self t rest)
      obtain ⟨b, hb, hpb⟩ := ih (fun x hx => hp x (List.mem_cons_of_mem t hx))
      refine ⟨a ++ b, ?_, ?_⟩
      · simp only [reachListWith, ha, hb]
      · intro i hi
        rcases List.mem_append.mp hi with h | h
        · exact hpa i h
        · exact hpb i h

theorem treeIds_mono (f : Nat) : ∀ (g : Nat) (h : Heap) (t : Nat) (v : List Nat),
    f ≤ g → treeIds f h t = some v → treeIds g h t = some v := by
  induction f with
  | zero => intro g h t v _ hv; exact Option.noConfusion hv
  | succ γ ih =>
      intro g h t v hfg hv
      cases g with
      | zero => exact absurd hfg (by omega)
      | succ γ2 =>
          simp only [treeIds] at hv ⊢
          rcases hsub : reachListWith (treeIds γ h) (hGet h t).subtasks
              with _ | sub
          · rw [hsub] at hv; exact Option.noConfusion hv
          · rw [hsub] at hv
            have hpt : ∀ x ∈ (hGet h t).subtasks,
                treeIds γ h x = treeIds γ2 h x := by
              intro x hx
              obtain ⟨vx, h1, _⟩ := reachListWith_decomp _ _ _ hsub x hx
              rw [h1, ih γ2 h x vx (by omega) h1]
            rw [← reachListWith_congr (treeIds γ h) (treeIds γ2 h) _ hpt, hsub]
            exact hv

theorem treeIds_append (e : Heap) (f : Nat) :
    ∀ (h : Heap) (t : Nat) (v : List Nat),
      treeIds f h t = some v → (∀ i ∈ v, i < h.length) →
      treeIds f (h ++ e) t = some v := by
  induction f with
  | zero => intro h t v hv _; exact Option.noConfusion hv
  | succ γ ih =>
      intro h t v hv hvalid
      simp only [treeIds] at hv ⊢
      rcases hsub : reachListWith (treeIds γ h) (hGet h t).subtasks
          with _ | sub
      · rw [hsub] at hv; exact Option.noConfusion hv
      · rw [hsub] at hv
        cases hv
        have htl : t < h.length := hvalid t (List.mem_cons_self _ _)
        have hget : hGet (h ++ e) t = hGet h t := hGet_append_left h e t htl
        have hpt : ∀ x ∈ (hGet h t).subtasks,
            treeIds γ (h ++ e) x = treeIds γ h x := by
          intro x hx
          obtain ⟨vx, h1, h2⟩ := reachListWith_decomp _ _ _ hsub x hx
          rw [h1, ih h x vx h1
            (fun i hi => hvalid i (List.mem_cons_of_mem _ (h2 i hi)))]
        rw [hget,
          reachListWith_congr (treeIds γ (h ++ e)) (treeIds γ h) _ hpt, hsub]

theorem reachListWith_perm (f : Nat → Option (List Nat)) {l₁ l₂ : List Nat}
    (hp : List.Perm l₁ l₂) :
    ∀ v, reachListWith f l₁ = some v →
      ∃ w, reachListWith f l₂ = some w ∧ List.Perm v w := by
  induction hp with
  | nil => exact fun v hv => ⟨v, hv, List.Perm.refl v⟩
  | cons x hp2 ih =>
      rename_i l1 l2
      intro v hv
      simp only [reachListWith] at hv ⊢
      rcases hx : f x with _ | a
      · rw [hx] at hv; exact Option.noConfusion hv
      · rw [hx] at hv
        rcases hr : reachListWith f l1 with _ | b
        · rw [hr] at hv; exact Option.noConfusion hv
        · rw [hr] at hv
          cases hv
          obtain ⟨w, hw, hwp⟩ := ih b hr
          exact ⟨a ++ w, by rw [hw], List.Perm.append (List.Perm.refl a) hwp⟩
  | swap x y l =>
      intro v hv
      simp only [reachListWith] at hv ⊢
      rcases hy : f y with _ | a
      · rw [hy] at hv; exact Option.noConfusion hv
      · rw [hy] at hv
        rcases hx : f x with _ | b
        · rw [hx] at hv; exact Option.noConfusion hv
        · rw [hx] at hv
          rcases hl : reachListWith f l with _ | c
          · rw [hl] at hv; exact Option.noConfusion hv
          · rw [hl] at hv
            cases hv
            have p1 : List.Perm (a ++ (b ++ c)) ((a ++ b) ++ c) := by
              rw [List.append_assoc]
            have p2 : List.Perm ((a ++ b) ++ c) ((b ++ a) ++ c) :=
              List.Perm.append List.perm_append_comm (List.Perm.refl c)
            have p3 : List.Perm ((b ++ a) ++ c) (b ++ (a ++ c)) := by
              rw [List.append_assoc]
            exact ⟨b ++ (a ++ c), rfl, (p1.trans p2).trans p3⟩
  | trans hp1 hp2 ih1 ih2 =>
      intro v hv
      obtain ⟨w1, hw1, hp1v⟩ := ih1 v hv
      obtain ⟨w2, hw2, hp2v⟩ := ih2 w1 hw1
      exact ⟨w2, hw2, hp1v.trans hp2v⟩

theorem reachListWith_congr_perm (f g : Nat → Option (List Nat))
    (hfg : ∀ x vx, f x = some vx →
      ∃ wx, g x = some wx ∧ List.Perm vx wx) :
    ∀ (l : List Nat) (v : List Nat), reachListWith f l = some v →
      ∃ w, reachListWith g l = some w ∧ List.Perm v w := by
  intro l
  induction l with
  | nil => intro v hv; cases hv; exact ⟨[], rfl, List.Perm.refl []⟩
  | cons t rest ih =>
      intro v hv
      simp only [reachListWith] at hv ⊢
      rcases ht : f t with _ | a
      · rw [ht] at hv; exact Option.noConfusion hv
      · rw [ht] at hv
        rcases hr : reachListWith f rest with _ | b
        · rw [hr] at hv; exact Option.noConfusion hv
        · rw [hr] at hv
          cases hv
          obtain ⟨wa, hwa, hpa⟩ := hfg t a ht
          obtain ⟨wb, hwb, hpb⟩ := ih b hr
          exact ⟨wa ++ wb, by rw [hwa, hwb], List.Perm.append hpa hpb⟩

theorem treeIds_perm (fuel : Nat) :
    ∀ (h h' : Heap),
      (∀ j, List.Perm (hGet h' j).subtasks (hGet h j).subtasks) →
      ∀ (t : Nat) (v : List Nat), treeIds fuel h t = some v →
      ∃ w, treeIds fuel h' t = some w ∧ List.Perm v w := by
  induction fuel with
  | zero => intro h h' _ t v hv; exact Option.noConfusion hv
  | succ γ ih =>
      intro h h' hs t v hv
      simp only [treeIds] at hv ⊢
      rcases hsub : reachListWith (treeIds γ h) (hGet h t).subtasks
          with _ | sub
      · rw [hsub] at hv; exact Option.noConfusion hv
      · rw [hsub] at hv
        cases hv
        obtain ⟨w1, hw1, hp1⟩ := reachListWith_congr_perm (treeIds γ h)
          (treeIds γ h') (fun x vx hx => ih h h' hs x vx hx) _ _ hsub
        obtain ⟨w2, hw2, hp2⟩ := reachListWith_perm (treeIds γ h')
          (hs t).symm w1 hw1
        refine ⟨t :: w2, by rw [hw2], List.Perm.cons t (hp1.trans hp2)⟩

theorem nodupByB_iff {α : Type} [BEq α] [LawfulBEq α] (l : List α) :
    nodupByB l = true ↔ l.Nodup := by
  induction l with
  | nil => simp [nodupByB]
  | cons x xs ih =>
      simp only [nodupByB, Bool.and_eq_true, List.nodup_cons]
      rw [ih]
      have hce : xs.contains x = true ↔ x ∈ xs := List.elem_iff
      constructor
      · rintro ⟨hc, hn⟩
        refine ⟨fun hm => ?_, hn⟩
        rw [hce.mpr hm] at hc
        exact Bool.noConfusion hc
      · rintro ⟨hm, hn⟩
        refine ⟨?_, hn⟩
        cases hcv : xs.contains x
        · rfl
        · exact absurd (hce.mp hcv) hm

theorem pyIndexAux_le (fuel : Nat) (h : Heap) (x : Nat) :
    ∀ (l : List Nat) (i k : Nat),
      pyIndexAux fuel h l x i = some (some k) → i ≤ k ∧ k < i + l.length := by
  intro l
  induction l with
  | nil =>
      intro i k hk
      exact Option.noConfusion (Option.some.inj hk)
  | cons y ys ih =>
      intro i k hk
      simp only [pyIndexAux] at hk
      rcases he : pyEqT fuel h y x with _ | b
      · rw [he] at hk; exact Option.noConfusion hk
      · rw [he] at hk
        cases b with
        | true =>
            cases Option.some.inj (Option.some.inj hk)
            exact ⟨Nat.le_refl i, by simp [List.length_cons]⟩
        | false =>
            obtain ⟨h1, h2⟩ := ih (i + 1) k hk
            exact ⟨by omega, by simp only [List.length_cons]; omega⟩

theorem pyIndex_lt (fuel : Nat) (h : Heap) (l : List Nat) (x k : Nat)
    (hk : pyIndex fuel h l x = some (some k)) : k < l.length := by
  have := pyIndexAux_le fuel h x l 0 k hk
  omega

theorem swapList_succ_perm : ∀ (i : Nat) (l : List Nat), i + 1 < l.length →
    List.Perm (swapList l i (i + 1)) l := by
  intro i
  induction i with
  | zero =>
      intro l hl
      match l, hl with
      | a :: b :: rest, _ =>
          show List.Perm (b :: a :: rest) (a :: b :: rest)
          exact List.Perm.swap a b rest
  | succ j ih =>
      intro l hl
      match l, hl with
      | a :: rest, hl =>
          have : swapList (a :: rest) (j + 1) (j + 2) =
              a :: swapList rest j (j + 1) := by
            simp [swapList, List.set]
          rw [this]
          exact List.Perm.cons a (ih rest (by
            simp only [List.length_cons] at hl; omega))

theorem swapList_comm (l : List Nat) (i j : Nat) (hij : i ≠ j) :
    swapList l i j = swapList l j i := by
  unfold swapList
  exact List.set_comm _ _ _ hij

theorem eraseIdx_append_cons {α : Type} (l1 : List α) (a : α) (l2 : List α) :
    (l1 ++ a :: l2).eraseIdx l1.length = l1 ++ l2 := by
  induction l1 with
  | nil => rfl
  | cons x xs ih => simp [List.eraseIdx, ih]

theorem hasKey_iff_mem {α : Type} (cols : List (Str × α)) (k : Str) :
    hasKey cols k = true ↔ k ∈ cols.map Prod.fst := by
  induction cols with
  | nil => simp [hasKey]
  | cons p rest ih =>
      simp only [hasKey, List.any_cons, Bool.or_eq_true, List.map_cons,
        List.mem_cons]
      simp only [hasKey] at ih
      rw [ih]
      constructor
      · rintro (h | h)
        · exact Or.inl (beq_iff_eq.mp h).symm
        · exact Or.inr h
      · rintro (h | h)
        · exact Or.inl (beq_iff_eq.mpr h.symm)
        · exact Or.inr h

theorem hasKey_false_iff {α : Type} (cols : List (Str × α)) (k : Str) :
    hasKey cols k = false ↔ k ∉ cols.map Prod.fst := by
  constructor
  · intro h hm
    rw [(hasKey_iff_mem cols k).mpr hm] at h
    exact Bool.noConfusion h
  · intro hm
    cases hk : hasKey cols k
    · rfl
    · exact absurd ((hasKey_iff_mem cols k).mp hk) hm

theorem getAssoc_split {α : Type} (cols : List (Str × α)) (k : Str) (v : α)
    (h : getAssoc cols k = some v) :
    ∃ pre post, cols = pre ++ (k, v) :: post ∧ hasKey pre k = false := by
  induction cols with
  | nil => exact Option.noConfusion h
  | cons p rest ih =>
      simp only [getAssoc] at h
      by_cases hk : p.1 = k
      · rw [if_pos hk] at h
        refine ⟨[], rest, ?_, rfl⟩
        cases Option.some.inj h
        rw [List.nil_append]
        have : p = (p.1, p.2) := rfl
        rw [this, hk]
      · rw [if_neg hk] at h
        obtain ⟨pre, post, h1, h2⟩ := ih h
        refine ⟨p :: pre, post, by rw [h1, List.cons_append], ?_⟩
        simp only [hasKey, List.any_cons, Bool.or_eq_false_iff]
        exact ⟨by simp [beq_eq_false_iff_ne, hk], by
          simp only [hasKey] at h2; exact h2⟩

theorem setCol_not_hasKey (cols : List (Str × List Nat)) (k : Str)
    (l : List Nat) (h : hasKey cols k = false) : setCol cols k l = cols := by
  induction cols with
  | nil => rfl
  | cons p rest ih =>
      simp only [hasKey, List.any_cons, Bool.or_eq_false_iff] at h
      simp only [setCol, List.map_cons]
      rw [if_neg (beq_eq_false_iff_ne.mp h.1)]
      have := ih (by simp only [hasKey]; exact h.2)
      simp only [setCol] at this
      rw [this]

theorem setCol_split (pre post : List (Str × List Nat)) (k : Str)
    (v l : List Nat) (hpre : hasKey pre k = false)
    (hpost : hasKey post k = false) :
    setCol (pre ++ (k, v) :: post) k l = pre ++ (k, l) :: post := by
  simp only [setCol, List.map_append, List.map_cons, if_pos rfl]
  have h1 : List.map (fun p => if p.1 = k then (p.1, l) else p) pre = pre := by
    have := setCol_not_hasKey pre k l hpre
    simpa [setCol] using this
  have h2 : List.map (fun p => if p.1 = k then (p.1, l) else p) post = post := by
    have := setCol_not_hasKey post k l hpost
    simpa [setCol] using this
  rw [h1, h2]
  simp

theorem keys_split_nodup (pre post : List (Str × List Nat)) (k : Str)
    (v : List Nat)
    (h : nodupByB ((pre ++ (k, v) :: post).map Prod.fst) = true) :
    hasKey pre k = false ∧ hasKey post k = false := by
  rw [nodupByB_iff] at h
  rw [List.map_append, List.map_cons] at h
  rw [List.nodup_append] at h
  obtain ⟨_, h2, h3⟩ := h
  rw [List.nodup_cons] at h2
  constructor
  · rw [hasKey_false_iff]
    intro hm
    exact h3 hm (List.mem_cons_self _ _)
  · rw [hasKey_false_iff]
    exact h2.1

theorem setCol_keys (cols : List (Str × List Nat)) (k : Str) (l : List Nat) :
    (setCol cols k l).map Prod.fst = cols.map Prod.fst := by
  unfold setCol
  rw [List.map_map]
  apply List.map_congr_left
  intro p _
  by_cases hk : p.1 = k
  · simp [hk]
  · simp [hk]

theorem colFieldsOk_iff (fuel : Nat) (h : Heap)
    (cols : List (Str × List Nat)) :
    colFieldsOk fuel h cols = true ↔
      ∀ p ∈ cols, ∃ L, reachRoots fuel h p.2 = some L ∧
        ∀ i ∈ L, i < h.length ∧ (hGet h i).column = p.1 := by
  unfold colFieldsOk
  rw [List.all_eq_true]
  constructor
  · intro hall p hp
    have := hall p hp
    rcases hr : reachRoots fuel h p.2 with _ | L
    · rw [hr] at this; exact Bool.noConfusion this
    · rw [hr] at this
      refine ⟨L, rfl, ?_⟩
      rw [List.all_eq_true] at this
      intro i hi
      have h2 := this i hi
      rw [Bool.and_eq_true, decide_eq_true_iff, beq_iff_eq] at h2
      exact h2
  · intro hall p hp
    obtain ⟨L, hL, hprop⟩ := hall p hp
    rw [hL]
    rw [List.all_eq_true]
    intro i hi
    rw [Bool.and_eq_true, decide_eq_true_iff, beq_iff_eq]
    exact hprop i hi

theorem pyInv_iff (b : PyBoard) :
    pyInv b = true ↔
      ∃ L, allReach (invFuel b) b.heap b.columns = some L ∧
        nodupByB L = true ∧
        colFieldsOk (invFuel b) b.heap b.columns = true ∧
        nodupByB (b.columns.map Prod.fst) = true := by
  unfold pyInv
  rcases hr : allReach (invFuel b) b.heap b.columns with _ | L
  · simp
  · simp only [Bool.and_eq_true]
    constructor
    · rintro ⟨⟨h1, h2⟩, h3⟩
      exact ⟨L, rfl, h1, h2, h3⟩
    · rintro ⟨L2, hL2, h1, h2, h3⟩
      cases Option.some.inj hL2
      exact ⟨⟨h1, h2⟩, h3⟩

theorem allReach_cons (fuel : Nat) (h : Heap) (p : Str × List Nat)
    (cols : List (Str × List Nat)) (L : List Nat)
    (hr : allReach fuel h (p :: cols) = some L) :
    ∃ Lp Lc, reachRoots fuel h p.2 = some Lp ∧
      allReach fuel h cols = some Lc ∧ L = Lp ++ Lc := by
  unfold allReach reachRoots at hr ⊢
  rw [List.flatMap_cons] at hr
  obtain ⟨va, vb, h1, h2, h3⟩ := reachListWith_append_split _ _ _ _ hr
  exact ⟨va, vb, h1, h2, h3⟩

theorem allReach_valid (fuel : Nat) (h : Heap) :
    ∀ (cols : List (Str × List Nat)) (L : List Nat),
      allReach fuel h cols = some L → colFieldsOk fuel h cols = true →
      ∀ i ∈ L, i < h.length := by
  intro cols
  induction cols with
  | nil =>
      intro L hr _ i hi
      simp only [allReach, reachRoots, List.flatMap_nil, reachListWith] at hr
      cases hr
      simp at hi
  | cons p rest ih =>
      intro L hr hc i hi
      obtain ⟨Lp, Lc, h1, h2, h3⟩ := allReach_cons fuel h p rest L hr
      rw [colFieldsOk_iff] at hc
      subst h3
      rcases List.mem_append.mp hi with hip | hic
      · obtain ⟨L2, hL2, hprop⟩ := hc p (List.mem_cons_self _ _)
        rw [h1] at hL2
        cases Option.some.inj hL2
        exact (hprop i hip).1
      · exact ih Lc h2 (by
          rw [colFieldsOk_iff]
          exact fun q hq => hc q (List.mem_cons_of_mem _ hq)) i hic

/-- A successful cascade leaves every heap cell outside the traversed
trees untouched. -/
theorem cascade_untouched (g : Nat) :
    ∀ (l : List Nat) (h : Heap) (nc : Str) (fuel : Nat) (h' : Heap)
      (ids : List Nat),
      reachRoots g h l = some ids →
      updSubsListWith (_update_subtask_columns fuel) h l nc = some h' →
      ∀ j, j ∉ ids → hGet h' j = hGet h j := by
  induction g with
  | zero =>
      intro l
      induction l with
      | nil =>
          intro h nc fuel h' ids hr hu j _
          simp only [updSubsListWith] at hu
          cases hu
          rfl
      | cons t rest _ =>
          intro h nc fuel h' ids hr _ j _
          rcases hrest : reachListWith (treeIds 0 h) rest with _ | xs <;>
            simp only [reachRoots, reachListWith, treeIds, hrest] at hr <;>
            exact Option.noConfusion hr
  | succ γ ih =>
      intro l
      induction l with
      | nil =>
          intro h nc fuel h' ids hr hu j _
          simp only [updSubsListWith] at hu
          cases hu
          rfl
      | cons t rest ihl =>
          intro h nc fuel h' ids hr hu j hj
          simp only [reachRoots, reachListWith] at hr
          rcases hone : treeIds (γ + 1) h t with _ | a
          · rw [hone] at hr; exact Option.noConfusion hr
          · rw [hone] at hr
            rcases hmore : reachListWith (treeIds (γ + 1) h) rest with _ | more
            · rw [hmore] at hr; exact Option.noConfusion hr
            · rw [hmore] at hr
              cases hr
              simp only [treeIds] at hone
              rcases hsub : reachListWith (treeIds γ h) (hGet h t).subtasks
                  with _ | sub
              · rw [hsub] at hone; exact Option.noConfusion hone
              · rw [hsub] at hone
                cases Option.some.inj hone
                simp only [updSubsListWith] at hu
                rcases hin : _update_subtask_columns fuel
                    (hSet h t { hGet h t with column := nc }) t nc with _ | h2
                · rw [hin] at hu; exact Option.noConfusion hu
                · rw [hin] at hu
                  cases fuel with
                  | zero =>
                      simp only [_update_subtask_columns] at hin
                      exact Option.noConfusion hin
                  | succ σ =>
                      simp only [_update_subtask_columns] at hin
                      obtain ⟨hl2, hc2, _⟩ := updSubs_changes σ _ _ _ _ hin
                      set h1 := hSet h t { hGet h t with column := nc } with hh1
                      have hjin : j ∉ (t :: sub) ++ more := hj
                      have hjt : j ≠ t := by
                        intro he
                        exact hjin (List.mem_append.mpr (Or.inl
                          (by rw [he]; exact List.mem_cons_self _ _)))
                      have hjsub : j ∉ sub := fun hmem =>
                        hjin (List.mem_append.mpr (Or.inl
                          (List.mem_cons_of_mem _ hmem)))
                      have hjmore : j ∉ more := fun hmem =>
                        hjin (List.mem_append.mpr (Or.inr hmem))
                      have hsubs1 : ∀ i2, (hGet h1 i2).subtasks = (hGet h i2).subtasks := by
                        intro i2
                        by_cases hit : i2 = t
                        · subst hit
                          by_cases hil : i2 < h.length
                          · rw [hh1, hGet_hSet_self h i2 _ hil]
                          · rw [hh1, hGet_hSet_out h i2 _ hil]
                        · rw [hh1, hGet_hSet_ne h t i2 _ (fun e => hit e.symm)]
                      have step1 : hGet h1 j = hGet h j := by
                        rw [hh1, hGet_hSet_ne h t j _ (fun e => hjt e.symm)]
                      have hr1 : reachRoots γ h1 (hGet h1 t).subtasks = some sub := by
                        rw [hsubs1 t, reachRoots_ext γ _ h h1 hsubs1]
                        exact hsub
                      have step2 : hGet h2 j = hGet h1 j :=
                        ih _ h1 nc σ h2 sub hr1 hin j hjsub
                      have hsubs12 : ∀ i2, (hGet h2 i2).subtasks = (hGet h i2).subtasks := by
                        intro i2
                        rcases hc2 i2 with e | e <;> rw [e] <;> exact hsubs1 i2
                      have hr2 : reachListWith (treeIds (γ + 1) h2) rest = some more := by
                        have hext := reachRoots_ext (γ + 1) rest h h2 hsubs12
                        simp only [reachRoots] at hext
                        rw [hext]; exact hmore
                      have step3 : hGet h' j = hGet h2 j :=
                        ihl h2 nc (σ + 1) h' more hr2 hu j hjmore
                      rw [step3, step2, step1]

theorem swapList_up_perm (L : List Nat) (i : Nat) (h0 : 0 < i)
    (hlen : i < L.length) : List.Perm (swapList L i (i - 1)) L := by
  rw [swapList_comm L i (i - 1) (by omega)]
  have he : i - 1 + 1 = i := by omega
  have hp := swapList_succ_perm (i - 1) L (by omega)
  rw [he] at hp
  exact hp

/-- Replacing one column's id list by a permutation of it preserves
the board invariant. -/
theorem pyInv_setCol_perm (b : PyBoard) (c : Str) (L L2 : List Nat)
    (hga : getAssoc b.columns c = some L)
    (hperm : List.Perm L2 L)
    (hinv : pyInv b = true) :
    pyInv { b with columns := setCol b.columns c L2 } = true := by
  obtain ⟨LG, hLG, hnd, hcfo, hkeys⟩ := (pyInv_iff b).mp hinv
  obtain ⟨pre, post, hsplit, _⟩ := getAssoc_split b.columns c L hga
  have hkeys2 : nodupByB ((pre ++ (c, L) :: post).map Prod.fst) = true := by
    rw [← hsplit]; exact hkeys
  obtain ⟨hpre, hpost⟩ := keys_split_nodup pre post c L hkeys2
  have hset : setCol b.columns c L2 = pre ++ (c, L2) :: post := by
    rw [hsplit]; exact setCol_split pre post c L L2 hpre hpost
  have hFuel : invFuel { b with columns := setCol b.columns c L2 } =
      invFuel b := rfl
  rw [pyInv_iff]
  have hLGsplit : allReach (invFuel b) b.heap (pre ++ (c, L) :: post) =
      some LG := by rw [← hsplit]; exact hLG
  simp only [allReach, reachRoots, List.flatMap_append, List.flatMap_cons]
    at hLGsplit
  obtain ⟨A, rest1, hA, hrest1, hLGeq⟩ :=
    reachListWith_append_split _ _ _ _ hLGsplit
  obtain ⟨M, B, hM, hB, hrest1eq⟩ :=
    reachListWith_append_split _ _ _ _ hrest1
  obtain ⟨M2, hM2, hMperm⟩ :=
    reachListWith_perm (treeIds (invFuel b) b.heap) hperm.symm M hM
  have hnew : allReach (invFuel b) b.heap (pre ++ (c, L2) :: post) =
      some (A ++ (M2 ++ B)) := by
    simp only [allReach, reachRoots, List.flatMap_append, List.flatMap_cons]
    exact reachListWith_append_of _ _ _ _ _ hA
      (reachListWith_append_of _ _ _ _ _ hM2 hB)
  refine ⟨A ++ (M2 ++ B), ?_, ?_, ?_, ?_⟩
  · show allReach (invFuel b) b.heap (setCol b.columns c L2) = _
    rw [hset]
    exact hnew
  · rw [nodupByB_iff]
    have hpermG : List.Perm LG (A ++ (M2 ++ B)) := by
      rw [hLGeq, hrest1eq]
      exact List.Perm.append (List.Perm.refl A)
        (List.Perm.append hMperm (List.Perm.refl B))
    exact hpermG.nodup ((nodupByB_iff LG).mp hnd)
  · show colFieldsOk (invFuel b) b.heap (setCol b.columns c L2) = true
    rw [hset, colFieldsOk_iff]
    intro p hp
    rw [colFieldsOk_iff] at hcfo
    rcases List.mem_append.mp hp with hpp | hpc
    · exact hcfo p (by rw [hsplit]; exact List.mem_append.mpr (Or.inl hpp))
    · rcases List.mem_cons.mp hpc with hpe | hpo
      · subst hpe
        refine ⟨M2, hM2, ?_⟩
        intro i hi
        obtain ⟨Lc, hLc, hpropc⟩ := hcfo (c, L) (by
          rw [hsplit]
          exact List.mem_append.mpr (Or.inr (List.mem_cons_self _ _)))
        have hMLc : Lc = M := by
          simp only [reachRoots] at hLc
          rw [hM] at hLc
          exact Option.some.inj hLc.symm
        exact hpropc i (by rw [hMLc]; exact hMperm.symm.mem_iff.mp hi)
      · exact hcfo p (by
          rw [hsplit]
          exact List.mem_append.mpr (Or.inr (List.mem_cons_of_mem _ hpo)))
  · show nodupByB ((setCol b.columns c L2).map Prod.fst) = true
    rw [setCol_keys]
    exact hkeys

/-- Permuting `subtasks` lists inside the heap (leaving every other
field alone) preserves the board invariant. -/
theorem pyInv_heapPerm (b : PyBoard) (h2 : Heap)
    (hlen : h2.length = b.heap.length)
    (hsubs : ∀ j, List.Perm (hGet h2 j).subtasks (hGet b.heap j).subtasks)
    (hcol : ∀ j, (hGet h2 j).column = (hGet b.heap j).column)
    (hinv : pyInv b = true) :
    pyInv { b with heap := h2 } = true := by
  obtain ⟨LG, hLG, hnd, hcfo, hkeys⟩ := (pyInv_iff b).mp hinv
  have hFuel : invFuel { b with heap := h2 } = invFuel b := by
    simp only [invFuel, hlen]
  rw [pyInv_iff, hFuel]
  have hpoint : ∀ x vx, treeIds (invFuel b) b.heap x = some vx →
      ∃ wx, treeIds (invFuel b) h2 x = some wx ∧ List.Perm vx wx :=
    fun x vx hx => treeIds_perm (invFuel b) b.heap h2 hsubs x vx hx
  simp only [allReach, reachRoots] at hLG
  obtain ⟨LG2, hLG2, hLGperm⟩ :=
    reachListWith_congr_perm _ _ hpoint _ _ hLG
  refine ⟨LG2, ?_, ?_, ?_, ?_⟩
  · show allReach (invFuel b) h2 b.columns = some LG2
    simp only [allReach, reachRoots]
    exact hLG2
  · rw [nodupByB_iff]
    exact hLGperm.nodup ((nodupByB_iff LG).mp hnd)
  · show colFieldsOk (invFuel b) h2 b.columns = true
    rw [colFieldsOk_iff]
    rw [colFieldsOk_iff] at hcfo
    intro p hp
    obtain ⟨Lp, hLp, hprop⟩ := hcfo p hp
    simp only [reachRoots] at hLp
    obtain ⟨Lp2, hLp2, hLpperm⟩ :=
      reachListWith_congr_perm _ _ hpoint _ _ hLp
    refine ⟨Lp2, by simp only [reachRoots]; exact hLp2, ?_⟩
    intro i hi
    have hmem : i ∈ Lp := hLpperm.symm.mem_iff.mp hi
    obtain ⟨h1, h2'⟩ := hprop i hmem
    exact ⟨by rw [hlen]; exact h1, by rw [hcol i]; exact h2'⟩
  · exact hkeys

/-- `reorder_task` preserves the board invariant. -/
theorem reorder_preserves (fuel : Nat) (b : PyBoard) (task : Nat) (d : Str)
    (r : Bool) (b2 : PyBoard) (hinv : pyInv b = true)
    (h : reorder_task fuel b task d = some (r, b2)) : pyInv b2 = true := by
  simp only [reorder_task] at h
  by_cases hlvl : (hGet b.heap task).level = 0
  · rw [if_pos hlvl] at h
    rcases hga : getAssoc b.columns (hGet b.heap task).column with _ | L
    · rw [hga] at h
      simp only [Option.getD] at h
      rcases hpi : pyIndex fuel b.heap ([] : List Nat) task with _ | oi
      · simp only [hpi] at h
        exact Option.noConfusion h
      · rcases oi with _ | i
        · simp only [hpi] at h
          have hb2 : b2 = b := (congrArg Prod.snd (Option.some.inj h)).symm
          rw [hb2]; exact hinv
        · exact absurd (Option.some.inj hpi) (by simp [pyIndex, pyIndexAux])
    · rw [hga] at h
      simp only [Option.getD] at h
      rcases hpi : pyIndex fuel b.heap L task with _ | oi
      · simp only [hpi] at h
        exact Option.noConfusion h
      · rcases oi with _ | i
        · simp only [hpi] at h
          have hb2 : b2 = b := (congrArg Prod.snd (Option.some.inj h)).symm
          rw [hb2]; exact hinv
        · simp only [hpi] at h
          have hilen : i < L.length := pyIndex_lt fuel b.heap L task i hpi
          by_cases hup : d = S "up" ∧ 0 < i
          · rw [if_pos hup] at h
            have hb2 : b2 = { b with columns :=
                (setCol b.columns (hGet b.heap task).column
                  (swapList L i (i - 1))) } :=
              (congrArg Prod.snd (Option.some.inj h)).symm
            rw [hb2]
            exact pyInv_setCol_perm b _ L _ hga
              (swapList_up_perm L i hup.2 hilen) hinv
          · rw [if_neg hup] at h
            by_cases hdn : d = S "down" ∧ i + 1 < L.length
            · rw [if_pos hdn] at h
              have hb2 : b2 = { b with columns :=
                  (setCol b.columns (hGet b.heap task).column
                    (swapList L i (i + 1))) } :=
                (congrArg Prod.snd (Option.some.inj h)).symm
              rw [hb2]
              exact pyInv_setCol_perm b _ L _ hga
                (swapList_succ_perm i L hdn.2) hinv
            · rw [if_neg hdn] at h
              have hb2 : b2 = b := (congrArg Prod.snd (Option.some.inj h)).symm
              rw [hb2]; exact hinv
  · rw [if_neg hlvl] at h
    rcases hpar : (hGet b.heap task).parent with _ | p
    · rw [hpar] at h
      have hb2 : b2 = b := (congrArg Prod.snd (Option.some.inj h)).symm
      rw [hb2]; exact hinv
    · rw [hpar] at h
      rcases hpi : pyIndex fuel b.heap (hGet b.heap p).subtasks task with _ | oi
      · simp only [hpi] at h
        exact Option.noConfusion h
      · rcases oi with _ | i
        · simp only [hpi] at h
          have hb2 : b2 = b := (congrArg Prod.snd (Option.some.inj h)).symm
          rw [hb2]; exact hinv
        · simp only [hpi] at h
          have hilen : i < (hGet b.heap p).subtasks.length :=
            pyIndex_lt fuel b.heap _ task i hpi
          have hcore : ∀ (j2 : Nat),
              List.Perm (swapList (hGet b.heap p).subtasks i j2)
                (hGet b.heap p).subtasks →
              pyInv { b with heap := (hSet b.heap p
                { hGet b.heap p with
                  subtasks := swapList (hGet b.heap p).subtasks i j2 }) } =
                true := by
            intro j2 hperm
            apply pyInv_heapPerm
            · exact hSet_length _ _ _
            · intro j
              by_cases hjp : j = p
              · subst hjp
                by_cases hjl : j < b.heap.length
                · rw [hGet_hSet_self _ j _ hjl]
                  exact hperm
                · rw [hGet_hSet_out _ j _ hjl]
              · rw [hGet_hSet_ne _ p j _ (fun e => hjp e.symm)]
            · intro j
              by_cases hjp : j = p
              · subst hjp
                by_cases hjl : j < b.heap.length
                · rw [hGet_hSet_self _ j _ hjl]
                · rw [hGet_hSet_out _ j _ hjl]
              · rw [hGet_hSet_ne _ p j _ (fun e => hjp e.symm)]
            · exact hinv
          by_cases hup : d = S "up" ∧ 0 < i
          · rw [if_pos hup] at h
            have hb2 : b2 = { b with heap := (hSet b.heap p
                { hGet b.heap p with
                  subtasks := swapList (hGet b.heap p).subtasks i (i - 1) }) } :=
              (congrArg Prod.snd (Option.some.inj h)).symm
            rw [hb2]
            exact hcore (i - 1) (swapList_up_perm _ i hup.2 hilen)
          · rw [if_neg hup] at h
            by_cases hdn : d = S "down" ∧ i + 1 < (hGet b.heap p).subtasks.length
            · rw [if_pos hdn] at h
              have hb2 : b2 = { b with heap := (hSet b.heap p
                  { hGet b.heap p with
                    subtasks :=
                      swapList (hGet b.heap p).subtasks i (i + 1) }) } :=
                (congrArg Prod.snd (Option.some.inj h)).symm
              rw [hb2]
              exact hcore (i + 1) (swapList_succ_perm i _ hdn.2)
            · rw [if_neg hdn] at h
              have hb2 : b2 = b := (congrArg Prod.snd (Option.some.inj h)).symm
              rw [hb2]; exact hinv

theorem get_split {α : Type} (l : List α) (i : Nat) (a : α)
    (h : l.get? i = some a) :
    l = l.take i ++ a :: l.drop (i + 1) ∧ (l.take i).length = i := by
  obtain ⟨hlt, hget⟩ := List.get?_eq_some.mp h
  rw [List.get_eq_getElem] at hget
  constructor
  · rw [← hget, ← List.drop_eq_getElem_cons hlt]
    exact (List.take_append_drop i l).symm
  · exact List.length_take_of_le (Nat.le_of_lt hlt)

/-- Replacing the id list at a key turns the flattened roots into the
old flattened roots with the old list exchanged for the new one, up to
permutation. -/
theorem flatten_setCol (cols : List (Str × List Nat)) (k : Str)
    (V W : List Nat) (hga : getAssoc cols k = some V)
    (hkeys : nodupByB (cols.map Prod.fst) = true) :
    List.Perm ((setCol cols k W).flatMap Prod.snd ++ V)
      (cols.flatMap Prod.snd ++ W) := by
  obtain ⟨pre, post, hsplit, _⟩ := getAssoc_split cols k V hga
  have hkeys2 : nodupByB ((pre ++ (k, V) :: post).map Prod.fst) = true := by
    rw [← hsplit]; exact hkeys
  obtain ⟨hpre, hpost⟩ := keys_split_nodup pre post k V hkeys2
  rw [hsplit, setCol_split pre post k V W hpre hpost]
  simp only [List.flatMap_append, List.flatMap_cons]
  have base : ∀ X Y : List Nat,
      List.Perm ((pre.flatMap Prod.snd ++ (X ++ post.flatMap Prod.snd)) ++ Y)
        ((pre.flatMap Prod.snd ++ post.flatMap Prod.snd) ++ (X ++ Y)) := by
    intro X Y
    have h1 : List.Perm (pre.flatMap Prod.snd ++ (X ++ post.flatMap Prod.snd))
        (pre.flatMap Prod.snd ++ (post.flatMap Prod.snd ++ X)) :=
      List.Perm.append (List.Perm.refl _) List.perm_append_comm
    have h2 := List.Perm.append h1 (List.Perm.refl Y)
    have h3 : (pre.flatMap Prod.snd ++ (post.flatMap Prod.snd ++ X)) ++ Y =
        (pre.flatMap Prod.snd ++ post.flatMap Prod.snd) ++ (X ++ Y) := by
      simp [List.append_assoc]
    rw [h3] at h2
    exact h2
  have hWV := base W V
  have hVW := base V W
  have hmid : List.Perm
      ((pre.flatMap Prod.snd ++ post.flatMap Prod.snd) ++ (W ++ V))
      ((pre.flatMap Prod.snd ++ post.flatMap Prod.snd) ++ (V ++ W)) :=
    List.Perm.append (List.Perm.refl _) List.perm_append_comm
  exact (hWV.trans hmid).trans hVW.symm

/-- Trees hanging from two different column entries are disjoint on a
board whose global reach list has no duplicates. -/
theorem reach_block_disjoint (f : Nat) (h : Heap)
    (cols : List (Str × List Nat)) (LG : List Nat)
    (hLG : allReach f h cols = some LG) (hnd : LG.Nodup)
    (pre post : List (Str × List Nat)) (e : Str × List Nat)
    (hsplit : cols = pre ++ e :: post)
    (q : Str × List Nat) (hq : q ∈ pre ∨ q ∈ post)
    (Lq Le : List Nat)
    (hLq : reachRoots f h q.2 = some Lq)
    (hLe : reachRoots f h e.2 = some Le) :
    ∀ i ∈ Lq, i ∉ Le := by
  subst hsplit
  simp only [allReach, reachRoots, List.flatMap_append, List.flatMap_cons]
    at hLG
  obtain ⟨RP, rest, hRP, hrest, hLGeq⟩ :=
    reachListWith_append_split _ _ _ _ hLG
  obtain ⟨Le2, RQ, hLe2, hRQ, hresteq⟩ :=
    reachListWith_append_split _ _ _ _ hrest
  have hLee : Le = Le2 := by
    simp only [reachRoots] at hLe
    rw [hLe] at hLe2
    exact Option.some.inj hLe2
  subst hLee
  have hndG : (RP ++ (Le ++ RQ)).Nodup := by
    rw [← hresteq, ← hLGeq]; exact hnd
  rcases hq with hq | hq
  · obtain ⟨pa, pb, hpre⟩ := List.mem_iff_append.mp hq
    rw [hpre] at hRP
    simp only [List.flatMap_append, List.flatMap_cons] at hRP
    obtain ⟨X, rest2, _, hrest2, hRPeq⟩ :=
      reachListWith_append_split _ _ _ _ hRP
    obtain ⟨Lq2, Y, hLq2, _, hrest2eq⟩ :=
      reachListWith_append_split _ _ _ _ hrest2
    have hLqq : Lq = Lq2 := by
      simp only [reachRoots] at hLq
      rw [hLq] at hLq2
      exact Option.some.inj hLq2
    subst hLqq
    intro i hi hie
    have hiRP : i ∈ RP := by
      rw [hRPeq, hrest2eq]
      exact List.mem_append.mpr (Or.inr (List.mem_append.mpr (Or.inl hi)))
    have hdisj := (List.nodup_append.mp hndG).2.2
    exact hdisj hiRP (List.mem_append.mpr (Or.inl hie))
  · obtain ⟨pa, pb, hpost⟩ := List.mem_iff_append.mp hq
    rw [hpost] at hRQ
    simp only [List.flatMap_append, List.flatMap_cons] at hRQ
    obtain ⟨X, rest2, _, hrest2, hRQeq⟩ :=
      reachListWith_append_split _ _ _ _ hRQ
    obtain ⟨Lq2, Y, hLq2, _, hrest2eq⟩ :=
      reachListWith_append_split _ _ _ _ hrest2
    have hLqq : Lq = Lq2 := by
      simp only [reachRoots] at hLq
      rw [hLq] at hLq2
      exact Option.some.inj hLq2
    subst hLqq
    intro i hi hie
    have hiRQ : i ∈ RQ := by
      rw [hRQeq, hrest2eq]
      exact List.mem_append.mpr (Or.inr (List.mem_append.mpr (Or.inl hi)))
    have hnd2 : (Le ++ RQ).Nodup := (List.nodup_append.mp hndG).2.1
    exact (List.nodup_append.mp hnd2).2.2 hie hiRQ


theorem append_cons_eq {α : Type} (a : List α) (x : α) (b : List α) :
    a ++ x :: b = (a ++ [x]) ++ b := by
  simp

/-- Core invariant preservation for a successful
`move_task_to_column`, stated over the pieces of its success branch. -/
theorem move_core (b : PyBoard) (task : Nat) (nc : Str)
    (L NL N2 : List Nat) (i σ : Nat) (heap2 : Heap)
    (hinv : pyInv b = true)
    (hga : getAssoc b.columns (hGet b.heap task).column = some L)
    (hLi : L.get? i = some task)
    (hNL : getAssoc (setCol b.columns (hGet b.heap task).column
        (L.eraseIdx i)) nc = some NL)
    (hN2 : N2 = task :: NL ∨ N2 = NL ++ [task])
    (hcasc : _update_subtask_columns (σ + 1)
        (hSet b.heap task { hGet b.heap task with column := nc }) task nc =
        some heap2) :
    pyInv { b with
      columns := (setCol (setCol b.columns (hGet b.heap task).column
        (L.eraseIdx i)) nc N2),
      heap := heap2 } = true := by
  obtain ⟨LG, hLG, hndB, hcfo, hkeys⟩ := (pyInv_iff b).mp hinv
  have hnd : LG.Nodup := (nodupByB_iff LG).mp hndB
  rw [colFieldsOk_iff] at hcfo
  -- name the basic pieces
  have hsplitL : ∃ l1 l2, L = l1 ++ task :: l2 ∧ l1.length = i :=
    ⟨L.take i, L.drop (i + 1), (get_split L i task hLi).1,
      (get_split L i task hLi).2⟩
  obtain ⟨l1, l2, hLsplit, hl1len⟩ := hsplitL
  have hE : L.eraseIdx i = l1 ++ l2 := by
    rw [hLsplit, ← hl1len]
    exact eraseIdx_append_cons l1 task l2
  obtain ⟨pre, post, hcsplit, _⟩ :=
    getAssoc_split b.columns (hGet b.heap task).column L hga
  have hkeys2 : nodupByB ((pre ++ ((hGet b.heap task).column, L) :: post).map
      Prod.fst) = true := by rw [← hcsplit]; exact hkeys
  obtain ⟨hpreF, hpostF⟩ := keys_split_nodup pre post _ L hkeys2
  -- the reach of the source column entry
  obtain ⟨Lc, hLc, hpropc⟩ := hcfo ((hGet b.heap task).column, L) (by
    rw [hcsplit]
    exact List.mem_append.mpr (Or.inr (List.mem_cons_self _ _)))
  -- split the source column reach around the moved task
  have hLc2 : reachListWith (treeIds (invFuel b) b.heap) (l1 ++ task :: l2) =
      some Lc := by
    simp only [reachRoots] at hLc
    rw [← hLsplit]
    exact hLc
  obtain ⟨R1, restc, hR1, hrestc, hLceq⟩ :=
    reachListWith_append_split _ _ _ _ hLc2
  have hrestc2 := hrestc
  simp only [reachListWith] at hrestc2
  rcases hv0 : treeIds (invFuel b) b.heap task with _ | v0
  · rw [hv0] at hrestc2; exact Option.noConfusion hrestc2
  rcases hR2 : reachListWith (treeIds (invFuel b) b.heap) l2 with _ | R2
  · rw [hv0, hR2] at hrestc2; exact Option.noConfusion hrestc2
  rw [hv0, hR2] at hrestc2
  have hrestceq : restc = v0 ++ R2 := (Option.some.inj hrestc2).symm
  -- the shape of the moved task's tree
  have hFsucc : invFuel b = b.heap.length + 1 := rfl
  have hv0' := hv0
  rw [hFsucc] at hv0'
  simp only [treeIds] at hv0'
  rcases hsub0 : reachListWith (treeIds b.heap.length b.heap)
      (hGet b.heap task).subtasks with _ | sub0
  · rw [hsub0] at hv0'; exact Option.noConfusion hv0'
  rw [hsub0] at hv0'
  have hv0eq : v0 = task :: sub0 := (Option.some.inj hv0').symm
  subst hv0eq
  -- membership facts in the source reach
  have hmemLc : ∀ j ∈ task :: sub0, j ∈ Lc := by
    intro j hj
    rw [hLceq, hrestceq]
    exact List.mem_append.mpr (Or.inr (List.mem_append.mpr (Or.inl hj)))
  have htasklen : task < b.heap.length :=
    (hpropc task (hmemLc task (List.mem_cons_self _ _))).1
  -- heap evolution facts
  set heap1 := hSet b.heap task { hGet b.heap task with column := nc }
    with hheap1
  have hlen1 : heap1.length = b.heap.length := hSet_length _ _ _
  have hsubs1 : ∀ j, (hGet heap1 j).subtasks = (hGet b.heap j).subtasks := by
    intro j
    by_cases hjt : j = task
    · subst hjt
      rw [hheap1, hGet_hSet_self _ j _ htasklen]
    · rw [hheap1, hGet_hSet_ne _ task j _ (fun e => hjt e.symm)]
  simp only [_update_subtask_columns] at hcasc
  obtain ⟨hl2, hc2, _⟩ := updSubs_changes σ _ _ _ _ hcasc
  have hlen2 : heap2.length = b.heap.length := by rw [hl2, hlen1]
  have hsubs2 : ∀ j, (hGet heap2 j).subtasks = (hGet b.heap j).subtasks := by
    intro j
    rcases hc2 j with e | e <;> rw [e] <;> exact hsubs1 j
  have hsub0' : reachRoots b.heap.length heap1 (hGet heap1 task).subtasks =
      some sub0 := by
    rw [hsubs1 task, reachRoots_ext _ _ b.heap heap1 hsubs1]
    exact hsub0
  have hfieldv0 : ∀ j ∈ task :: sub0, (hGet heap2 j).column = nc := by
    intro j hj
    rcases List.mem_cons.mp hj with hjt | hjs
    · subst hjt
      have hcol1 : (hGet heap1 j).column = nc := by
        rw [hheap1, hGet_hSet_self _ j _ htasklen]
      rcases hc2 j with e | e
      · rw [e]; exact hcol1
      · rw [e]
    · exact cascade_reach b.heap.length _ heap1 nc σ heap2 sub0 hsub0' hcasc
        j hjs (by rw [hlen1]; exact (hpropc j (hmemLc j hj)).1)
  have huntouch : ∀ j, j ∉ task :: sub0 → hGet heap2 j = hGet b.heap j := by
    intro j hj
    have hjt : j ≠ task := fun e => hj (by rw [e]; exact List.mem_cons_self _ _)
    have hjs : j ∉ sub0 := fun hm => hj (List.mem_cons_of_mem _ hm)
    have s2 : hGet heap2 j = hGet heap1 j :=
      cascade_untouched b.heap.length _ heap1 nc σ heap2 sub0 hsub0' hcasc j hjs
    rw [s2, hheap1, hGet_hSet_ne _ task j _ (fun e => hjt e.symm)]
  -- reach over the final heap agrees with reach over the original heap
  have hext : ∀ X, reachRoots (invFuel b) heap2 X =
      reachRoots (invFuel b) b.heap X :=
    fun X => reachRoots_ext (invFuel b) X b.heap heap2 hsubs2
  -- global reach block structure
  have hLGsplit : reachListWith (treeIds (invFuel b) b.heap)
      (pre.flatMap Prod.snd ++ (L ++ post.flatMap Prod.snd)) = some LG := by
    have := hLG
    rw [hcsplit] at this
    simp only [allReach, reachRoots, List.flatMap_append, List.flatMap_cons]
      at this
    exact this
  obtain ⟨A, restG, hA, hrestG, hLGeq⟩ :=
    reachListWith_append_split _ _ _ _ hLGsplit
  obtain ⟨Lc3, Bb, hLc3, hBb, hrestGeq⟩ :=
    reachListWith_append_split _ _ _ _ hrestG
  have hLc3e : Lc = Lc3 := by
    simp only [reachRoots] at hLc
    rw [hLc] at hLc3
    exact Option.some.inj hLc3
  subst hLc3e
  have hLcnd : Lc.Nodup := by
    have : (A ++ (Lc ++ Bb)).Nodup := by
      rw [← hrestGeq, ← hLGeq]; exact hnd
    exact (List.nodup_append.mp ((List.nodup_append.mp this).2.1)).1
  have hdisjLc : ∀ j ∈ R1 ++ R2, j ∉ task :: sub0 := by
    intro j hj
    rw [hLceq, hrestceq] at hLcnd
    rcases List.mem_append.mp hj with hj1 | hj2
    · intro hjv
      exact (List.nodup_append.mp hLcnd).2.2 hj1
        (List.mem_append.mpr (Or.inl hjv))
    · intro hjv
      have hnd2 : ((task :: sub0) ++ R2).Nodup :=
        (List.nodup_append.mp hLcnd).2.1
      exact (List.nodup_append.mp hnd2).2.2 hjv hj2
  -- facts about the target column list
  have hkeys1 : nodupByB ((setCol b.columns (hGet b.heap task).column
      (L.eraseIdx i)).map Prod.fst) = true := by
    rw [setCol_keys]; exact hkeys
  have hmemR12 : ∀ j ∈ R1 ++ R2, j ∈ Lc := by
    intro j hj
    rw [hLceq, hrestceq]
    rcases List.mem_append.mp hj with hj1 | hj2
    · exact List.mem_append.mpr (Or.inl hj1)
    · exact List.mem_append.mpr (Or.inr (List.mem_append.mpr (Or.inr hj2)))
  have hreachE : reachRoots (invFuel b) b.heap (L.eraseIdx i) =
      some (R1 ++ R2) := by
    rw [hE]
    simp only [reachRoots]
    exact reachListWith_append_of _ _ _ _ _ hR1 hR2
  have hNLfacts : ∃ LN, reachRoots (invFuel b) b.heap NL = some LN ∧
      (∀ j ∈ LN, j < b.heap.length ∧ (hGet b.heap j).column = nc) ∧
      (∀ j ∈ LN, j ∉ task :: sub0) := by
    by_cases hcnc : (hGet b.heap task).column = nc
    · have hNLE : NL = L.eraseIdx i := by
        have hself := getAssoc_setCol_self b.columns
          (hGet b.heap task).column (L.eraseIdx i)
          (hasKey_of_getAssoc _ _ _ hga)
        rw [← hcnc] at hNL
        rw [hself] at hNL
        exact (Option.some.inj hNL).symm
      refine ⟨R1 ++ R2, by rw [hNLE]; exact hreachE, ?_, hdisjLc⟩
      intro j hj
      have := hpropc j (hmemR12 j hj)
      exact ⟨this.1, by rw [← hcnc]; exact this.2⟩
    · have hNLold : getAssoc b.columns nc = some NL := by
        rw [← getAssoc_setCol_ne b.columns (hGet b.heap task).column nc
          (L.eraseIdx i) (fun e => hcnc e.symm)]
        exact hNL
      obtain ⟨qpre, qpost, hqsplit, _⟩ := getAssoc_split b.columns nc NL hNLold
      have hqmem : (nc, NL) ∈ b.columns := by
        rw [hqsplit]
        exact List.mem_append.mpr (Or.inr (List.mem_cons_self _ _))
      have hqpos : (nc, NL) ∈ pre ∨ (nc, NL) ∈ post := by
        rw [hcsplit] at hqmem
        rcases List.mem_append.mp hqmem with hm | hm
        · exact Or.inl hm
        · rcases List.mem_cons.mp hm with hm2 | hm2
          · exact absurd (congrArg Prod.fst hm2) (by
              intro e
              exact hcnc (by simpa using e.symm))
          · exact Or.inr hm2
      obtain ⟨LN, hLN, hpropn⟩ := hcfo (nc, NL) hqmem
      have hdisjn := reach_block_disjoint (invFuel b) b.heap b.columns LG hLG
        hnd pre post ((hGet b.heap task).column, L) hcsplit (nc, NL) hqpos
        LN Lc hLN hLc
      refine ⟨LN, hLN, fun j hj => hpropn j hj, ?_⟩
      intro j hj hjv
      exact hdisjn j hj (hmemLc j hjv)
  obtain ⟨LN, hLNreach, hLNprop, hLNdisj⟩ := hNLfacts
  -- the reach of the new target column list
  have hreachN2 : ∃ LN2, reachRoots (invFuel b) b.heap N2 = some LN2 ∧
      ∀ j ∈ LN2, j ∈ task :: sub0 ∨ j ∈ LN := by
    rcases hN2 with hN2 | hN2
    · refine ⟨(task :: sub0) ++ LN, ?_, ?_⟩
      · rw [hN2]
        simp only [reachRoots, reachListWith, hv0]
        simp only [reachRoots] at hLNreach
        rw [hLNreach]
      · intro j hj
        rcases List.mem_append.mp hj with hj1 | hj2
        · exact Or.inl hj1
        · exact Or.inr hj2
    · refine ⟨LN ++ ((task :: sub0) ++ []), ?_, ?_⟩
      · rw [hN2]
        simp only [reachRoots] at hLNreach ⊢
        refine reachListWith_append_of _ _ _ _ _ hLNreach ?_
        simp only [reachListWith, hv0]
      · intro j hj
        rcases List.mem_append.mp hj with hj1 | hj2
        · exact Or.inr hj1
        · rcases List.mem_append.mp hj2 with hj3 | hj3
          · exact Or.inl hj3
          · simp at hj3
  obtain ⟨LN2, hLN2reach, hLN2mem⟩ := hreachN2
  -- the flattened roots of the final columns permute the original ones
  have hkeys1nd : nodupByB ((setCol b.columns (hGet b.heap task).column
      (L.eraseIdx i)).map Prod.fst) = true := hkeys1
  have hp1 := flatten_setCol b.columns (hGet b.heap task).column L
    (L.eraseIdx i) hga hkeys
  have hp2 := flatten_setCol (setCol b.columns (hGet b.heap task).column
    (L.eraseIdx i)) nc NL N2 hNL hkeys1nd
  have hq1 : List.Perm ((setCol b.columns (hGet b.heap task).column
      (L.eraseIdx i)).flatMap Prod.snd ++ [task])
      (b.columns.flatMap Prod.snd) := by
    have em : List.Perm L (task :: L.eraseIdx i) := by
      rw [hE, hLsplit]
      exact List.perm_middle
    have e1 : List.Perm
        ((setCol b.columns (hGet b.heap task).column
          (L.eraseIdx i)).flatMap Prod.snd ++ L)
        ((setCol b.columns (hGet b.heap task).column
          (L.eraseIdx i)).flatMap Prod.snd ++ (task :: L.eraseIdx i)) :=
      List.Perm.append (List.Perm.refl _) em
    have e2 := (e1.symm.trans hp1)
    rw [append_cons_eq] at e2
    exact (List.perm_append_right_iff (L.eraseIdx i)).mp e2
  have hq2 : List.Perm ((setCol (setCol b.columns
      (hGet b.heap task).column (L.eraseIdx i)) nc N2).flatMap Prod.snd)
      ((setCol b.columns (hGet b.heap task).column
        (L.eraseIdx i)).flatMap Prod.snd ++ [task]) := by
    rcases hN2 with hN2 | hN2
    · rw [hN2]
      rw [hN2] at hp2
      rw [append_cons_eq] at hp2
      exact (List.perm_append_right_iff NL).mp hp2
    · rw [hN2]
      rw [hN2] at hp2
      have e3 : List.Perm
          ((setCol b.columns (hGet b.heap task).column
            (L.eraseIdx i)).flatMap Prod.snd ++ (NL ++ [task]))
          (((setCol b.columns (hGet b.heap task).column
            (L.eraseIdx i)).flatMap Prod.snd ++ [task]) ++ NL) := by
        have e4 : List.Perm (NL ++ [task]) ([task] ++ NL) :=
          List.perm_append_comm
        have e5 := List.Perm.append (List.Perm.refl
          ((setCol b.columns (hGet b.heap task).column
            (L.eraseIdx i)).flatMap Prod.snd)) e4
        have e6 : (setCol b.columns (hGet b.heap task).column
            (L.eraseIdx i)).flatMap Prod.snd ++ ([task] ++ NL) =
            ((setCol b.columns (hGet b.heap task).column
              (L.eraseIdx i)).flatMap Prod.snd ++ [task]) ++ NL := by
          rw [List.append_assoc]
        rw [e6] at e5
        exact e5
      exact (List.perm_append_right_iff NL).mp (hp2.trans e3)
  have hflat2 : List.Perm ((setCol (setCol b.columns
      (hGet b.heap task).column (L.eraseIdx i)) nc N2).flatMap Prod.snd)
      (b.columns.flatMap Prod.snd) := hq2.trans hq1
  -- the new global reach
  have hLGr : reachListWith (treeIds (invFuel b) b.heap)
      (b.columns.flatMap Prod.snd) = some LG := by
    simp only [allReach, reachRoots] at hLG
    exact hLG
  obtain ⟨LG2, hLG2, hpermG⟩ :=
    reachListWith_perm (treeIds (invFuel b) b.heap) hflat2.symm LG hLGr
  -- assemble the invariant of the moved board
  apply (pyInv_iff _).mpr
  have hFF : invFuel { b with
      columns := (setCol (setCol b.columns (hGet b.heap task).column
        (L.eraseIdx i)) nc N2),
      heap := heap2 } = invFuel b := by
    simp only [invFuel]
    rw [hlen2]
  rw [hFF]
  refine ⟨LG2, ?_, ?_, ?_, ?_⟩
  · show allReach (invFuel b) heap2 (setCol (setCol b.columns
      (hGet b.heap task).column (L.eraseIdx i)) nc N2) = some LG2
    have := hext ((setCol (setCol b.columns (hGet b.heap task).column
      (L.eraseIdx i)) nc N2).flatMap Prod.snd)
    simp only [allReach]
    rw [this]
    simp only [reachRoots]
    exact hLG2
  · rw [nodupByB_iff]
    exact hpermG.nodup hnd
  · show colFieldsOk (invFuel b) heap2 (setCol (setCol b.columns
      (hGet b.heap task).column (L.eraseIdx i)) nc N2) = true
    rw [colFieldsOk_iff]
    intro p hp
    have hpmem : ∃ q ∈ b.columns,
        (if ((if q.1 = (hGet b.heap task).column
            then (q.1, L.eraseIdx i) else q) : Str × List Nat).1 = nc
          then (((if q.1 = (hGet b.heap task).column
            then (q.1, L.eraseIdx i) else q) : Str × List Nat).1, N2)
          else (if q.1 = (hGet b.heap task).column
            then (q.1, L.eraseIdx i) else q)) = p := by
      unfold setCol at hp
      rw [List.map_map] at hp
      obtain ⟨q, hq, hgq⟩ := List.mem_map.mp hp
      exact ⟨q, hq, hgq⟩
    obtain ⟨q, hq, hpq⟩ := hpmem
    by_cases hQnc : q.1 = nc
    · have hpv : p = (q.1, N2) := by
        rw [← hpq]
        by_cases hqc : q.1 = (hGet b.heap task).column
        · rw [if_pos hqc, if_pos hQnc]
        · rw [if_neg hqc, if_pos hQnc]
      rw [hpv]
      refine ⟨LN2, ?_, ?_⟩
      · rw [hext]
        exact hLN2reach
      · intro j hj
        rcases hLN2mem j hj with hjv | hjn
        · refine ⟨?_, by rw [hQnc]; exact hfieldv0 j hjv⟩
          rw [hlen2]
          exact (hpropc j (hmemLc j hjv)).1
        · have hu := huntouch j (hLNdisj j hjn)
          refine ⟨?_, ?_⟩
          · rw [hlen2]
            exact (hLNprop j hjn).1
          · rw [hu, hQnc]
            exact (hLNprop j hjn).2
    · by_cases hQc : q.1 = (hGet b.heap task).column
      · have hpv : p = (q.1, L.eraseIdx i) := by
          rw [← hpq]
          rw [if_pos hQc, if_neg hQnc]
        rw [hpv]
        refine ⟨R1 ++ R2, ?_, ?_⟩
        · rw [hext]
          exact hreachE
        · intro j hj
          have hu := huntouch j (hdisjLc j hj)
          have hpc := hpropc j (hmemR12 j hj)
          refine ⟨by rw [hlen2]; exact hpc.1, ?_⟩
          rw [hu, hQc]
          exact hpc.2
      · have hpv : p = q := by
          rw [← hpq]
          rw [if_neg hQc, if_neg hQnc]
        rw [hpv]
        obtain ⟨Lq, hLq, hpropq⟩ := hcfo q hq
        have hqpos : q ∈ pre ∨ q ∈ post := by
          have hqm := hq
          rw [hcsplit] at hqm
          rcases List.mem_append.mp hqm with hm | hm
          · exact Or.inl hm
          · rcases List.mem_cons.mp hm with hm2 | hm2
            · exact absurd (congrArg Prod.fst hm2) (by
                intro e
                exact hQc (by simpa using e))
            · exact Or.inr hm2
        have hdisjq := reach_block_disjoint (invFuel b) b.heap b.columns LG
          hLG hnd pre post ((hGet b.heap task).column, L) hcsplit q hqpos
          Lq Lc hLq hLc
        refine ⟨Lq, by rw [hext]; exact hLq, ?_⟩
        intro j hj
        have hjnc : j ∉ task :: sub0 := by
          intro hjv
          exact hdisjq j hj (hmemLc j hjv)
        have hu := huntouch j hjnc
        have hpp := hpropq j hj
        exact ⟨by rw [hlen2]; exact hpp.1, by rw [hu]; exact hpp.2⟩
  · show nodupByB ((setCol (setCol b.columns
      (hGet b.heap task).column (L.eraseIdx i)) nc N2).map Prod.fst) = true
    rw [setCol_keys, setCol_keys]
    exact hkeys

/-- `move_task_to_column` preserves the board invariant whenever the
task it is given is found at its own position (`moveSafe`). -/
theorem move_preserves (fuel : Nat) (b : PyBoard) (task : Nat)
    (nc ins : Str) (r : Bool) (b2 : PyBoard)
    (hinv : pyInv b = true) (hsafe : moveSafe fuel b task)
    (h : move_task_to_column fuel b task nc ins = some (r, b2)) :
    pyInv b2 = true := by
  simp only [move_task_to_column] at h
  by_cases hk : hasKey b.columns nc
  · rw [if_neg (by simp [hk])] at h
    rcases hga : getAssoc b.columns (hGet b.heap task).column with _ | L
    · rw [hga] at h
      simp only [Option.getD] at h
      rcases hpi : pyIndex fuel b.heap ([] : List Nat) task with _ | oi
      · simp only [hpi] at h
        exact Option.noConfusion h
      · rcases oi with _ | i
        · simp only [hpi] at h
          have hb2 : b2 = b := (congrArg Prod.snd (Option.some.inj h)).symm
          rw [hb2]; exact hinv
        · exact absurd (Option.some.inj hpi) (by simp [pyIndex, pyIndexAux])
    · rw [hga] at h
      simp only [Option.getD] at h
      rcases hpi : pyIndex fuel b.heap L task with _ | oi
      · simp only [hpi] at h
        exact Option.noConfusion h
      · rcases oi with _ | i
        · simp only [hpi] at h
          have hb2 : b2 = b := (congrArg Prod.snd (Option.some.inj h)).symm
          rw [hb2]; exact hinv
        · simp only [hpi] at h
          have hLi : L.get? i = some task := by
            unfold moveSafe at hsafe
            rw [hga] at hsafe
            simp only [Option.getD, hpi] at hsafe
            exact hsafe
          have hk1 : hasKey (setCol b.columns (hGet b.heap task).column
              (L.eraseIdx i)) nc = true := by
            rw [hasKey_setCol]; exact hk
          obtain ⟨NL, hNL⟩ := getAssoc_of_hasKey _ nc hk1
          rw [hNL] at h
          simp only [Option.getD] at h
          rcases hcasc : _update_subtask_columns fuel
              (hSet b.heap task { hGet b.heap task with column := nc })
              task nc with _ | heap2
          · simp only [hcasc] at h
            exact Option.noConfusion h
          · simp only [hcasc] at h
            cases fuel with
            | zero => exact Option.noConfusion hcasc
            | succ σ =>
                have hpair := Option.some.inj h
                injection hpair with hr hb
                rw [← hb]
                exact move_core b task nc L NL _ i σ heap2 hinv hga hLi hNL
                  (by
                    by_cases hins : ins = S "start"
                    · rw [if_pos hins]; exact Or.inl rfl
                    · rw [if_neg hins]; exact Or.inr rfl) hcasc
  · rw [if_pos (by simp [hk])] at h
    have hb2 : b2 = b := (congrArg Prod.snd (Option.some.inj h)).symm
    rw [hb2]; exact hinv



theorem appendIdCol_keys (cols : List (Str × List Nat)) (k : Str) (i : Nat) :
    (appendIdCol cols k i).map Prod.fst = cols.map Prod.fst := by
  unfold appendIdCol
  rw [List.map_map]
  apply List.map_congr_left
  intro p _
  by_cases hk : p.1 = k
  · simp [hk]
  · simp [hk]

theorem appendIdCol_not_hasKey (cols : List (Str × List Nat)) (k : Str)
    (i : Nat) (h : hasKey cols k = false) : appendIdCol cols k i = cols := by
  induction cols with
  | nil => rfl
  | cons p rest ih =>
      simp only [hasKey, List.any_cons, Bool.or_eq_false_iff] at h
      simp only [appendIdCol, List.map_cons]
      rw [if_neg (beq_eq_false_iff_ne.mp h.1)]
      have := ih (by simp only [hasKey]; exact h.2)
      simp only [appendIdCol] at this
      rw [this]

theorem appendIdCol_split (pre post : List (Str × List Nat)) (k : Str)
    (V : List Nat) (i : Nat) (hpre : hasKey pre k = false)
    (hpost : hasKey post k = false) :
    appendIdCol (pre ++ (k, V) :: post) k i = pre ++ (k, V ++ [i]) :: post := by
  simp only [appendIdCol, List.map_append, List.map_cons, if_pos rfl]
  have h1 : List.map (fun p => if p.1 = k then (p.1, p.2 ++ [i]) else p) pre =
      pre := by
    have := appendIdCol_not_hasKey pre k i hpre
    simpa [appendIdCol] using this
  have h2 : List.map (fun p => if p.1 = k then (p.1, p.2 ++ [i]) else p) post =
      post := by
    have := appendIdCol_not_hasKey post k i hpost
    simpa [appendIdCol] using this
  rw [h1, h2]
  simp

theorem flatten_append_unit (cols : List (Str × List Nat)) (k : Str) :
    (cols ++ [(k, ([] : List Nat))]).flatMap Prod.snd =
      cols.flatMap Prod.snd := by
  simp

theorem keys_append_unit_nodup (cols : List (Str × List Nat)) (k : Str)
    (v : List Nat) (hnd : nodupByB (cols.map Prod.fst) = true)
    (hk : hasKey cols k = false) :
    nodupByB ((cols ++ [(k, v)]).map Prod.fst) = true := by
  rw [nodupByB_iff] at hnd ⊢
  rw [List.map_append]
  rw [List.nodup_append]
  refine ⟨hnd, by simp, ?_⟩
  intro x hx
  simp only [List.map_cons, List.map_nil, List.mem_singleton]
  intro he
  rw [hasKey_false_iff] at hk
  exact hk (he ▸ hx)

theorem mem_append_unit {α : Type} (l : List α) (a x : α)
    (h : x ∈ l ++ [a]) : x ∈ l ∨ x = a := by
  rcases List.mem_append.mp h with h2 | h2
  · exact Or.inl h2
  · exact Or.inr (List.mem_singleton.mp h2)

theorem colPairs_map_snd (cols : List (Str × List Nat)) :
    (colPairs cols).map Prod.snd = cols.flatMap Prod.snd := by
  induction cols with
  | nil => rfl
  | cons p rest ih =>
      simp only [colPairs, List.flatMap_cons, List.map_append, List.map_map]
      simp only [colPairs] at ih
      rw [ih]
      congr 1
      simp

theorem colPairs_mem (cols : List (Str × List Nat)) (q : Str × Nat)
    (h : q ∈ colPairs cols) : ∃ l, (q.1, l) ∈ cols ∧ q.2 ∈ l := by
  induction cols with
  | nil => simp [colPairs] at h
  | cons p rest ih =>
      simp only [colPairs, List.flatMap_cons] at h
      rcases List.mem_append.mp h with h2 | h2
      · obtain ⟨i, hi, hqi⟩ := List.mem_map.mp h2
        refine ⟨p.2, ?_, ?_⟩
        · rw [← hqi]
          exact List.mem_cons_self _ _
        · rw [← hqi]
          exact hi
      · obtain ⟨l, hl, hql⟩ := ih h2
        exact ⟨l, List.mem_cons_of_mem _ hl, hql⟩

theorem fold_cols_eq_pairs (D : List Str) (M : List (Str × FeishuTask)) :
    ∀ (cols : List (Str × List Nat)) (st : List (Str × List Nat) × Heap),
      cols.foldl (fun st2 p => p.2.foldl (applyStep D M p.1) st2) st =
        (colPairs cols).foldl (fun st2 q => applyStep D M q.1 st2 q.2) st := by
  intro cols
  induction cols with
  | nil => intro st; rfl
  | cons p rest ih =>
      intro st
      simp only [List.foldl_cons, colPairs, List.flatMap_cons,
        List.foldl_append]
      rw [List.foldl_map]
      simp only [colPairs] at ih
      exact ih _

theorem treeIds_extend (h e : Heap) (f f2 : Nat) (t : Nat) (v : List Nat)
    (hr : treeIds f h t = some v) (hval : ∀ i ∈ v, i < h.length)
    (hf : f ≤ f2) : treeIds f2 (h ++ e) t = some v :=
  treeIds_mono f f2 (h ++ e) t v hf (treeIds_append e f h t v hr hval)

theorem reachRoots_extend (h e : Heap) (f f2 : Nat) (X : List Nat)
    (L : List Nat) (hr : reachRoots f h X = some L)
    (hval : ∀ i ∈ L, i < h.length) (hf : f ≤ f2) :
    reachRoots f2 (h ++ e) X = some L := by
  simp only [reachRoots] at hr ⊢
  have hpt : ∀ x ∈ X, treeIds f2 (h ++ e) x = treeIds f h x := by
    intro x hx
    obtain ⟨vx, h1, h2⟩ := reachListWith_decomp _ _ _ hr x hx
    rw [h1]
    exact treeIds_extend h e f f2 x vx h1 (fun i hi => hval i (h2 i hi)) hf
  rw [reachListWith_congr _ _ _ hpt]
  exact hr

theorem perm_insert_block (RA RV RB v0 : List Nat) :
    List.Perm (RA ++ ((RV ++ (v0 ++ [])) ++ RB)) ((RA ++ (RV ++ RB)) ++ v0) := by
  rw [List.append_nil]
  have h1 : List.Perm ((RV ++ v0) ++ RB) ((RV ++ RB) ++ v0) := by
    have e1 : (RV ++ v0) ++ RB = RV ++ (v0 ++ RB) := by
      rw [List.append_assoc]
    have e2 : List.Perm (RV ++ (v0 ++ RB)) (RV ++ (RB ++ v0)) :=
      List.Perm.append (List.Perm.refl RV) List.perm_append_comm
    have e3 : RV ++ (RB ++ v0) = (RV ++ RB) ++ v0 := by
      rw [List.append_assoc]
    rw [e1, ← e3]
    exact e2
  have h2 := List.Perm.append (List.Perm.refl RA) h1
  have e4 : RA ++ ((RV ++ RB) ++ v0) = (RA ++ (RV ++ RB)) ++ v0 := by
    simp [List.append_assoc]
  rw [e4] at h2
  exact h2

theorem nodup_swap_root (LC sub0 LF2 : List Nat) (id nid : Nat)
    (hnd : (LC ++ ((id :: sub0) ++ LF2)).Nodup)
    (h1 : nid ∉ LC) (h2 : nid ∉ sub0) (h3 : nid ∉ LF2) :
    ((LC ++ (nid :: sub0)) ++ LF2).Nodup := by
  have e1 : (LC ++ (nid :: sub0)) ++ LF2 = LC ++ (nid :: (sub0 ++ LF2)) := by
    simp [List.append_assoc]
  have e2 : LC ++ ((id :: sub0) ++ LF2) = LC ++ (id :: (sub0 ++ LF2)) := by
    simp [List.append_assoc]
  rw [e1]
  rw [e2] at hnd
  have p1 : List.Perm (LC ++ (nid :: (sub0 ++ LF2)))
      (nid :: (LC ++ (sub0 ++ LF2))) := List.perm_middle
  have p2 : List.Perm (LC ++ (id :: (sub0 ++ LF2)))
      (id :: (LC ++ (sub0 ++ LF2))) := List.perm_middle
  rw [p1.nodup_iff]
  have hnd2 := p2.nodup hnd
  rw [List.nodup_cons] at hnd2 ⊢
  refine ⟨?_, hnd2.2⟩
  intro hm
  rcases List.mem_append.mp hm with hm2 | hm2
  · exact h1 hm2
  · rcases List.mem_append.mp hm2 with hm3 | hm3
    · exact h2 hm3
    · exact h3 hm3

theorem reachListWith_mem_src (f : Nat → Option (List Nat)) :
    ∀ (l : List Nat) (v : List Nat), reachListWith f l = some v →
      ∀ i ∈ v, ∃ x ∈ l, ∃ vx, f x = some vx ∧ i ∈ vx := by
  intro l
  induction l with
  | nil =>
      intro v hv i hi
      cases hv
      simp at hi
  | cons t rest ih =>
      intro v hv i hi
      simp only [reachListWith] at hv
      rcases ht : f t with _ | a
      · rw [ht] at hv; exact Option.noConfusion hv
      · rw [ht] at hv
        rcases hr : reachListWith f rest with _ | bb
        · rw [hr] at hv; exact Option.noConfusion hv
        · rw [hr] at hv
          cases hv
          rcases List.mem_append.mp hi with hia | hib
          · exact ⟨t, List.mem_cons_self _ _, a, ht, hia⟩
          · obtain ⟨x, hx, vx, h1, h2⟩ := ih bb hr i hib
            exact ⟨x, List.mem_cons_of_mem _ hx, vx, h1, h2⟩

/-- The common step of the apply fold: attach a root (an existing kept
id or a fresh replacement cell) to the column keyed `tk` of the current
state, with the heap possibly extended. -/
theorem apply_attach (b : PyBoard) (st : List (Str × List Nat) × Heap)
    (todo2 : List (Str × Nat)) (colsE : List (Str × List Nat)) (tk : Str)
    (e : Heap) (root id : Nat) (sub0 LF2 LC : List Nat)
    (hext : ∃ ext, st.2 = b.heap ++ ext)
    (hkeysE : nodupByB (colsE.map Prod.fst) = true)
    (hentriesE : ∀ p ∈ colsE, ∃ Lp,
      reachRoots (st.2.length + 1) st.2 p.2 = some Lp ∧
      ∀ i ∈ Lp, i < st.2.length ∧ (hGet st.2 i).column = p.1)
    (hflatE : colsE.flatMap Prod.snd = st.1.flatMap Prod.snd)
    (hhkE : hasKey colsE tk = true)
    (hLC : allReach (st.2.length + 1) st.2 st.1 = some LC)
    (hLCval : ∀ i ∈ LC, i < st.2.length)
    (hLF2 : reachListWith (treeIds (invFuel b) b.heap) (todo2.map Prod.snd) =
      some LF2)
    (hLF2val : ∀ i ∈ LF2, i < b.heap.length)
    (hndCF : (LC ++ ((id :: sub0) ++ LF2)).Nodup)
    (hroottree : treeIds ((st.2 ++ e).length + 1) (st.2 ++ e) root =
      some (root :: sub0))
    (hrootval : root < (st.2 ++ e).length)
    (hrootcol : (hGet (st.2 ++ e) root).column = tk)
    (hsub0val : ∀ i ∈ sub0, i < b.heap.length)
    (hsub0col : ∀ i ∈ sub0, (hGet b.heap i).column = tk)
    (hrootkind : root = id ∨ (root ∉ LC ∧ root ∉ sub0 ∧ root ∉ LF2)) :
    applyInv b (appendIdCol colsE tk root, st.2 ++ e) todo2 := by
  obtain ⟨ext, hexte⟩ := hext
  have hbl : b.heap.length ≤ st.2.length := by
    rw [hexte, List.length_append]
    omega
  have hsl : st.2.length ≤ (st.2 ++ e).length := by
    rw [List.length_append]
    omega
  have hagree : ∀ j, j < st.2.length → hGet (st.2 ++ e) j = hGet st.2 j :=
    fun j hj => hGet_append_left _ _ _ hj
  have hagree0 : ∀ j, j < b.heap.length → hGet st.2 j = hGet b.heap j := by
    intro j hj
    rw [hexte]
    exact hGet_append_left _ _ _ hj
  obtain ⟨V, hV⟩ := getAssoc_of_hasKey colsE tk hhkE
  obtain ⟨pre, post, hsplit, _⟩ := getAssoc_split colsE tk V hV
  have hkeysE2 : nodupByB ((pre ++ (tk, V) :: post).map Prod.fst) = true := by
    rw [← hsplit]; exact hkeysE
  obtain ⟨hpreF, hpostF⟩ := keys_split_nodup pre post tk V hkeysE2
  have happ : appendIdCol colsE tk root = pre ++ (tk, V ++ [root]) :: post := by
    rw [hsplit]
    exact appendIdCol_split pre post tk V root hpreF hpostF
  -- block structure of the current global reach
  have hLCE : reachListWith (treeIds (st.2.length + 1) st.2)
      (pre.flatMap Prod.snd ++ (V ++ post.flatMap Prod.snd)) = some LC := by
    have h2 := hLC
    simp only [allReach, reachRoots] at h2
    rw [← hflatE, hsplit] at h2
    simp only [List.flatMap_append, List.flatMap_cons] at h2
    exact h2
  obtain ⟨RA, restC, hRA, hrestC, hLCeq1⟩ :=
    reachListWith_append_split _ _ _ _ hLCE
  obtain ⟨RV, RB, hRV, hRB, hrestCeq⟩ :=
    reachListWith_append_split _ _ _ _ hrestC
  have hLCeq : LC = RA ++ (RV ++ RB) := by rw [hLCeq1, hrestCeq]
  have hRAval : ∀ i ∈ RA, i < st.2.length := by
    intro i hi
    exact hLCval i (by rw [hLCeq]; exact List.mem_append.mpr (Or.inl hi))
  have hRVval : ∀ i ∈ RV, i < st.2.length := by
    intro i hi
    exact hLCval i (by
      rw [hLCeq]
      exact List.mem_append.mpr (Or.inr (List.mem_append.mpr (Or.inl hi))))
  have hRBval : ∀ i ∈ RB, i < st.2.length := by
    intro i hi
    exact hLCval i (by
      rw [hLCeq]
      exact List.mem_append.mpr (Or.inr (List.mem_append.mpr (Or.inr hi))))
  have htrans : ∀ (X LX : List Nat),
      reachListWith (treeIds (st.2.length + 1) st.2) X = some LX →
      (∀ i ∈ LX, i < st.2.length) →
      reachListWith (treeIds ((st.2 ++ e).length + 1) (st.2 ++ e)) X =
        some LX := by
    intro X LX hr hval
    have h2 := reachRoots_extend st.2 e (st.2.length + 1)
      ((st.2 ++ e).length + 1) X LX (by simp only [reachRoots]; exact hr)
      hval (by omega)
    simp only [reachRoots] at h2
    exact h2
  have hRA2 := htrans _ RA hRA hRAval
  have hRV2 := htrans _ RV hRV hRVval
  have hRB2 := htrans _ RB hRB hRBval
  have hroot1 : reachListWith (treeIds ((st.2 ++ e).length + 1) (st.2 ++ e))
      [root] = some ((root :: sub0) ++ []) := by
    simp only [reachListWith, hroottree]
  have hmid := reachListWith_append_of _ _ _ _ _ hRV2 hroot1
  have hLCnew := reachListWith_append_of _ _ _ _ _ hRA2
    (reachListWith_append_of _ _ _ _ _ hmid hRB2)
  have hperm0 := perm_insert_block RA RV RB (root :: sub0)
  have hpermC : List.Perm
      (RA ++ ((RV ++ ((root :: sub0) ++ [])) ++ RB)) (LC ++ (root :: sub0)) := by
    rw [hLCeq]
    exact hperm0
  refine ⟨⟨ext ++ e, by rw [hexte, List.append_assoc]⟩, ?_, ?_, ?_⟩
  · show nodupByB ((appendIdCol colsE tk root).map Prod.fst) = true
    rw [appendIdCol_keys]
    exact hkeysE
  · show ∀ p ∈ appendIdCol colsE tk root, ∃ Lp,
      reachRoots ((st.2 ++ e).length + 1) (st.2 ++ e) p.2 = some Lp ∧
      ∀ i ∈ Lp, i < (st.2 ++ e).length ∧ (hGet (st.2 ++ e) i).column = p.1
    intro p hp
    rw [happ] at hp
    rcases List.mem_append.mp hp with hpp | hpc
    · obtain ⟨Lp, hLp, hprop⟩ := hentriesE p (by
        rw [hsplit]; exact List.mem_append.mpr (Or.inl hpp))
      refine ⟨Lp, ?_, ?_⟩
      · exact reachRoots_extend st.2 e (st.2.length + 1)
          ((st.2 ++ e).length + 1) p.2 Lp hLp (fun i hi => (hprop i hi).1)
          (by omega)
      · intro i hi
        have h2 := hprop i hi
        refine ⟨by omega, ?_⟩
        rw [hagree i h2.1]
        exact h2.2
    · rcases List.mem_cons.mp hpc with hpe | hpo
      · subst hpe
        refine ⟨RV ++ ((root :: sub0) ++ []), ?_, ?_⟩
        · show reachRoots _ _ (V ++ [root]) = _
          simp only [reachRoots]
          exact hmid
        · intro i hi
          rcases List.mem_append.mp hi with hiv | hir
          · -- members of the old entry list
            obtain ⟨LV, hLV, hpropV⟩ := hentriesE (tk, V) (by
              rw [hsplit]
              exact List.mem_append.mpr (Or.inr (List.mem_cons_self _ _)))
            have hLVe : LV = RV := by
              simp only [reachRoots] at hLV
              rw [hLV] at hRV
              exact Option.some.inj hRV
            have h2 := hpropV i (by rw [hLVe]; exact hiv)
            refine ⟨by omega, ?_⟩
            rw [hagree i h2.1]
            exact h2.2
          · rcases List.mem_append.mp hir with hirr | hinil
            · rcases List.mem_cons.mp hirr with hie | his
              · subst hie
                exact ⟨hrootval, hrootcol⟩
              · refine ⟨by have := hsub0val i his; omega, ?_⟩
                rw [hagree i (by have := hsub0val i his; omega),
                  hagree0 i (hsub0val i his)]
                exact hsub0col i his
            · simp at hinil
      · obtain ⟨Lp, hLp, hprop⟩ := hentriesE p (by
          rw [hsplit]
          exact List.mem_append.mpr (Or.inr (List.mem_cons_of_mem _ hpo)))
        refine ⟨Lp, ?_, ?_⟩
        · exact reachRoots_extend st.2 e (st.2.length + 1)
            ((st.2 ++ e).length + 1) p.2 Lp hLp (fun i hi => (hprop i hi).1)
            (by omega)
        · intro i hi
          have h2 := hprop i hi
          refine ⟨by omega, ?_⟩
          rw [hagree i h2.1]
          exact h2.2
  · show ∃ LC2 LF3,
      allReach ((st.2 ++ e).length + 1) (st.2 ++ e)
        (appendIdCol colsE tk root) = some LC2 ∧
      (∀ i ∈ LC2, i < (st.2 ++ e).length) ∧
      reachListWith (treeIds (invFuel b) b.heap) (todo2.map Prod.snd) =
        some LF3 ∧
      (LC2 ++ LF3).Nodup
    refine ⟨RA ++ ((RV ++ ((root :: sub0) ++ [])) ++ RB), LF2, ?_, ?_, hLF2, ?_⟩
    · show allReach _ (st.2 ++ e) (appendIdCol colsE tk root) = _
      simp only [allReach, reachRoots]
      rw [happ]
      simp only [List.flatMap_append, List.flatMap_cons]
      exact hLCnew
    · intro i hi
      have hi2 := hpermC.mem_iff.mp hi
      rcases List.mem_append.mp hi2 with hiL | hir
      · have := hLCval i hiL
        omega
      · rcases List.mem_cons.mp hir with hie | his
        · subst hie
          exact hrootval
        · have := hsub0val i his
          omega
    · have hattach : ((LC ++ (root :: sub0)) ++ LF2).Nodup := by
        rcases hrootkind with hre | ⟨hr1, hr2, hr3⟩
        · subst hre
          have he : (LC ++ (root :: sub0)) ++ LF2 =
              LC ++ ((root :: sub0) ++ LF2) := by
            rw [List.append_assoc]
          rw [he]
          exact hndCF
        · exact nodup_swap_root LC sub0 LF2 id root hndCF hr1 hr2 hr3
      have hpermF : List.Perm
          ((RA ++ ((RV ++ ((root :: sub0) ++ [])) ++ RB)) ++ LF2)
          ((LC ++ (root :: sub0)) ++ LF2) :=
        List.Perm.append hpermC (List.Perm.refl LF2)
      exact hpermF.nodup_iff.mpr hattach

/-- One step of the apply fold preserves `applyInv`. -/
theorem applyStep_inv (b : PyBoard) (D : List Str)
    (M : List (Str × FeishuTask)) (cn : Str) (id : Nat)
    (todo2 : List (Str × Nat)) (st : List (Str × List Nat) × Heap)
    (hinv : applyInv b st ((cn, id) :: todo2))
    (hfutq : ∃ v, treeIds (invFuel b) b.heap id = some v ∧
      ∀ i ∈ v, i < b.heap.length ∧ (hGet b.heap i).column = cn)
    (hfutr : ∀ q ∈ todo2, ∃ v, treeIds (invFuel b) b.heap q.2 = some v ∧
      ∀ i ∈ v, i < b.heap.length ∧ (hGet b.heap i).column = q.1)
    (hsafeq : D.contains (hGet b.heap id).title = true ∨
      ∀ r, getAssoc M (hGet b.heap id).title = some r →
        (hGet b.heap id).subtasks = [] ∨ r.status = cn) :
    applyInv b (applyStep D M cn st id) todo2 := by
  obtain ⟨⟨ext, hexte⟩, hkeys, hentries, LC, LF, hLC, hLCval, hLF, hndCF⟩ :=
    hinv
  obtain ⟨v0, hv0, hv0prop⟩ := hfutq
  have hFsucc : invFuel b = b.heap.length + 1 := rfl
  have hv0u := hv0
  rw [hFsucc] at hv0u
  simp only [treeIds] at hv0u
  rcases hsub0 : reachListWith (treeIds b.heap.length b.heap)
      (hGet b.heap id).subtasks with _ | sub0
  · rw [hsub0] at hv0u; exact absurd hv0u (by simp)
  rw [hsub0] at hv0u
  have hv0eq : v0 = id :: sub0 := (Option.some.inj hv0u).symm
  subst hv0eq
  simp only [List.map_cons, reachListWith] at hLF
  rw [hv0] at hLF
  rcases hLF2 : reachListWith (treeIds (invFuel b) b.heap)
      (todo2.map Prod.snd) with _ | LF2
  · rw [hLF2] at hLF; exact absurd hLF (by simp)
  rw [hLF2] at hLF
  have hLFeq : LF = (id :: sub0) ++ LF2 := (Option.some.inj hLF).symm
  subst hLFeq
  have hidlen : id < b.heap.length := (hv0prop id (List.mem_cons_self _ _)).1
  have hbl : b.heap.length ≤ st.2.length := by
    rw [hexte, List.length_append]; omega
  have htid : hGet st.2 id = hGet b.heap id := by
    rw [hexte]; exact hGet_append_left _ _ _ hidlen
  have hsub0val : ∀ i ∈ sub0, i < b.heap.length :=
    fun i hi => (hv0prop i (List.mem_cons_of_mem _ hi)).1
  have hLF2val : ∀ i ∈ LF2, i < b.heap.length := by
    intro i hi
    obtain ⟨x, hx, vx, hvx, hivx⟩ := reachListWith_mem_src _ _ _ hLF2 i hi
    obtain ⟨q, hq, hqx⟩ := List.mem_map.mp hx
    obtain ⟨v2, hv2, hv2prop⟩ := hfutr q hq
    rw [hqx] at hv2
    rw [hvx] at hv2
    cases Option.some.inj hv2
    exact (hv2prop i hivx).1
  have hdropNodup : (LC ++ LF2).Nodup := by
    have hsub : List.Sublist (LC ++ LF2) (LC ++ ((id :: sub0) ++ LF2)) :=
      List.Sublist.append_left (List.sublist_append_right _ _) LC
    exact List.Nodup.sublist hsub hndCF
  have hsame : applyInv b st todo2 :=
    ⟨⟨ext, hexte⟩, hkeys, hentries, LC, LF2, hLC, hLCval, hLF2, hdropNodup⟩
  have hid_st : treeIds (st.2.length + 1) st.2 id = some (id :: sub0) := by
    rw [hexte]
    exact treeIds_extend b.heap ext (invFuel b)
      ((b.heap ++ ext).length + 1) id (id :: sub0) hv0
      (fun i hi => (hv0prop i hi).1)
      (by rw [List.length_append, hFsucc]; omega)
  by_cases hdel : D.contains (hGet st.2 id).title
  · rw [applyStep_skip D M cn st id hdel]
    exact hsame
  · rcases hm : getAssoc M (hGet st.2 id).title with _ | r
    · rw [applyStep_keep D M cn st id (by simpa using hdel) hm]
      by_cases hhk : hasKey st.1 cn
      · have h2 := apply_attach b st todo2 st.1 cn [] id id sub0 LF2 LC
          ⟨ext, hexte⟩ hkeys hentries rfl hhk hLC hLCval hLF2 hLF2val hndCF
          (by rw [List.append_nil]; exact hid_st)
          (by rw [List.append_nil]; omega)
          (by rw [List.append_nil, htid]
              exact (hv0prop id (List.mem_cons_self _ _)).2)
          hsub0val
          (fun i hi => (hv0prop i (List.mem_cons_of_mem _ hi)).2)
          (Or.inl rfl)
        rw [List.append_nil] at h2
        exact h2
      · rw [appendIdCol_not_hasKey st.1 cn id (by simpa using hhk)]
        exact hsame
    · rw [applyStep_repl D M cn st id r (by simpa using hdel) hm]
      have hmb : getAssoc M (hGet b.heap id).title = some r := by
        rw [← htid]; exact hm
      have hdelb : D.contains (hGet b.heap id).title = false := by
        rw [← htid]; simpa using hdel
      have hsafe2 : (hGet b.heap id).subtasks = [] ∨ r.status = cn := by
        rcases hsafeq with h2 | h2
        · rw [hdelb] at h2; exact absurd h2 (by simp)
        · exact h2 r hmb
      have hrepsubs : (replacementTask (hGet st.2 id) r).subtasks =
          (hGet b.heap id).subtasks := by
        show (hGet st.2 id).subtasks = _
        rw [htid]
      have hsub0tk : ∀ i ∈ sub0, (hGet b.heap i).column = r.status := by
        rcases hsafe2 with hs | hs
        · have hz : sub0 = [] := by
            rw [hs] at hsub0
            simp only [reachListWith] at hsub0
            exact (Option.some.inj hsub0).symm
          rw [hz]; intro i hi; simp at hi
        · intro i hi
          rw [hs]
          exact (hv0prop i (List.mem_cons_of_mem _ hi)).2
      have hfresh1 : st.2.length ∉ LC := by
        intro hmem
        have := hLCval _ hmem
        omega
      have hfresh2 : st.2.length ∉ sub0 := by
        intro hmem
        have := hsub0val _ hmem
        omega
      have hfresh3 : st.2.length ∉ LF2 := by
        intro hmem
        have := hLF2val _ hmem
        omega
      have hchild : ∀ x ∈ (hGet b.heap id).subtasks,
          treeIds (st.2 ++ [replacementTask (hGet st.2 id) r]).length
            (st.2 ++ [replacementTask (hGet st.2 id) r]) x =
          treeIds b.heap.length b.heap x := by
        intro x hx
        obtain ⟨vx, h1, h2⟩ := reachListWith_decomp _ _ _ hsub0 x hx
        rw [h1]
        have he2 : st.2 ++ [replacementTask (hGet st.2 id) r] =
            b.heap ++ (ext ++ [replacementTask (hGet st.2 id) r]) := by
          rw [hexte, List.append_assoc]
        rw [he2]
        exact treeIds_extend b.heap _ b.heap.length _ x vx h1
          (fun i hi => hsub0val i (h2 i hi))
          (by rw [List.length_append]; omega)
      have hnidtree : treeIds
          ((st.2 ++ [replacementTask (hGet st.2 id) r]).length + 1)
          (st.2 ++ [replacementTask (hGet st.2 id) r]) st.2.length =
          some (st.2.length :: sub0) := by
        simp only [treeIds]
        rw [hGet_append_last, hrepsubs,
          reachListWith_congr _ _ _ hchild, hsub0]
      by_cases hne : r.status ≠ cn
      · rw [if_pos hne]
        by_cases hhk : hasKey st.1 r.status
        · rw [if_pos hhk]
          exact apply_attach b st todo2 st.1 r.status
            [replacementTask (hGet st.2 id) r] st.2.length id sub0 LF2 LC
            ⟨ext, hexte⟩ hkeys hentries rfl hhk hLC hLCval hLF2 hLF2val hndCF
            hnidtree
            (by rw [List.length_append]; simp)
            (by rw [hGet_append_last]; rfl)
            hsub0val hsub0tk
            (Or.inr ⟨hfresh1, hfresh2, hfresh3⟩)
        · rw [if_neg hhk]
          have hhkF : hasKey st.1 r.status = false := by simpa using hhk
          exact apply_attach b st todo2 (st.1 ++ [(r.status, [])]) r.status
            [replacementTask (hGet st.2 id) r] st.2.length id sub0 LF2 LC
            ⟨ext, hexte⟩
            (keys_append_unit_nodup st.1 r.status [] hkeys hhkF)
            (by
              intro p hp
              rcases mem_append_unit st.1 (r.status, []) p hp with hp2 | hp2
              · exact hentries p hp2
              · refine ⟨[], ?_, ?_⟩
                · rw [hp2]
                  rfl
                · intro i hi
                  simp at hi)
            (flatten_append_unit st.1 r.status)
            (hasKey_append_right st.1 r.status [])
            hLC hLCval hLF2 hLF2val hndCF
            hnidtree
            (by rw [List.length_append]; simp)
            (by rw [hGet_append_last]; rfl)
            hsub0val hsub0tk
            (Or.inr ⟨hfresh1, hfresh2, hfresh3⟩)
      · rw [if_neg hne]
        have hstat : r.status = cn := not_not.mp hne
        by_cases hhk : hasKey st.1 cn
        · exact apply_attach b st todo2 st.1 cn
            [replacementTask (hGet st.2 id) r] st.2.length id sub0 LF2 LC
            ⟨ext, hexte⟩ hkeys hentries rfl hhk hLC hLCval hLF2 hLF2val hndCF
            hnidtree
            (by rw [List.length_append]; simp)
            (by rw [hGet_append_last]; exact hstat)
            hsub0val (by rw [← hstat]; exact hsub0tk)
            (Or.inr ⟨hfresh1, hfresh2, hfresh3⟩)
        · rw [appendIdCol_not_hasKey st.1 cn st.2.length (by simpa using hhk)]
          have htrans2 : ∀ (X LX : List Nat),
              reachListWith (treeIds (st.2.length + 1) st.2) X = some LX →
              (∀ i ∈ LX, i < st.2.length) →
              reachListWith (treeIds
                ((st.2 ++ [replacementTask (hGet st.2 id) r]).length + 1)
                (st.2 ++ [replacementTask (hGet st.2 id) r])) X = some LX := by
            intro X LX hr hval
            have h2 := reachRoots_extend st.2
              [replacementTask (hGet st.2 id) r] (st.2.length + 1)
              ((st.2 ++ [replacementTask (hGet st.2 id) r]).length + 1) X LX
              (by simp only [reachRoots]; exact hr) hval
              (by rw [List.length_append]; omega)
            simp only [reachRoots] at h2
            exact h2
          refine ⟨⟨ext ++ [replacementTask (hGet st.2 id) r],
            by rw [hexte, List.append_assoc]⟩, hkeys, ?_, ?_⟩
          · show ∀ p ∈ st.1, ∃ Lp, reachRoots
              ((st.2 ++ [replacementTask (hGet st.2 id) r]).length + 1)
              (st.2 ++ [replacementTask (hGet st.2 id) r]) p.2 = some Lp ∧
              ∀ i ∈ Lp,
                i < (st.2 ++ [replacementTask (hGet st.2 id) r]).length ∧
                (hGet (st.2 ++ [replacementTask (hGet st.2 id) r]) i).column =
                  p.1
            intro p hp
            obtain ⟨Lp, hLp, hprop⟩ := hentries p hp
            refine ⟨Lp, ?_, ?_⟩
            · exact reachRoots_extend st.2 _ (st.2.length + 1) _ p.2 Lp hLp
                (fun i hi => (hprop i hi).1)
                (by rw [List.length_append]; omega)
            · intro i hi
              have h2 := hprop i hi
              refine ⟨by rw [List.length_append]; omega, ?_⟩
              rw [hGet_append_left _ _ _ h2.1]
              exact h2.2
          · show ∃ LC2 LF3, allReach
              ((st.2 ++ [replacementTask (hGet st.2 id) r]).length + 1)
              (st.2 ++ [replacementTask (hGet st.2 id) r]) st.1 = some LC2 ∧
              (∀ i ∈ LC2,
                i < (st.2 ++ [replacementTask (hGet st.2 id) r]).length) ∧
              reachListWith (treeIds (invFuel b) b.heap)
                (todo2.map Prod.snd) = some LF3 ∧
              (LC2 ++ LF3).Nodup
            refine ⟨LC, LF2, ?_, ?_, hLF2, hdropNodup⟩
            · have h2 := hLC
              simp only [allReach, reachRoots] at h2 ⊢
              exact htrans2 _ LC h2 hLCval
            · intro i hi
              have := hLCval i hi
              rw [List.length_append]
              omega

/-- The apply fold over all (column, root) pairs preserves
`applyInv`. -/
theorem applyFold_inv (b : PyBoard) (D : List Str)
    (M : List (Str × FeishuTask)) :
    ∀ (todo : List (Str × Nat)) (st : List (Str × List Nat) × Heap),
      applyInv b st todo →
      (∀ q ∈ todo, ∃ v, treeIds (invFuel b) b.heap q.2 = some v ∧
        ∀ i ∈ v, i < b.heap.length ∧ (hGet b.heap i).column = q.1) →
      (∀ q ∈ todo, D.contains (hGet b.heap q.2).title = true ∨
        ∀ r, getAssoc M (hGet b.heap q.2).title = some r →
          (hGet b.heap q.2).subtasks = [] ∨ r.status = q.1) →
      applyInv b (todo.foldl (fun st2 q => applyStep D M q.1 st2 q.2) st)
        [] := by
  intro todo
  induction todo with
  | nil => intro st h _ _; exact h
  | cons q rest ih =>
      intro st h hfut hsafe
      simp only [List.foldl_cons]
      have hstep := applyStep_inv b D M q.1 q.2 rest st h
        (hfut q (List.mem_cons_self _ _))
        (fun p hp => hfut p (List.mem_cons_of_mem _ hp))
        (hsafe q (List.mem_cons_self _ _))
      exact ih _ hstep (fun p hp => hfut p (List.mem_cons_of_mem _ hp))
        (fun p hp => hsafe p (List.mem_cons_of_mem _ hp))

/-- One `applyNew` step preserves `applyInv`. -/
theorem applyNew_inv (b : PyBoard) (ft : FeishuTask)
    (st : List (Str × List Nat) × Heap) (h : applyInv b st []) :
    applyInv b (applyNew st ft) [] := by
  obtain ⟨⟨ext, hexte⟩, hkeys, hentries, LC, LF, hLC, hLCval, hLF, hndCF⟩ := h
  have hLFe : LF = [] := by
    simp only [List.map_nil, reachListWith] at hLF
    exact (Option.some.inj hLF).symm
  subst hLFe
  have hLCnd : LC.Nodup := by simpa using hndCF
  have hnd2 : (LC ++ ((st.2.length :: ([] : List Nat)) ++ [])).Nodup := by
    have h2 : (LC ++ [st.2.length]).Nodup := by
      rw [List.nodup_append]
      refine ⟨hLCnd, by simp, ?_⟩
      intro x hx
      simp only [List.mem_singleton]
      intro he
      have := hLCval x hx
      omega
    simpa using h2
  have hnidtree : ∀ (e2 : Heap), hGet (st.2 ++ e2) st.2.length =
      feishu_task_to_task ft →
      treeIds ((st.2 ++ e2).length + 1) (st.2 ++ e2) st.2.length =
        some (st.2.length :: ([] : List Nat)) := by
    intro e2 hg
    simp only [treeIds]
    rw [hg]
    rfl
  simp only [applyNew]
  by_cases hhk : hasKey st.1 ft.status
  · rw [if_pos hhk]
    exact apply_attach b st [] st.1 ft.status [feishu_task_to_task ft]
      st.2.length st.2.length [] [] LC
      ⟨ext, hexte⟩ hkeys hentries rfl hhk hLC hLCval rfl (by simp) hnd2
      (hnidtree _ (hGet_append_last _ _))
      (by rw [List.length_append]; simp)
      (by rw [hGet_append_last]; rfl)
      (by simp) (by simp)
      (Or.inl rfl)
  · rw [if_neg hhk]
    have hhkF : hasKey st.1 ft.status = false := by simpa using hhk
    exact apply_attach b st [] (st.1 ++ [(ft.status, [])]) ft.status
      [feishu_task_to_task ft] st.2.length st.2.length [] [] LC
      ⟨ext, hexte⟩
      (keys_append_unit_nodup st.1 ft.status [] hkeys hhkF)
      (by
        intro p hp
        rcases mem_append_unit st.1 (ft.status, []) p hp with hp2 | hp2
        · exact hentries p hp2
        · refine ⟨[], ?_, ?_⟩
          · rw [hp2]
            rfl
          · intro i hi
            simp at hi)
      (flatten_append_unit st.1 ft.status)
      (hasKey_append_right st.1 ft.status [])
      hLC hLCval rfl (by simp) hnd2
      (hnidtree _ (hGet_append_last _ _))
      (by rw [List.length_append]; simp)
      (by rw [hGet_append_last]; rfl)
      (by simp) (by simp)
      (Or.inl rfl)

/-- The new-tasks fold preserves `applyInv`. -/
theorem applyFoldNew_inv (b : PyBoard) :
    ∀ (fts : List FeishuTask) (st : List (Str × List Nat) × Heap),
      applyInv b st [] → applyInv b (fts.foldl applyNew st) [] := by
  intro fts
  induction fts with
  | nil => intro st h; exact h
  | cons ft rest ih =>
      intro st h
      simp only [List.foldl_cons]
      exact ih _ (applyNew_inv b ft st h)

theorem initCols_keys (cols : List (Str × List Nat)) :
    (cols.map (fun p => (p.1, ([] : List Nat)))).map Prod.fst =
      cols.map Prod.fst := by
  rw [List.map_map]
  apply List.map_congr_left
  intro p _
  rfl

theorem initCols_flatten (cols : List (Str × List Nat)) :
    (cols.map (fun p => (p.1, ([] : List Nat)))).flatMap Prod.snd = [] := by
  induction cols with
  | nil => rfl
  | cons p rest ih => simp only [List.map_cons, List.flatMap_cons, ih]; rfl

/-- `apply_remote_changes` preserves the board invariant for safe
plans (`applySafe`). -/
theorem apply_preserves (b : PyBoard) (new_tasks : List FeishuTask)
    (modified : List (Nat × FeishuTask)) (deleted : List Nat)
    (hinv : pyInv b = true)
    (hsafe : applySafe b modified deleted = true) :
    pyInv (apply_remote_changes b new_tasks modified deleted) = true := by
  obtain ⟨LG, hLG, hndB, hcfo, hkeys⟩ := (pyInv_iff b).mp hinv
  rw [colFieldsOk_iff] at hcfo
  simp only [apply_remote_changes]
  rw [fold_cols_eq_pairs]
  have hinit : applyInv b
      (b.columns.map (fun p => (p.1, ([] : List Nat))), b.heap)
      (colPairs b.columns) := by
    refine ⟨⟨[], (List.append_nil b.heap).symm⟩, ?_, ?_, ?_⟩
    · show nodupByB ((b.columns.map
        (fun p => (p.1, ([] : List Nat)))).map Prod.fst) = true
      rw [initCols_keys]
      exact hkeys
    · intro p hp
      obtain ⟨q, _, hq2⟩ := List.mem_map.mp hp
      refine ⟨[], ?_, ?_⟩
      · rw [← hq2]
        rfl
      · intro i hi
        simp at hi
    · refine ⟨[], LG, ?_, by simp, ?_, ?_⟩
      · show allReach _ b.heap (b.columns.map
          (fun p => (p.1, ([] : List Nat)))) = some []
        simp only [allReach, reachRoots]
        rw [initCols_flatten]
        rfl
      · rw [colPairs_map_snd]
        have h2 := hLG
        simp only [allReach, reachRoots] at h2
        exact h2
      · simp only [List.nil_append]
        exact (nodupByB_iff LG).mp hndB
  have hfut : ∀ q ∈ colPairs b.columns,
      ∃ v, treeIds (invFuel b) b.heap q.2 = some v ∧
        ∀ i ∈ v, i < b.heap.length ∧ (hGet b.heap i).column = q.1 := by
    intro q hq
    obtain ⟨l, hl, hql⟩ := colPairs_mem b.columns q hq
    obtain ⟨Ll, hLl, hprop⟩ := hcfo (q.1, l) hl
    simp only [reachRoots] at hLl
    obtain ⟨vx, h1, h2⟩ := reachListWith_decomp _ _ _ hLl q.2 hql
    exact ⟨vx, h1, fun i hi => hprop i (h2 i hi)⟩
  have hsafeP : ∀ q ∈ colPairs b.columns,
      (deleted.map (fun i => (hGet b.heap i).title)).contains
        (hGet b.heap q.2).title = true ∨
      ∀ r, getAssoc (modified.foldl
          (fun acc p => setAssoc acc (hGet b.heap p.1).title p.2) [])
          (hGet b.heap q.2).title = some r →
        (hGet b.heap q.2).subtasks = [] ∨ r.status = q.1 := by
    intro q hq
    obtain ⟨l, hl, hql⟩ := colPairs_mem b.columns q hq
    simp only [applySafe, List.all_eq_true] at hsafe
    have h2 := hsafe (q.1, l) hl q.2 hql
    rw [Bool.or_eq_true] at h2
    rcases h2 with h2 | h2
    · exact Or.inl h2
    · refine Or.inr ?_
      intro r hr
      rw [hr] at h2
      rw [Bool.or_eq_true] at h2
      rcases h2 with h2 | h2
      · exact Or.inl (by
          rw [List.isEmpty_iff] at h2
          exact h2)
      · exact Or.inr (beq_iff_eq.mp h2)
  have h1 := applyFold_inv b _ _ (colPairs b.columns) _ hinit hfut hsafeP
  have h2 := applyFoldNew_inv b new_tasks _ h1
  obtain ⟨_, hkeys2, hentries2, LC, LF, hLC, hLCval, hLF, hnd2⟩ := h2
  have hLFe : LF = [] := by
    simp only [List.map_nil, reachListWith] at hLF
    exact (Option.some.inj hLF).symm
  subst hLFe
  apply (pyInv_iff _).mpr
  refine ⟨LC, hLC, ?_, ?_, hkeys2⟩
  · rw [nodupByB_iff]
    simpa using hnd2
  · exact (colFieldsOk_iff _ _ _).mpr hentries2


/-- A safe sequence of board operations preserves the invariant. -/
theorem execOps_preserves (fuel : Nat) :
    ∀ (ops : List BoardOp) (b b2 : PyBoard),
      pyInv b = true → safeSeq fuel b ops → execOps fuel b ops = some b2 →
      pyInv b2 = true := by
  intro ops
  induction ops with
  | nil =>
      intro b b2 hinv _ hex
      simp only [execOps] at hex
      cases hex
      exact hinv
  | cons op rest ih =>
      intro b b2 hinv hsafe hex
      simp only [execOps] at hex
      rcases hop : execOp fuel b op with _ | pr
      · rw [hop] at hex
        exact Option.noConfusion hex
      · rw [hop] at hex
        have hinv2 : pyInv pr.2 = true := by
          cases op with
          | reorder t d =>
              exact reorder_preserves fuel b t d pr.1 pr.2 hinv hop
          | move t c i =>
              exact move_preserves fuel b t c i pr.1 pr.2 hinv hsafe.1 hop
        have hrest : safeSeq fuel pr.2 rest := hsafe.2 pr.1 pr.2 hop
        exact ih pr.2 b2 hinv2 hrest hex

/-- Claim C6 (amended): starting from a board satisfying the
column-membership invariant, the invariant still holds after any
sequence of `reorder_task` / `move_task_to_column` calls in which
every move finds its task at its own position (`safeSeq`, true in
particular when no value-equal duplicate precedes it), and after
`apply_remote_changes` for any pull plan in which every surviving
modified top-level task either has no subtasks or keeps its column
(`applySafe`). -/
theorem claim_C6_invariant_amended (fuel : Nat) (b b1 : PyBoard)
    (ops : List BoardOp) (new_tasks : List FeishuTask)
    (modified : List (Nat × FeishuTask)) (deleted : List Nat)
    (hinv : pyInv b = true)
    (hsafe : safeSeq fuel b ops)
    (hexec : execOps fuel b ops = some b1)
    (happly : applySafe b1 modified deleted = true) :
    pyInv b1 = true ∧
    pyInv (apply_remote_changes b1 new_tasks modified deleted) = true := by
  have h1 := execOps_preserves fuel ops b b1 hinv hsafe hexec
  exact ⟨h1, apply_preserves b1 new_tasks modified deleted h1 happly⟩

/-- Claim C6 (amended), witness: `cascBoard` satisfies the invariant;
moving its nested-subtree task `top` to `Done` is safe and yields
`cascMoved`; replacing `top` by a remote record that keeps the `Done`
status is a safe plan; the invariant holds after the move and after
the apply. -/
theorem claim_C6_invariant_amended_witness :
    pyInv cascBoard = true ∧
    execOps 10 cascBoard [BoardOp.move 0 (S "Done") (S "end")] =
      some cascMoved ∧
    applySafe cascMoved [(0, c6Remote)] [] = true ∧
    (pyInv cascMoved = true ∧
      pyInv (apply_remote_changes cascMoved [] [(0, c6Remote)] []) = true) :=
  ⟨by decide, by decide, by decide,
    claim_C6_invariant_amended 10 cascBoard cascMoved
      [BoardOp.move 0 (S "Done") (S "end")] [] [(0, c6Remote)] []
      (by decide)
      ⟨(by decide : ((getAssoc cascBoard.columns
          (hGet cascBoard.heap 0).column).getD []).get? 0 = some 0),
        fun r b2 _ => trivial⟩
      (by decide) (by decide)⟩

/-! String and scanner lemmas for the round-trip theorem (claim C1). -/

theorem priMatchAt_head_ne (c : Char) (r : Str) (hc : c ≠ '!') :
    priMatchAt (c :: r) = none := by
  unfold priMatchAt
  split
  · rename_i heq
    injection heq with h1 _
    exact absurd h1 hc
  · rfl

theorem priFind_cons_none (c : Char) (r : Str)
    (h : priMatchAt (c :: r) = none) : priFind (c :: r) = priFind r := by
  simp only [priFind, h]

theorem priFind_sp (z : Str) : priFind (' ' :: z) = priFind z :=
  priFind_cons_none ' ' z (priMatchAt_head_ne ' ' z (by decide))

theorem tsMatchAt_head_ne (c : Char) (r : Str) (hc : c ≠ '~') :
    tsMatchAt (c :: r) = none := by
  unfold tsMatchAt
  split
  · rename_i heq
    injection heq with h1 _
    exact absurd h1 hc
  · rfl

theorem tsFind_cons_none (c : Char) (r : Str)
    (h : tsMatchAt (c :: r) = none) : tsFind (c :: r) = tsFind r := by
  simp only [tsFind, h]

theorem tsFind_sp (z : Str) : tsFind (' ' :: z) = tsFind z :=
  tsFind_cons_none ' ' z (tsMatchAt_head_ne ' ' z (by decide))

theorem tsStrip_cons_nomatch (c : Char) (r : Str)
    (h : tsMatchAt (c :: r) = none) : tsStrip (c :: r) = c :: tsStrip r := by
  conv_lhs => unfold tsStrip
  split
  · rename_i y1 y2 y3 y4 mo1 mo2 dd1 dd2 hh1 hh2 mi1 mi2 tail heq
    rw [heq] at h
    simp only [tsMatchAt] at h
    split at h
    · exact Option.noConfusion h
    · rename_i hcond
      rw [if_neg hcond]
      injection heq with h1 h2
      rw [h1, h2]
  · rename_i c2 rest heq
    injection heq with h1 h2
    rw [h1, h2]
  · rename_i heq
    exact List.noConfusion heq

theorem tsStrip_no_tilde (x z : Str) (hx : ∀ c ∈ x, c ≠ '~') :
    tsStrip (x ++ z) = x ++ tsStrip z := by
  induction x with
  | nil => rfl
  | cons c x2 ih =>
      rw [List.cons_append,
        tsStrip_cons_nomatch c _ (tsMatchAt_head_ne c _ (hx c (List.mem_cons_self _ _))),
        ih (fun d hd => hx d (List.mem_cons_of_mem _ hd)), List.cons_append]

/-! Parser machine lemmas: pops, spines and their collapse. -/

theorem popFrame_current (st : PState) : (popFrame st).current = st.current := by
  obtain ⟨C, cur, stack⟩ := st
  rcases stack with _ | ⟨fr, below⟩
  · rfl
  · rcases below with _ | ⟨p, rest⟩
    · by_cases hl : fr.level = 0 <;> simp [popFrame, hl]
    · rfl

theorem popToLevel_current (lvl : Nat) (st : PState) :
    (popToLevel lvl st).current = st.current := by
  unfold popToLevel
  generalize st.stack.length = f
  induction f generalizing st with
  | zero => rfl
  | succ f2 ih =>
      have hstep : popToAux (f2 + 1) lvl st =
          if lvl < st.stack.length then popToAux f2 lvl (popFrame st) else st := rfl
      rw [hstep]
      by_cases hlt : lvl < st.stack.length
      · rw [if_pos hlt, ih (popFrame st), popFrame_current]
      · rw [if_neg hlt]

theorem tsStrip_all_notilde (x : Str) (hx : ∀ c ∈ x, c ≠ '~') : tsStrip x = x := by
  have h := tsStrip_no_tilde x [] hx
  rw [show tsStrip ([] : Str) = [] from rfl, List.append_nil] at h
  exact h

theorem trim_cons_sp (y : Str) : trim (' ' :: y) = trim y := rfl

theorem parse_task_content_sp (W : Str) :
    parse_task_content (' ' :: W) = parse_task_content W := by
  show (let tags := findTagsAux none (' ' :: W); _) = _
  have h1 : findTagsAux none (' ' :: W) = findTagsAux none W := rfl
  have h2 : stripTagsAux none (' ' :: W) = ' ' :: stripTagsAux none W := rfl
  have h3 : priFind (' ' :: W) = priFind W := priFind_sp W
  have h4 : tsFind (' ' :: W) = tsFind W := tsFind_sp W
  show parse_task_content (' ' :: W) = parse_task_content W
  unfold parse_task_content
  show (let tags := findTags (' ' :: W);
    let title1 := trim (stripTags (' ' :: W)); _) = _
  have h5 : trim (stripTags (' ' :: W)) = trim (stripTags W) := by
    show trim (stripTagsAux none (' ' :: W)) = _
    rw [h2]
    exact trim_cons_sp _
  have h6 : findTags (' ' :: W) = findTags W := h1
  simp only [h5, h6, h3, h4]

end Tuido
